import Mathlib

/-!
# wlm-operator: the Slurm adapter and the results tool

A shallow embedding of `pkg/slurm/slurm.go` (the scheduler client: submission,
version query, `scontrol` response parsing, archive extraction) and of the
archive code it shares with `cmd/results/main.go`, followed by theorems about
the embedded functions.

Conventions of the embedding:

* a Go string is the list of its Unicode code points (`Str`); the text handled
  here is UTF-8, and every separator the code searches for is ASCII, so that
  byte-wise and code-point-wise searching agree;
* a Go function returning `(T, error)` returns a pair whose second component is
  an `Option Error` (`none` is the `nil` error);
* the outside world (child processes, the file system) is passed in explicitly;
* the helpers `parseTime` and `ParseDuration` live in a file of the package
  that is not part of the sources at hand; they are parameters (`Parsers`).
-/

namespace Wlm

/-! ## Strings -/

/-- A Go string, as the sequence of its code points. -/
abbrev Str := List Char

/-- Go `unicode.IsSpace`: the Latin-1 white space characters, and the
`White_Space` property beyond Latin-1. -/
def IsSpace (c : Char) : Bool :=
  let n := c.toNat
  if n ≤ 0xFF then
    n == 0x09 || n == 0x0A || n == 0x0B || n == 0x0C || n == 0x0D || n == 0x20
      || n == 0x85 || n == 0xA0
  else
    n == 0x1680 || (0x2000 ≤ n && n ≤ 0x200A) || n == 0x2028 || n == 0x2029
      || n == 0x202F || n == 0x205F || n == 0x3000

/-- Go `strings.TrimSpace`: leading and trailing white space removed. -/
def TrimSpace (s : Str) : Str := (s.dropWhile IsSpace).rdropWhile IsSpace

/-- Go `strings.HasPrefix`. -/
def HasPrefix (s pre : Str) : Bool := pre.isPrefixOf s

/-- The loop of Go `strings.Split` for a non-empty separator: cut at each
leftmost occurrence of `sep`, scanning on behind it. The counter is the number
of characters of an occurrence still to be passed over. The result is never
empty: its head is the piece being read. -/
def splitGo (sep : Str) : Nat → Str → List Str
  | _, [] => [[]]
  | skip + 1, _ :: cs => splitGo sep skip cs
  | 0, c :: cs =>
    if sep.isPrefixOf (c :: cs) then [] :: splitGo sep (sep.length - 1) cs
    else
      match splitGo sep 0 cs with
      | [] => [[c]]
      | p :: ps => (c :: p) :: ps

/-- Go `strings.Split(s, sep)`. With an empty separator the string is exploded
into its characters. -/
def Split (s sep : Str) : List Str :=
  if sep = [] then s.map (fun c => [c]) else splitGo sep 0 s

/-- The scan of Go `strings.Fields`; `cur` is the field being read, reversed. -/
def fieldsGo : Str → Str → List Str
  | cur, [] => if cur = [] then [] else [cur.reverse]
  | cur, c :: cs =>
    if IsSpace c then
      if cur = [] then fieldsGo [] cs else cur.reverse :: fieldsGo [] cs
    else fieldsGo (c :: cur) cs

/-- Go `strings.Fields`: the maximal runs of non-space characters. -/
def Fields (s : Str) : List Str := fieldsGo [] s

/-- Go `strings.Join`. -/
def Join : List Str → Str → Str
  | [], _ => []
  | [a], _ => a
  | a :: b :: rest, sep => a ++ sep ++ Join (b :: rest) sep

/-! ## Errors -/

/-- The two causes of a `strconv.NumError`. -/
inductive NumErr
  | ErrSyntax
  | ErrRange
  deriving DecidableEq

/-- Error values. The three sentinels of the package are values of their own
(Go compares them by identity); `New` is a fresh `errors.New`/`errors.Errorf`
value; `Wrapped` is what `errors.Wrap`/`errors.Wrapf` build around a cause;
`NumError` is `*strconv.NumError`; `Foreign` is an error made by other code
(the operating system, a child process, the archive reader); `EOF` is the
sentinel `io.EOF`. -/
inductive Error
  | ErrDurationIsUnlimited
  | ErrInvalidSacctResponse
  | ErrFileNotFound
  | New (msg : Str)
  | Wrapped (cause : Error) (msg : Str)
  | NumError (Func Num : Str) (Err : NumErr)
  | Foreign (msg : Str)
  | EOF
  deriving DecidableEq

/-- The method `Error()`: the message of an error value. `quote` stands for
`strconv.Quote`, used by `*strconv.NumError`. -/
def Error.Error (quote : Str → Str) : Error → Str
  | .ErrDurationIsUnlimited => "duration is unlimited".toList
  | .ErrInvalidSacctResponse => "unable to parse sacct response".toList
  | .ErrFileNotFound => "file is not found".toList
  | .New msg => msg
  | .Wrapped cause msg => msg ++ ": ".toList ++ cause.Error quote
  | .NumError fn num e =>
    "strconv.".toList ++ fn ++ ": parsing ".toList ++ quote num ++ ": ".toList ++
      (match e with
       | .ErrSyntax => "invalid syntax".toList
       | .ErrRange => "value out of range".toList)
  | .Foreign msg => msg
  | .EOF => "EOF".toList

/-- The functions `errors.Wrap` and `errors.Wrapf` of `github.com/pkg/errors`
(the format already applied): a `nil` error stays `nil`. -/
def Wrap (err : Option Error) (msg : Str) : Option Error :=
  match err with
  | none => none
  | some e => some (.Wrapped e msg)

/-! ## The job descriptor -/

/-- A `time.Time` value: an instant, given by its calendar date and clock time
in UTC. -/
structure Time where
  year : Nat
  month : Nat
  day : Nat
  hour : Nat
  minute : Nat
  second : Nat
  deriving DecidableEq

/-- A `time.Duration`: a number of nanoseconds. -/
abbrev Duration := Int

/-- The struct `JobInfo`. Pointer fields are options (`none` is `nil`); the
default value of the structure is Go's zero value. -/
structure JobInfo where
  ID : Str := []
  UserID : Str := []
  ArrayJobID : Str := []
  Name : Str := []
  ExitCode : Str := []
  State : Str := []
  SubmitTime : Option Time := none
  StartTime : Option Time := none
  RunTime : Option Duration := none
  TimeLimit : Option Duration := none
  WorkDir : Str := []
  StdOut : Str := []
  StdErr : Str := []
  Partition : Str := []
  NodeList : Str := []
  BatchHost : Str := []
  NumNodes : Str := []
  deriving DecidableEq

/-- The fields of `JobInfo`, in declaration order (what `reflect` numbers
`0 .. NumField()-1`). -/
inductive Field
  | ID | UserID | ArrayJobID | Name | ExitCode | State
  | SubmitTime | StartTime | RunTime | TimeLimit
  | WorkDir | StdOut | StdErr | Partition | NodeList | BatchHost | NumNodes
  deriving DecidableEq

/-- All fields, in the order the loop `for i := 0; i < t.NumField(); i++`
visits them. -/
def Field.all : List Field :=
  [.ID, .UserID, .ArrayJobID, .Name, .ExitCode, .State, .SubmitTime, .StartTime,
   .RunTime, .TimeLimit, .WorkDir, .StdOut, .StdErr, .Partition, .NodeList,
   .BatchHost, .NumNodes]

/-- The `slurm:"..."` struct tag of each field. -/
def Field.tag : Field → Str
  | .ID => "JobId".toList
  | .UserID => "UserId".toList
  | .ArrayJobID => "ArrayJobId".toList
  | .Name => "JobName".toList
  | .ExitCode => "ExitCode".toList
  | .State => "JobState".toList
  | .SubmitTime => "SubmitTime".toList
  | .StartTime => "StartTime".toList
  | .RunTime => "RunTime".toList
  | .TimeLimit => "TimeLimit".toList
  | .WorkDir => "WorkDir".toList
  | .StdOut => "StdOut".toList
  | .StdErr => "StdErr".toList
  | .Partition => "Partition".toList
  | .NodeList => "NodeList".toList
  | .BatchHost => "BatchHost".toList
  | .NumNodes => "NumNodes".toList

def submitTime : Str := "SubmitTime".toList
def startTime : Str := "StartTime".toList
def runTime : Str := "RunTime".toList
def timeLimit : Str := "TimeLimit".toList

/-- A `reflect.Value` as the loop builds it: a string, a `*time.Time` or a
`*time.Duration`. -/
inductive Value
  | string (s : Str)
  | timePtr (t : Option Time)
  | durationPtr (d : Option Duration)
  deriving DecidableEq

/-- The call `reflect.ValueOf(ji).Elem().Field(i).Set(val)`. `none` is the
panic of `Set` on a value that is not assignable to the field's type. -/
def JobInfo.Set (ji : JobInfo) : Field → Value → Option JobInfo
  | .ID, .string s => some { ji with ID := s }
  | .UserID, .string s => some { ji with UserID := s }
  | .ArrayJobID, .string s => some { ji with ArrayJobID := s }
  | .Name, .string s => some { ji with Name := s }
  | .ExitCode, .string s => some { ji with ExitCode := s }
  | .State, .string s => some { ji with State := s }
  | .SubmitTime, .timePtr t => some { ji with SubmitTime := t }
  | .StartTime, .timePtr t => some { ji with StartTime := t }
  | .RunTime, .durationPtr d => some { ji with RunTime := d }
  | .TimeLimit, .durationPtr d => some { ji with TimeLimit := d }
  | .WorkDir, .string s => some { ji with WorkDir := s }
  | .StdOut, .string s => some { ji with StdOut := s }
  | .StdErr, .string s => some { ji with StdErr := s }
  | .Partition, .string s => some { ji with Partition := s }
  | .NodeList, .string s => some { ji with NodeList := s }
  | .BatchHost, .string s => some { ji with BatchHost := s }
  | .NumNodes, .string s => some { ji with NumNodes := s }
  | _, _ => none

/-- The two parsers of the package that the field loop calls. Each returns a
pointer and an error, as in Go. -/
structure Parsers where
  parseTime : Str → Option Time × Option Error
  ParseDuration : Str → Option Duration × Option Error

/-- A Go `map[string]string`. -/
abbrev SlurmFields := Str → Option Str

/-- The empty map, `make(map[string]string)`. -/
def SlurmFields.empty : SlurmFields := fun _ => none

/-- The assignment `m[k] = v`. -/
def SlurmFields.insert (m : SlurmFields) (k v : Str) : SlurmFields :=
  fun x => if x = k then some v else m x

/-- The map without the key `k`. -/
def SlurmFields.erase (m : SlurmFields) (k : Str) : SlurmFields :=
  fun x => if x = k then none else m x

/-- One pass of the loop of `fillFromSlurmFields`, for the field `f`.
`none`: a panic. `some (ji, none)`: the loop goes on with `ji`.
`some (ji, some err)`: the function returns `err`, leaving `ji` behind. -/
def fillField (P : Parsers) (fields : SlurmFields) (ji : JobInfo) (f : Field) :
    Option (JobInfo × Option Error) :=
  let tagV := f.tag
  match fields tagV with
  | none => some (ji, none)
  | some sField =>
    if tagV = submitTime ∨ tagV = startTime then
      match P.parseTime sField with
      | (_, some err) =>
        some (ji, Wrap (some err) ("could not parse time: ".toList ++ sField))
      | (t, none) => (ji.Set f (.timePtr t)).map (fun j => (j, none))
    else if tagV = runTime ∨ tagV = timeLimit then
      match P.ParseDuration sField with
      | (_, some err) =>
        if err = Error.ErrDurationIsUnlimited then some (ji, none)
        else some (ji, Wrap (some err) ("could not parse duration: ".toList ++ sField))
      | (d, none) => (ji.Set f (.durationPtr d)).map (fun j => (j, none))
    else (ji.Set f (.string sField)).map (fun j => (j, none))

/-- The loop of `fillFromSlurmFields` over the fields still to visit. -/
def fillLoop (P : Parsers) (fields : SlurmFields) :
    List Field → JobInfo → Option (JobInfo × Option Error)
  | [], ji => some (ji, none)
  | f :: fs, ji =>
    match fillField P fields ji f with
    | none => none
    | some (ji1, some err) => some (ji1, some err)
    | some (ji1, none) => fillLoop P fields fs ji1

/-- The method `(*JobInfo).fillFromSlurmFields`: the descriptor as the call
leaves it, and the error returned (`none` for the whole: a panic). -/
def fillFromSlurmFields (P : Parsers) (fields : SlurmFields) (ji : JobInfo) :
    Option (JobInfo × Option Error) :=
  fillLoop P fields Field.all ji

/-- The inner loop of `jobInfoFromScontrolResponse` for one token `f`:
tokens that do not split in two on `=` are passed over. -/
def slurmFieldsStep (m : SlurmFields) (f : Str) : SlurmFields :=
  match Split f "=".toList with
  | [k, v] => m.insert k v
  | _ => m

/-- The map `slurmFields` built from one block `raw` of the response. -/
def slurmFieldsOf (raw : Str) : SlurmFields :=
  (Fields raw).foldl slurmFieldsStep SlurmFields.empty

/-- The outer loop of `jobInfoFromScontrolResponse` over the blocks. -/
def jobInfoLoop (P : Parsers) : List Str → Option (List JobInfo × Option Error)
  | [] => some ([], none)
  | raw :: rest =>
    match fillFromSlurmFields P (slurmFieldsOf raw) {} with
    | none => none
    | some (_, some err) => some ([], some err)
    | some (ji, none) =>
      match jobInfoLoop P rest with
      | none => none
      | some (_, some err) => some ([], some err)
      | some (infos, none) => some (ji :: infos, none)

/-- The function `jobInfoFromScontrolResponse`. -/
def jobInfoFromScontrolResponse (P : Parsers) (jobInfo : Str) :
    Option (List JobInfo × Option Error) :=
  jobInfoLoop P (Split (TrimSpace jobInfo) "\n\n".toList)

/-! ## Child processes -/

def sbatchBinaryName : Str := "sbatch".toList
def scancelBinaryName : Str := "scancel".toList
def scontrolBinaryName : Str := "scontrol".toList
def sacctBinaryName : Str := "sacct".toList
def sinfoBinaryName : Str := "sinfo".toList

/-- An `exec.Cmd` as the client builds it: the binary, its arguments (without
the program name) and the text given on standard input. -/
structure Cmd where
  name : Str
  args : List Str
  stdin : Str := []
  deriving DecidableEq

/-- The world of child processes: what `cmd.Output()` (standard output) and
`cmd.CombinedOutput()` (standard output and standard error) return for a
command. The error is not `nil` when the process could not be run or exited
with a status other than zero. -/
structure Exec where
  Output : Cmd → Str × Option Error
  CombinedOutput : Cmd → Str × Option Error

/-! ## `strconv.Atoi`, for a 64-bit `int` -/

/-- The character is one of the decimal digits `0` to `9`. -/
def isDigit (c : Char) : Bool := decide (48 ≤ c.toNat) && decide (c.toNat ≤ 57)

/-- The value of a decimal digit. -/
def digitVal (c : Char) : Option Nat :=
  if isDigit c then some (c.toNat - 48) else none

/-- The largest `uint64`. -/
def maxUint64 : Nat := 2 ^ 64 - 1

/-- The digit loop of `strconv.ParseUint(s, 10, 64)`, with `n` the number read
so far: a character that is no digit is a syntax error, a number beyond
`uint64` a range error, whichever the scan meets first. -/
def parseUintGo : Nat → Str → Nat × Option NumErr
  | n, [] => (n, none)
  | n, c :: cs =>
    match digitVal c with
    | none => (0, some .ErrSyntax)
    | some d =>
      if n ≥ maxUint64 / 10 + 1 then (maxUint64, some .ErrRange)
      else if n * 10 + d > maxUint64 then (maxUint64, some .ErrRange)
      else parseUintGo (n * 10 + d) cs

/-- The function `strconv.ParseUint(s, 10, 64)`. -/
def ParseUint (s : Str) : Nat × Option NumErr :=
  if s = [] then (0, some .ErrSyntax) else parseUintGo 0 s

/-- The function `strconv.ParseInt(s, 10, 64)`: an optional sign, then
`ParseUint`, then the range check of `int64`. -/
def ParseInt (s : Str) : Int × Option NumErr :=
  match s with
  | [] => (0, some .ErrSyntax)
  | c :: cs =>
    let neg : Bool := c == '-'
    let s1 : Str := if c == '+' || c == '-' then cs else c :: cs
    match ParseUint s1 with
    | (_, some .ErrSyntax) => (0, some .ErrSyntax)
    | (un, _) =>
      if !neg && decide (un ≥ 2 ^ 63) then (2 ^ 63 - 1, some .ErrRange)
      else if neg && decide (un > 2 ^ 63) then (-(2 ^ 63), some .ErrRange)
      else (if neg then -(un : Int) else (un : Int), none)

/-- The function `strconv.Atoi` where `int` has 64 bits. Its fast path for
short strings returns what `ParseInt(s, 10, 0)` returns; the error is a
`*NumError` with `Func = "Atoi"` and `Num = s`. -/
def Atoi (s : Str) : Int × Option Error :=
  match ParseInt s with
  | (n, none) => (n, none)
  | (n, some e) => (n, some (.NumError "Atoi".toList s e))

/-! ## The client -/

/-- The command `SBatch` runs. -/
def sbatchCmd (script partition : Str) : Cmd :=
  let partitionOpt : Str := if partition ≠ [] then "--partition=".toList ++ partition else []
  { name := sbatchBinaryName, args := ["--parsable".toList, partitionOpt], stdin := script }

/-- The method `(*Client).SBatch`: the job id and the error. (The log line
written when the command fails is not part of the result.) -/
def SBatch (x : Exec) (script partition : Str) : Int × Option Error :=
  let (out, err) := x.CombinedOutput (sbatchCmd script partition)
  if err ≠ none then (0, Wrap err "failed to execute sbatch".toList)
  else
    let (id, err) := Atoi (TrimSpace out)
    if err ≠ none then (0, Wrap err "could not parse job id".toList)
    else (id, none)

/-- The command `Version` runs. -/
def versionCmd : Cmd := { name := sinfoBinaryName, args := ["-V".toList] }

/-- The method `(*Client).Version`. -/
def Version (x : Exec) : Str × Option Error :=
  let (out, err) := x.Output versionCmd
  if err ≠ none then ([], Wrap err "could not get slurm info".toList)
  else
    let s := Split out " ".toList
    if s.length ≠ 2 then ([], Wrap err ("could not parse sinfo response ".toList ++ out))
    else (s.getD 1 [], none)

/-- The type `Client`, an empty struct. -/
structure Client where
  deriving DecidableEq

/-- The binaries `NewClient` looks for, in the order of its loop. -/
def requiredBinaries : List Str :=
  [sacctBinaryName, sbatchBinaryName, scancelBinaryName, scontrolBinaryName, sinfoBinaryName]

/-- The function `NewClient`. `LookPath` is `exec.LookPath`: for a binary
name, the path found and the error. -/
def NewClient (LookPath : Str → Str × Option Error) : Option Client × Option Error :=
  let missing : List Str :=
    requiredBinaries.foldl
      (fun missing bin => if (LookPath bin).2 ≠ none then missing ++ [bin] else missing) []
  if missing.length ≠ 0 then
    (none, some (.New ("no slurm binaries found: ".toList ++ Join missing ", ".toList)))
  else (some {}, none)

/-! ## Vocabulary of the statements about `SBatch` -/

/-- The decimal representation of an integer: its digits, without leading
zeros, after a minus sign when it is negative. -/
def decimalRepr : Int → Str
  | .ofNat n => Nat.toDigits 10 n
  | .negSucc n => '-' :: Nat.toDigits 10 (n + 1)

/-- The number a string of decimal digits denotes. -/
def digitsValue (ds : Str) : Nat := ds.foldl (fun a c => a * 10 + (c.toNat - 48)) 0

/-- The string `s` is a decimal numeral of the integer `n`: an optional sign
`+` or `-` followed by one or more decimal digits (leading zeros allowed)
that denote the absolute value of `n`. -/
def IsDecimalNumeral (s : Str) (n : Int) : Prop :=
  ∃ ds : Str, ds ≠ [] ∧ (∀ c ∈ ds, isDigit c = true) ∧
    (((s = ds ∨ s = '+' :: ds) ∧ n = (digitsValue ds : Int)) ∨
      (s = '-' :: ds ∧ n = -(digitsValue ds : Int)))

/-- An `Exec` world in which every command prints `out` and exits with `err`. -/
def Exec.const (out : Str) (err : Option Error) : Exec :=
  ⟨fun _ => (out, err), fun _ => (out, err)⟩

/-! ## Paths (`path/filepath` on Unix) -/

/-- The path separator, `os.PathSeparator`. -/
def Separator : Char := '/'

/-- The path element `.`. -/
def dot : Str := ['.']

/-- The path element `..`. -/
def dotdot : Str := ['.', '.']

/-- One path element met by `filepath.Clean`. `stack` holds the elements
written so far, the last one first. An empty element and `.` are dropped; `..`
removes the last element written when there is one to remove (one that is not
itself a leading `..`), is dropped at the root of a rooted path, and is kept
at the start of a path that is not rooted; any other element is written. -/
def cleanStep (rooted : Bool) (stack : List Str) (elem : Str) : List Str :=
  if elem = [] ∨ elem = dot then stack
  else if elem = dotdot then
    match stack with
    | [] => if rooted then [] else [dotdot]
    | top :: rest => if top = dotdot then (if rooted then stack else dotdot :: stack) else rest
  else elem :: stack

/-- Go `filepath.Clean`: the shortest path equivalent to `path` by purely
lexical processing. -/
def Clean (path : Str) : Str :=
  if path = [] then dot
  else
    let rooted : Bool := path.head? == some Separator
    let stack := (Split path [Separator]).foldl (cleanStep rooted) []
    let out := Join stack.reverse [Separator]
    if rooted then Separator :: out else if out = [] then dot else out

/-- Go `filepath.Join`: the elements from the first non-empty one on, joined
by the separator and cleaned; the empty string when all are empty. -/
def filepathJoin (elem : List Str) : Str :=
  match elem.dropWhile (fun e => e = []) with
  | [] => []
  | es => Clean (Join es [Separator])

/-- Go `filepath.IsAbs`. -/
def IsAbs (path : Str) : Bool := HasPrefix path [Separator]

/-- Go `filepath.Dir`: all but the last element of the path, cleaned. -/
def Dir (path : Str) : Str := Clean (path.rdropWhile (fun c => c != Separator))

/-- Go `filepath.Base`: the last element of the path, after the trailing
separators are taken off; `.` for the empty path and the separator for a path
of separators only. -/
def Base (path : Str) : Str :=
  if path = [] then dot
  else
    let p := path.rdropWhile (fun c => c == Separator)
    let e := p.rtakeWhile (fun c => c != Separator)
    if e = [] then [Separator] else e

/-- Go `path.Join`: on slash-separated paths it is what `filepath.Join` is on
Unix. -/
def pathJoin (elem : List Str) : Str := filepathJoin elem

/-- The loop of Go `filepath.Rel` that walks the two cleaned paths element by
element, on the texts still to compare (`base[b0:]` and `targ[t0:]`). It
stops when one of the texts is used up, or at the first pair of elements that
differ; in that case the third component is the element of the base at which
it stopped (`base[b0:bi]`). The first argument bounds the number of rounds. -/
def relLoop : Nat → Str → Str → Str × Str × Option Str
  | 0, b, t => (b, t, none)
  | fuel + 1, b, t =>
    if b = [] ∨ t = [] then (b, t, none)
    else
      let bseg := b.takeWhile (fun c => c != Separator)
      let tseg := t.takeWhile (fun c => c != Separator)
      if tseg ≠ bseg then (b, t, some bseg)
      else
        relLoop fuel ((b.dropWhile (fun c => c != Separator)).drop 1)
          ((t.dropWhile (fun c => c != Separator)).drop 1)

/-- Go `filepath.Rel` on Unix: a path that, joined to `basepath`, is
equivalent to `targpath`. -/
def Rel (basepath targpath : Str) : Str × Option Error :=
  let base := Clean basepath
  let targ := Clean targpath
  let cannot : Str × Option Error :=
    ([], some (.New ("Rel: can't make ".toList ++ targpath ++ " relative to ".toList ++ basepath)))
  if targ = base then (dot, none)
  else
    let base := if base = dot then [] else base
    if (base.head? == some Separator) != (targ.head? == some Separator) then cannot
    else
      match relLoop (base.length + 1) base targ with
      | (brem, trem, stop) =>
        if stop = some dotdot then cannot
        else if brem ≠ [] then
          let ups : Str :=
            dotdot ++ (List.replicate (brem.count Separator) (Separator :: dotdot)).flatten
          (if trem ≠ [] then ups ++ Separator :: trem else ups, none)
        else (trem, none)

/-! ## The file system and the archive reader -/

/-- One entry of an open archive, a `*zip.File`: the stored name, whether the
stored mode marks a directory, the permission bits, the error of `f.Open()`,
the content read from the entry, and the error that ends the reading when it
is not the end of the content. -/
structure ZipFile where
  Name : Str
  dirMode : Bool := false
  perm : Nat := 0
  openErr : Option Error := none
  data : Str := []
  readErr : Option Error := none

/-- The call `f.FileInfo().IsDir()`: the mode of an entry is a directory mode
when the stored mode says so or when the name ends with a slash. -/
def ZipFile.IsDir (f : ZipFile) : Bool := f.dirMode || f.Name.getLast? == some '/'

/-- The operating system as the archive code uses it, on states `σ`:
`os.MkdirAll(path, os.ModePerm)`, `os.OpenFile(path, O_WRONLY|O_CREATE|O_TRUNC,
mode)`, the writing of `io.Copy` into the file just opened, `os.Getwd()` and
`zip.OpenReader(source)`. -/
structure OS (σ : Type) where
  MkdirAll : Str → σ → σ × Option Error
  OpenFile : Str → Nat → σ → σ × Option Error
  Write : Str → Str → σ → σ × Option Error
  Getwd : σ → Str × Option Error
  OpenReader : Str → σ → List ZipFile × Option Error

/-- Go `filepath.Abs` on Unix. -/
def Abs {σ : Type} (os : OS σ) (path : Str) (s : σ) : Str × Option Error :=
  if IsAbs path then (Clean path, none)
  else
    match os.Getwd s with
    | (_, some err) => ([], some err)
    | (wd, none) => (filepathJoin [wd, path], none)

/-- The function `unzipFile`: the state of the file system it leaves, and the
error it returns. -/
def unzipFile {σ : Type} (os : OS σ) (f : ZipFile) (destination : Str) (s : σ) :
    σ × Option Error :=
  let filePath := filepathJoin [destination, f.Name]
  if !HasPrefix filePath (Clean destination ++ [Separator]) then
    (s, some (.New ("invalid file path: ".toList ++ filePath)))
  else if f.IsDir then os.MkdirAll filePath s
  else
    match os.MkdirAll (Dir filePath) s with
    | (s1, some err) => (s1, some err)
    | (s1, none) =>
      match os.OpenFile filePath f.perm s1 with
      | (s2, some err) => (s2, some err)
      | (s2, none) =>
        match f.openErr with
        | some err => (s2, some err)
        | none =>
          match os.Write filePath f.data s2 with
          | (s3, some err) => (s3, some err)
          | (s3, none) => (s3, f.readErr)

/-- The loop of `unzip` over the entries of the archive. -/
def unzipLoop {σ : Type} (os : OS σ) (destination : Str) : List ZipFile → σ → σ × Option Error
  | [], s => (s, none)
  | f :: fs, s =>
    match unzipFile os f destination s with
    | (s1, some err) => (s1, some err)
    | (s1, none) => unzipLoop os destination fs s1

/-- The function `unzip`. -/
def unzip {σ : Type} (os : OS σ) (source destination : Str) (s : σ) : σ × Option Error :=
  match os.OpenReader source s with
  | (_, some err) => (s, some err)
  | (files, none) =>
    match Abs os destination s with
    | (_, some err) => (s, some err)
    | (dest, none) => unzipLoop os dest files s

/-- A file system that records the calls made to it: the state is the list of
the calls, the last one first; every call succeeds; the working directory is
`/work`; every archive holds the entries `files`. -/
def OS.recording (files : List ZipFile) : OS (List Str) where
  MkdirAll := fun path s => (("mkdir ".toList ++ path) :: s, none)
  OpenFile := fun path _ s => (("create ".toList ++ path) :: s, none)
  Write := fun path data s => (("write ".toList ++ path ++ " ".toList ++ data) :: s, none)
  Getwd := fun _ => ("/work".toList, none)
  OpenReader := fun _ _ => (files, none)

/-! ## The archiver -/

/-- A file tree as `os.Lstat` and the sorted directory listing of
`filepath.Walk` show it: a regular file with its permission bits and content,
or a directory with its permission bits and its entries by name, in the order
of the listing. -/
inductive Node
  | file (perm : Nat) (data : Str)
  | dir (perm : Nat) (entries : List (Str × Node))

/-- What `filepath.Walk` hands to the callback of `zipFile` for one entry: the
path, what `info.IsDir()` and the permission bits say, and the content that
`os.Open` and `io.Copy` read from a regular file. -/
structure Visit where
  path : Str
  isDir : Bool
  perm : Nat
  data : Str

mutual
/-- The function `walk` of `filepath.Walk` on the node found at `path`: the
node itself, then, for a directory, every entry under the path
`filepath.Join(path, name)`. -/
def walkNode (path : Str) : Node → List Visit
  | .file perm data => [⟨path, false, perm, data⟩]
  | .dir perm entries => ⟨path, true, perm, []⟩ :: walkEntries path entries
/-- The loop of `walk` over the names of a directory. -/
def walkEntries (path : Str) : List (Str × Node) → List Visit
  | [] => []
  | (name, node) :: rest => walkNode (filepathJoin [path, name]) node ++ walkEntries path rest
end

/-- Go `filepath.Walk(root, fn)` on a tree that is read without error: the
visits, in order; the root is visited under the path as given. -/
def Walk (root : Str) (tree : Node) : List Visit := walkNode root tree

/-- The callback of `zipFile` over the visits of the walk: for each, the
header named `filepath.Rel(filepath.Dir(source), path)`, with a slash appended
for a directory, and the content of a regular file. An error of `Rel` ends
the walk. `written` are the entries written before. -/
def zipLoop (source : Str) : List Visit → List ZipFile → List ZipFile × Option Error
  | [], written => (written, none)
  | v :: vs, written =>
    match Rel (Dir source) v.path with
    | (_, some err) => (written, some err)
    | (name, none) =>
      let name := if v.isDir then name ++ [Separator] else name
      zipLoop source vs
        (written ++ [{ Name := name, dirMode := v.isDir, perm := v.perm, data := v.data }])

/-- The function `zipFile` on the tree found at `source`, when the tree is
read and the archive written without error, and the archive itself does not
lie in the tree: the entries written to the archive, and the error returned. -/
def zipFile (source : Str) (tree : Node) : List ZipFile × Option Error :=
  zipLoop source (Walk source tree) []

/-! ## The upload stream of the results tool (`cmd/results/main.go`) -/

/-- The content of a file: a sequence of bytes. -/
abbrev Bytes := List (Fin 256)

/-- Modelled from the spec: the message type `api.CreateFileRequest` of the
`CreateFile` stream, declared in a package that is not among the sources: "a
creation message carrying the destination path and then ... content-chunk
messages". The code fills `Path` in the one and `Content` in the others. -/
structure CreateFileRequest where
  Path : Str := []
  Content : Bytes := []
  deriving DecidableEq

/-- How the upload ends: the messages sent on the stream, in order, and, when
`log.Fatalf` ended the process, its format and the error logged. -/
structure Upload where
  sent : List CreateFileRequest
  fatal : Option (Str × Error) := none
  deriving DecidableEq

/-- The loop `for { n, err := fd.Read(buff); ... }` of the upload branch.
`reads` are the answers of `fd.Read`, in order: the bytes placed in the buffer
(`buff[:n]`) and the error. `Send` is `createReq.Send`, which may fail,
depending on what was sent before. `sent` are the messages sent so far.
`none`: the reader has no further answer. -/
def uploadLoop (Send : List CreateFileRequest → CreateFileRequest → Option Error) :
    List (Bytes × Option Error) → List CreateFileRequest → Option Upload
  | [], _ => none
  | (data, err) :: rest, sent =>
    let n := data.length
    let afterSend : List CreateFileRequest × Option Error :=
      if n > 0 then
        match Send sent { Content := data } with
        | some e => (sent, some e)
        | none => (sent ++ [{ Content := data }], none)
      else (sent, none)
    match afterSend with
    | (sent1, some e) => some { sent := sent1, fatal := some ("can't send file err: %s".toList, e) }
    | (sent1, none) =>
      match err with
      | none => uploadLoop Send rest sent1
      | some e =>
        if e = Error.EOF then some { sent := sent1 }
        else some { sent := sent1, fatal := some ("err while reading file %s".toList, e) }

/-- The upload branch of `main` from the first `Send` to the end of the read
loop: the creation message with the destination path, then the chunks. -/
def uploadStream (Send : List CreateFileRequest → CreateFileRequest → Option Error)
    (fromPath toPath : Str) (reads : List (Bytes × Option Error)) : Option Upload :=
  let create : CreateFileRequest :=
    { Path := pathJoin [toPath, Base fromPath ++ ".zip".toList] }
  match Send [] create with
  | some e => some { sent := [], fatal := some ("can't send file err: %s".toList, e) }
  | none => uploadLoop Send reads [create]

/-! ## A sample instance of the two parsers -/

/-- The number written by a string of decimal digits, read after the digits
already summed up in `acc`. -/
def digitsVal : Nat → Str → Option Nat
  | acc, [] => some acc
  | acc, c :: cs =>
    match digitVal c with
    | none => none
    | some d => digitsVal (acc * 10 + d) cs

/-- The number written by a non-empty string of decimal digits. -/
def natOfDigits (s : Str) : Option Nat :=
  if s = [] then none else digitsVal 0 s

/-- The days of a month of the Gregorian calendar. -/
def daysIn (year month : Nat) : Nat :=
  if month = 2 then
    if (year % 4 = 0 ∧ year % 100 ≠ 0) ∨ year % 400 = 0 then 29 else 28
  else if month = 4 ∨ month = 6 ∨ month = 9 ∨ month = 11 then 30
  else 31

/-- Modelled from the spec: `parseTime`, whose file is not among the sources.
"Time parsing must accept the scheduler's canonical timestamp format and fail
with a wrapped parse error including the offending literal on mismatch": the
layout is `2006-01-02T15:04:05`. -/
def sampleParseTime (s : Str) : Option Time × Option Error :=
  let bad : Option Time × Option Error :=
    (none, some (.Wrapped (.Foreign "cannot parse as 2006-01-02T15:04:05".toList)
      ("could not parse time ".toList ++ s)))
  match s with
  | [y1, y2, y3, y4, '-', m1, m2, '-', d1, d2, 'T', h1, h2, ':', n1, n2, ':', s1, s2] =>
    match natOfDigits [y1, y2, y3, y4], natOfDigits [m1, m2], natOfDigits [d1, d2],
        natOfDigits [h1, h2], natOfDigits [n1, n2], natOfDigits [s1, s2] with
    | some y, some m, some d, some h, some n, some sc =>
      if 1 ≤ m ∧ m ≤ 12 ∧ 1 ≤ d ∧ d ≤ daysIn y m ∧ h < 24 ∧ n < 60 ∧ sc < 60 then
        (some ⟨y, m, d, h, n, sc⟩, none)
      else bad
    | _, _, _, _, _, _ => bad
  | _ => bad

/-- Modelled from the spec: `ParseDuration`, whose file is not among the
sources. "Duration parsing must recognize the scheduler's explicit no-limit
token and signal a distinguishable unlimited condition (not a parse error)":
the token is `UNLIMITED`; the durations read here are those written
`hours:minutes:seconds`. -/
def sampleParseDuration (s : Str) : Option Duration × Option Error :=
  if s = "UNLIMITED".toList then (none, some .ErrDurationIsUnlimited)
  else
    let bad : Option Duration × Option Error :=
      (none, some (.New ("invalid duration: ".toList ++ s)))
    match Split s ":".toList with
    | [h, m, sc] =>
      match natOfDigits h, natOfDigits m, natOfDigits sc with
      | some h, some m, some sc =>
        if m < 60 ∧ sc < 60 then
          (some (((h * 3600 + m * 60 + sc : Nat) : Int) * 1000000000), none)
        else bad
      | _, _, _ => bad
    | _ => bad

/-- The sample parsers together. -/
def sampleParsers : Parsers := ⟨sampleParseTime, sampleParseDuration⟩

/-! ## Vocabulary of the statements about the field loop -/

/-- The fields visited before the time and duration fields. -/
def Field.strings1 : List Field := [.ID, .UserID, .ArrayJobID, .Name, .ExitCode, .State]

/-- The time and duration fields. -/
def Field.times : List Field := [.SubmitTime, .StartTime, .RunTime, .TimeLimit]

/-- The fields visited after the time and duration fields. -/
def Field.strings2 : List Field :=
  [.WorkDir, .StdOut, .StdErr, .Partition, .NodeList, .BatchHost, .NumNodes]

/-- The mapping `m` holds for `key` a value `v` that the parser of that key
rejects with the error `cause`: `key` is `SubmitTime` or `StartTime` and
`parseTime` fails, or `key` is `RunTime` or `TimeLimit` and `ParseDuration`
fails with an error other than `ErrDurationIsUnlimited`. -/
def Rejected (P : Parsers) (m : SlurmFields) (key v : Str) (cause : Error) : Prop :=
  m key = some v ∧
    (((key = submitTime ∨ key = startTime) ∧ (P.parseTime v).2 = some cause) ∨
     ((key = runTime ∨ key = timeLimit) ∧ (P.ParseDuration v).2 = some cause ∧
        cause ≠ Error.ErrDurationIsUnlimited))

/-- The error `fillFromSlurmFields` returns for a rejected value `v` of `key`. -/
def parseError (key v : Str) (cause : Error) : Error :=
  .Wrapped cause
    ((if key = submitTime ∨ key = startTime then "could not parse time: ".toList
      else "could not parse duration: ".toList) ++ v)

/-- The read `reflect.ValueOf(ji).Elem().Field(i)`: the value a field holds. -/
def JobInfo.get (ji : JobInfo) : Field → Value
  | .ID => .string ji.ID
  | .UserID => .string ji.UserID
  | .ArrayJobID => .string ji.ArrayJobID
  | .Name => .string ji.Name
  | .ExitCode => .string ji.ExitCode
  | .State => .string ji.State
  | .SubmitTime => .timePtr ji.SubmitTime
  | .StartTime => .timePtr ji.StartTime
  | .RunTime => .durationPtr ji.RunTime
  | .TimeLimit => .durationPtr ji.TimeLimit
  | .WorkDir => .string ji.WorkDir
  | .StdOut => .string ji.StdOut
  | .StdErr => .string ji.StdErr
  | .Partition => .string ji.Partition
  | .NodeList => .string ji.NodeList
  | .BatchHost => .string ji.BatchHost
  | .NumNodes => .string ji.NumNodes

/-- The value the mapping holds for a time key, if any, is accepted by
`parseTime`. -/
def parsesTime (P : Parsers) (m : SlurmFields) (key : Str) : Bool :=
  match m key with
  | none => true
  | some v => (P.parseTime v).2.isNone

/-- The value the mapping holds for a duration key, if any, is accepted by
`ParseDuration` or reported as unlimited. -/
def parsesDuration (P : Parsers) (m : SlurmFields) (key : Str) : Bool :=
  match m key with
  | none => true
  | some v =>
    match (P.ParseDuration v).2 with
    | none => true
    | some err => decide (err = Error.ErrDurationIsUnlimited)

/-- Every time and duration value of the mapping parses. -/
def valuesParse (P : Parsers) (m : SlurmFields) : Bool :=
  parsesTime P m submitTime && parsesTime P m startTime &&
    parsesDuration P m runTime && parsesDuration P m timeLimit

/-! ## Vocabulary of the statements about paths -/

/-- A proper path element: not empty, not `.`, not `..`, and without a
separator. -/
def IsElem (e : Str) : Prop := e ≠ [] ∧ e ≠ dot ∧ e ≠ dotdot ∧ Separator ∉ e

/-- The elements of a rooted path that `filepath.Clean` keeps, in order. -/
def rootedElems (path : Str) : List Str :=
  ((Split path [Separator]).foldl (cleanStep true) []).reverse

/-- The path begins with a separator. -/
def isRooted (path : Str) : Bool := path.head? == some Separator

/-- The elements `filepath.Clean` has written when it reaches the end of the
path, the last one first. -/
def pathStack (path : Str) : List Str :=
  (Split path [Separator]).foldl (cleanStep (isRooted path)) []

/-- The text `filepath.Clean` makes of the elements it has written. -/
def renderStack (rooted : Bool) (stack : List Str) : Str :=
  if rooted then Separator :: Join stack.reverse [Separator]
  else if Join stack.reverse [Separator] = [] then dot
  else Join stack.reverse [Separator]

/-- What `filepath.Clean` can have written: proper elements, after leading
`..` elements when the path is not rooted. -/
def ValidStack (rooted : Bool) (stack : List Str) : Prop :=
  ∃ (k : Nat) (names : List Str), stack.reverse = List.replicate k dotdot ++ names ∧
    (rooted = true → k = 0) ∧ ∀ e ∈ names, IsElem e

instance IsElem.decidable (e : Str) : Decidable (IsElem e) := by
  unfold IsElem
  infer_instance

mutual
/-- Every name in the listings of the tree is the name of a directory entry:
not empty, not `.` or `..`, and without a separator. -/
def Node.wellNamed : Node → Bool
  | .file _ _ => true
  | .dir _ entries => entriesWellNamed entries
/-- The names of a listing, and of the listings below it, are names of
directory entries. -/
def entriesWellNamed : List (Str × Node) → Bool
  | [] => true
  | (name, node) :: rest => decide (IsElem name) && (node.wellNamed && entriesWellNamed rest)
end

mutual
/-- The archive of a node whose headers are named by the names that lead to
each entry, joined by the separator: `rel` are the names that lead to the
node, the base name of the source first. The header of a directory has a
separator appended and is followed by the entries below it, in listing order;
the header of a regular file carries its content. -/
def archiveOf (rel : List Str) : Node → List ZipFile
  | .file perm data =>
    [{ Name := Join rel [Separator], dirMode := false, perm := perm, data := data }]
  | .dir perm entries =>
    { Name := Join rel [Separator] ++ [Separator], dirMode := true, perm := perm, data := [] } ::
      archiveOfEntries rel entries
/-- The archive of the entries of a directory reached by the names `rel`. -/
def archiveOfEntries (rel : List Str) : List (Str × Node) → List ZipFile
  | [] => []
  | (name, node) :: rest => archiveOf (rel ++ [name]) node ++ archiveOfEntries rel rest
end

/-! ## A file system by paths -/

/-- What a file system holds at a path: a directory, or a regular file with
its content. Mode bits are not recorded. -/
inductive Entry
  | dir
  | file (data : Str)
  deriving DecidableEq

/-- A file system without links: what is found at each path, a path being the
list of its element names from the root; the working directory, an absolute
path; and the archives that `zip.OpenReader` can open, by the path given to
it, with the entries it reads from each. -/
structure FS where
  entries : List Str → Option Entry
  cwd : Str
  archives : Str → Option (List ZipFile)

/-- What is found is a regular file. -/
def Entry.isFile : Option Entry → Bool
  | some (.file _) => true
  | _ => false

/-- The path a name resolves to: the elements of an absolute name, and those of
a relative name taken from the working directory. -/
def FS.resolve (s : FS) (path : Str) : List Str :=
  rootedElems (if IsAbs path then path else s.cwd ++ Separator :: path)

/-- The call `os.MkdirAll` at a resolved path: it fails when a regular file is
found at the path or above it; otherwise the path and every path above it is a
directory afterwards, and nothing else changes. -/
def FS.mkdir (s : FS) (elems : List Str) : FS × Option Error :=
  if (List.inits elems).any (fun p => Entry.isFile (s.entries p)) then
    (s, some (.Foreign "mkdir: not a directory".toList))
  else
    ({ s with entries := fun q => if q.isPrefixOf elems then some .dir else s.entries q }, none)

/-- The call `os.OpenFile` with `O_WRONLY|O_CREATE|O_TRUNC` at a resolved path:
it fails at a directory and where the parent is not a directory; otherwise an
empty regular file is at the path afterwards. -/
def FS.create (s : FS) (elems : List Str) : FS × Option Error :=
  if elems = [] ∨ s.entries elems = some .dir then
    (s, some (.Foreign "open: is a directory".toList))
  else if s.entries elems.dropLast ≠ some .dir then
    (s, some (.Foreign "open: no such file or directory".toList))
  else ({ s with entries := fun q => if q = elems then some (.file []) else s.entries q }, none)

/-- Writing to the regular file at a resolved path: the data is appended to
what the file holds. -/
def FS.write (s : FS) (elems : List Str) (data : Str) : FS × Option Error :=
  match s.entries elems with
  | some (.file old) =>
    ({ s with entries := fun q => if q = elems then some (.file (old ++ data)) else s.entries q },
      none)
  | _ => (s, some (.Foreign "write: bad file descriptor".toList))

/-- The operating system on such a file system. -/
def FS.os : OS FS where
  MkdirAll := fun path s => s.mkdir (s.resolve path)
  OpenFile := fun path _ s => s.create (s.resolve path)
  Write := fun path data s => s.write (s.resolve path) data
  Getwd := fun s => (s.cwd, none)
  OpenReader := fun path s =>
    match s.archives path with
    | some files => (files, none)
    | none => ([], some (.Foreign "open: no such file or directory".toList))

mutual
/-- What a tree holds at a path relative to its root. -/
def Node.lookup : Node → List Str → Option Entry
  | .file _ data, [] => some (.file data)
  | .file _ _, _ :: _ => none
  | .dir _ _, [] => some .dir
  | .dir _ entries, name :: rest => lookupEntries entries name rest
/-- What a listing holds under the name `name`, at the path `rest` below it. -/
def lookupEntries : List (Str × Node) → Str → List Str → Option Entry
  | [], _, _ => none
  | (n, node) :: more, name, rest =>
    if n = name then node.lookup rest else lookupEntries more name rest
end

mutual
/-- No listing of the tree holds a name twice. -/
def Node.distinctNames : Node → Bool
  | .file _ _ => true
  | .dir _ entries => entriesDistinct entries
/-- The names of a listing differ from each other, and so in the listings
below it. -/
def entriesDistinct : List (Str × Node) → Bool
  | [] => true
  | (name, node) :: rest =>
    !(rest.map Prod.fst).contains name && (node.distinctNames && entriesDistinct rest)
end

/-- A small tree: a directory that holds the file `a.txt` and the directory
`sub` with the empty file `b.txt`. -/
def sampleTree : Node :=
  .dir 493 [("a.txt".toList, .file 420 "hi".toList),
    ("sub".toList, .dir 493 [("b.txt".toList, .file 420 [])])]

/-- A file system that holds the directory `/out` and nothing else, with the
working directory `/out` and the one archive `/out/t.zip` of the entries
`files`. -/
def sampleFS (files : List ZipFile) : FS where
  entries := fun p => if p = [] ∨ p = ["out".toList] then some .dir else none
  cwd := "/out".toList
  archives := fun a => if a = "/out/t.zip".toList then some files else none

/-! ## Properties of the field loop -/

theorem fillField_congr (P : Parsers) (m m1 : SlurmFields) (ji : JobInfo) (f : Field)
    (h : m f.tag = m1 f.tag) : fillField P m ji f = fillField P m1 ji f := by
  unfold fillField
  simp only [h]

theorem fillLoop_congr (P : Parsers) (m m1 : SlurmFields) (fs : List Field)
    (h : ∀ f ∈ fs, m f.tag = m1 f.tag) (ji : JobInfo) :
    fillLoop P m fs ji = fillLoop P m1 fs ji := by
  induction fs generalizing ji with
  | nil => rfl
  | cons f fs ih =>
    have hf := fillField_congr P m m1 ji f (h f (List.mem_cons_self _ _))
    have ih1 := fun j => ih (fun g hg => h g (List.mem_cons_of_mem _ hg)) j
    simp only [fillLoop, hf]
    cases fillField P m1 ji f with
    | none => rfl
    | some r =>
      obtain ⟨j, e⟩ := r
      cases e with
      | none => exact ih1 j
      | some e => rfl

theorem fillLoop_append (P : Parsers) (m : SlurmFields) (fs gs : List Field) (ji : JobInfo) :
    fillLoop P m (fs ++ gs) ji =
      match fillLoop P m fs ji with
      | none => none
      | some (j, some err) => some (j, some err)
      | some (j, none) => fillLoop P m gs j := by
  induction fs generalizing ji with
  | nil => rfl
  | cons f fs ih =>
    simp only [List.cons_append, fillLoop]
    cases fillField P m ji f with
    | none => rfl
    | some r =>
      obtain ⟨j, e⟩ := r
      cases e with
      | none => exact ih j
      | some e => rfl

theorem fillField_ID (P : Parsers) (m : SlurmFields) (ji : JobInfo) :
    fillField P m ji .ID =
      some ({ ji with ID := (m "JobId".toList).getD ji.ID }, none) := by
  unfold fillField
  simp only [Field.tag]
  cases m "JobId".toList <;>
    simp [submitTime, startTime, runTime, timeLimit, JobInfo.Set]

theorem fillField_UserID (P : Parsers) (m : SlurmFields) (ji : JobInfo) :
    fillField P m ji .UserID =
      some ({ ji with UserID := (m "UserId".toList).getD ji.UserID }, none) := by
  unfold fillField
  simp only [Field.tag]
  cases m "UserId".toList <;>
    simp [submitTime, startTime, runTime, timeLimit, JobInfo.Set]

theorem fillField_ArrayJobID (P : Parsers) (m : SlurmFields) (ji : JobInfo) :
    fillField P m ji .ArrayJobID =
      some ({ ji with ArrayJobID := (m "ArrayJobId".toList).getD ji.ArrayJobID }, none) := by
  unfold fillField
  simp only [Field.tag]
  cases m "ArrayJobId".toList <;>
    simp [submitTime, startTime, runTime, timeLimit, JobInfo.Set]

theorem fillField_Name (P : Parsers) (m : SlurmFields) (ji : JobInfo) :
    fillField P m ji .Name =
      some ({ ji with Name := (m "JobName".toList).getD ji.Name }, none) := by
  unfold fillField
  simp only [Field.tag]
  cases m "JobName".toList <;>
    simp [submitTime, startTime, runTime, timeLimit, JobInfo.Set]

theorem fillField_ExitCode (P : Parsers) (m : SlurmFields) (ji : JobInfo) :
    fillField P m ji .ExitCode =
      some ({ ji with ExitCode := (m "ExitCode".toList).getD ji.ExitCode }, none) := by
  unfold fillField
  simp only [Field.tag]
  cases m "ExitCode".toList <;>
    simp [submitTime, startTime, runTime, timeLimit, JobInfo.Set]

theorem fillField_State (P : Parsers) (m : SlurmFields) (ji : JobInfo) :
    fillField P m ji .State =
      some ({ ji with State := (m "JobState".toList).getD ji.State }, none) := by
  unfold fillField
  simp only [Field.tag]
  cases m "JobState".toList <;>
    simp [submitTime, startTime, runTime, timeLimit, JobInfo.Set]

theorem fillField_WorkDir (P : Parsers) (m : SlurmFields) (ji : JobInfo) :
    fillField P m ji .WorkDir =
      some ({ ji with WorkDir := (m "WorkDir".toList).getD ji.WorkDir }, none) := by
  unfold fillField
  simp only [Field.tag]
  cases m "WorkDir".toList <;>
    simp [submitTime, startTime, runTime, timeLimit, JobInfo.Set]

theorem fillField_StdOut (P : Parsers) (m : SlurmFields) (ji : JobInfo) :
    fillField P m ji .StdOut =
      some ({ ji with StdOut := (m "StdOut".toList).getD ji.StdOut }, none) := by
  unfold fillField
  simp only [Field.tag]
  cases m "StdOut".toList <;>
    simp [submitTime, startTime, runTime, timeLimit, JobInfo.Set]

theorem fillField_StdErr (P : Parsers) (m : SlurmFields) (ji : JobInfo) :
    fillField P m ji .StdErr =
      some ({ ji with StdErr := (m "StdErr".toList).getD ji.StdErr }, none) := by
  unfold fillField
  simp only [Field.tag]
  cases m "StdErr".toList <;>
    simp [submitTime, startTime, runTime, timeLimit, JobInfo.Set]

theorem fillField_Partition (P : Parsers) (m : SlurmFields) (ji : JobInfo) :
    fillField P m ji .Partition =
      some ({ ji with Partition := (m "Partition".toList).getD ji.Partition }, none) := by
  unfold fillField
  simp only [Field.tag]
  cases m "Partition".toList <;>
    simp [submitTime, startTime, runTime, timeLimit, JobInfo.Set]

theorem fillField_NodeList (P : Parsers) (m : SlurmFields) (ji : JobInfo) :
    fillField P m ji .NodeList =
      some ({ ji with NodeList := (m "NodeList".toList).getD ji.NodeList }, none) := by
  unfold fillField
  simp only [Field.tag]
  cases m "NodeList".toList <;>
    simp [submitTime, startTime, runTime, timeLimit, JobInfo.Set]

theorem fillField_BatchHost (P : Parsers) (m : SlurmFields) (ji : JobInfo) :
    fillField P m ji .BatchHost =
      some ({ ji with BatchHost := (m "BatchHost".toList).getD ji.BatchHost }, none) := by
  unfold fillField
  simp only [Field.tag]
  cases m "BatchHost".toList <;>
    simp [submitTime, startTime, runTime, timeLimit, JobInfo.Set]

theorem fillField_NumNodes (P : Parsers) (m : SlurmFields) (ji : JobInfo) :
    fillField P m ji .NumNodes =
      some ({ ji with NumNodes := (m "NumNodes".toList).getD ji.NumNodes }, none) := by
  unfold fillField
  simp only [Field.tag]
  cases m "NumNodes".toList <;>
    simp [submitTime, startTime, runTime, timeLimit, JobInfo.Set]

theorem fillField_SubmitTime (P : Parsers) (m : SlurmFields) (ji : JobInfo) :
    fillField P m ji .SubmitTime =
      match m submitTime with
      | none => some (ji, none)
      | some v =>
        match P.parseTime v with
        | (_, some err) =>
          some (ji, some (.Wrapped err ("could not parse time: ".toList ++ v)))
        | (t, none) => some ({ ji with SubmitTime := t }, none) := by
  unfold fillField
  simp only [Field.tag, submitTime, startTime]
  cases m "SubmitTime".toList with
  | none => rfl
  | some v =>
    rcases hp : P.parseTime v with ⟨t, _ | e⟩ <;> simp [hp, JobInfo.Set, Wrap]

theorem fillField_StartTime (P : Parsers) (m : SlurmFields) (ji : JobInfo) :
    fillField P m ji .StartTime =
      match m startTime with
      | none => some (ji, none)
      | some v =>
        match P.parseTime v with
        | (_, some err) =>
          some (ji, some (.Wrapped err ("could not parse time: ".toList ++ v)))
        | (t, none) => some ({ ji with StartTime := t }, none) := by
  unfold fillField
  simp only [Field.tag, submitTime, startTime]
  cases m "StartTime".toList with
  | none => rfl
  | some v =>
    rcases hp : P.parseTime v with ⟨t, _ | e⟩ <;> simp [hp, JobInfo.Set, Wrap]

theorem fillField_RunTime (P : Parsers) (m : SlurmFields) (ji : JobInfo) :
    fillField P m ji .RunTime =
      match m runTime with
      | none => some (ji, none)
      | some v =>
        match P.ParseDuration v with
        | (_, some err) =>
          if err = Error.ErrDurationIsUnlimited then some (ji, none)
          else some (ji, some (.Wrapped err ("could not parse duration: ".toList ++ v)))
        | (d, none) => some ({ ji with RunTime := d }, none) := by
  unfold fillField
  simp only [Field.tag, submitTime, startTime, runTime, timeLimit]
  cases m "RunTime".toList with
  | none => rfl
  | some v =>
    rcases hp : P.ParseDuration v with ⟨t, _ | e⟩ <;> simp [hp, JobInfo.Set, Wrap]

theorem fillField_TimeLimit (P : Parsers) (m : SlurmFields) (ji : JobInfo) :
    fillField P m ji .TimeLimit =
      match m timeLimit with
      | none => some (ji, none)
      | some v =>
        match P.ParseDuration v with
        | (_, some err) =>
          if err = Error.ErrDurationIsUnlimited then some (ji, none)
          else some (ji, some (.Wrapped err ("could not parse duration: ".toList ++ v)))
        | (d, none) => some ({ ji with TimeLimit := d }, none) := by
  unfold fillField
  simp only [Field.tag, submitTime, startTime, runTime, timeLimit]
  cases m "TimeLimit".toList with
  | none => rfl
  | some v =>
    rcases hp : P.ParseDuration v with ⟨t, _ | e⟩ <;> simp [hp, JobInfo.Set, Wrap]
theorem Field.all_eq : Field.all = Field.strings1 ++ (Field.times ++ Field.strings2) := rfl

theorem fillField_spec (P : Parsers) (m : SlurmFields) (ji : JobInfo) (f : Field) :
    ∃ j e, fillField P m ji f = some (j, e) ∧
      (match e with
       | some err => ∃ v cause, Rejected P m f.tag v cause ∧ err = parseError f.tag v cause
       | none => ∀ v cause, ¬ Rejected P m f.tag v cause) := by
  cases f
  case SubmitTime =>
    rw [fillField_SubmitTime]
    cases h : m submitTime with
    | none =>
      refine ⟨_, none, rfl, ?_⟩
      intro v cause hr
      have h1 := hr.1
      simp only [Field.tag] at h1
      change m submitTime = some v at h1
      rw [h] at h1
      cases h1
    | some v =>
      dsimp only
      rcases hp : P.parseTime v with ⟨t, _ | e⟩
      · refine ⟨_, none, rfl, ?_⟩
        intro v1 cause hr
        obtain ⟨h1, h2⟩ := hr
        simp only [Field.tag] at h1 h2
        change m submitTime = some v1 at h1
        rw [h] at h1
        cases h1
        simp [submitTime, startTime, runTime, timeLimit, hp] at h2
      · refine ⟨_, some _, rfl, v, e, ⟨h, ?_⟩, ?_⟩
        · left
          simp [Field.tag, submitTime, startTime, hp]
        · simp [parseError, Field.tag, submitTime, startTime]
  case StartTime =>
    rw [fillField_StartTime]
    cases h : m startTime with
    | none =>
      refine ⟨_, none, rfl, ?_⟩
      intro v cause hr
      have h1 := hr.1
      simp only [Field.tag] at h1
      change m startTime = some v at h1
      rw [h] at h1
      cases h1
    | some v =>
      dsimp only
      rcases hp : P.parseTime v with ⟨t, _ | e⟩
      · refine ⟨_, none, rfl, ?_⟩
        intro v1 cause hr
        obtain ⟨h1, h2⟩ := hr
        simp only [Field.tag] at h1 h2
        change m startTime = some v1 at h1
        rw [h] at h1
        cases h1
        simp [submitTime, startTime, runTime, timeLimit, hp] at h2
      · refine ⟨_, some _, rfl, v, e, ⟨h, ?_⟩, ?_⟩
        · left
          simp [Field.tag, submitTime, startTime, hp]
        · simp [parseError, Field.tag, submitTime, startTime]
  case RunTime =>
    rw [fillField_RunTime]
    cases h : m runTime with
    | none =>
      refine ⟨_, none, rfl, ?_⟩
      intro v cause hr
      have h1 := hr.1
      simp only [Field.tag] at h1
      change m runTime = some v at h1
      rw [h] at h1
      cases h1
    | some v =>
      dsimp only
      rcases hp : P.ParseDuration v with ⟨t, _ | e⟩
      · refine ⟨_, none, rfl, ?_⟩
        intro v1 cause hr
        obtain ⟨h1, h2⟩ := hr
        simp only [Field.tag] at h1 h2
        change m runTime = some v1 at h1
        rw [h] at h1
        cases h1
        simp [submitTime, startTime, runTime, timeLimit, hp] at h2
      · by_cases hu : e = Error.ErrDurationIsUnlimited
        · refine ⟨ji, none, by dsimp only; rw [if_pos hu], ?_⟩
          intro v1 cause hr
          obtain ⟨h1, h2⟩ := hr
          simp only [Field.tag] at h1 h2
          change m runTime = some v1 at h1
          rw [h] at h1
          cases h1
          simp [submitTime, startTime, runTime, timeLimit, hp, hu] at h2
          exact h2.2 h2.1.symm
        · refine ⟨ji, some _, by dsimp only; rw [if_neg hu], v, e, ⟨h, ?_⟩, ?_⟩
          · right
            simp [Field.tag, runTime, timeLimit, hp, hu]
          · simp [parseError, Field.tag, submitTime, startTime, runTime, timeLimit]
  case TimeLimit =>
    rw [fillField_TimeLimit]
    cases h : m timeLimit with
    | none =>
      refine ⟨_, none, rfl, ?_⟩
      intro v cause hr
      have h1 := hr.1
      simp only [Field.tag] at h1
      change m timeLimit = some v at h1
      rw [h] at h1
      cases h1
    | some v =>
      dsimp only
      rcases hp : P.ParseDuration v with ⟨t, _ | e⟩
      · refine ⟨_, none, rfl, ?_⟩
        intro v1 cause hr
        obtain ⟨h1, h2⟩ := hr
        simp only [Field.tag] at h1 h2
        change m timeLimit = some v1 at h1
        rw [h] at h1
        cases h1
        simp [submitTime, startTime, runTime, timeLimit, hp] at h2
      · by_cases hu : e = Error.ErrDurationIsUnlimited
        · refine ⟨ji, none, by dsimp only; rw [if_pos hu], ?_⟩
          intro v1 cause hr
          obtain ⟨h1, h2⟩ := hr
          simp only [Field.tag] at h1 h2
          change m timeLimit = some v1 at h1
          rw [h] at h1
          cases h1
          simp [submitTime, startTime, runTime, timeLimit, hp, hu] at h2
          exact h2.2 h2.1.symm
        · refine ⟨ji, some _, by dsimp only; rw [if_neg hu], v, e, ⟨h, ?_⟩, ?_⟩
          · right
            simp [Field.tag, runTime, timeLimit, hp, hu]
          · simp [parseError, Field.tag, submitTime, startTime, runTime, timeLimit]
  all_goals
    first
    | (rw [fillField_ID]) | (rw [fillField_UserID]) | (rw [fillField_ArrayJobID])
    | (rw [fillField_Name]) | (rw [fillField_ExitCode]) | (rw [fillField_State])
    | (rw [fillField_WorkDir]) | (rw [fillField_StdOut]) | (rw [fillField_StdErr])
    | (rw [fillField_Partition]) | (rw [fillField_NodeList]) | (rw [fillField_BatchHost])
    | (rw [fillField_NumNodes])
  all_goals
    refine ⟨_, none, rfl, ?_⟩
    intro v cause hr
    have h2 := hr.2
    simp [Field.tag, submitTime, startTime, runTime, timeLimit] at h2
theorem fillLoop_spec (P : Parsers) (m : SlurmFields) (fs : List Field) (ji : JobInfo) :
    ∃ j e, fillLoop P m fs ji = some (j, e) ∧
      (match e with
       | some err => ∃ f ∈ fs, ∃ v cause,
           Rejected P m f.tag v cause ∧ err = parseError f.tag v cause
       | none => ∀ f ∈ fs, ∀ v cause, ¬ Rejected P m f.tag v cause) := by
  induction fs generalizing ji with
  | nil => exact ⟨ji, none, rfl, fun f hf => by cases hf⟩
  | cons f fs ih =>
    obtain ⟨j1, e1, h1, hs1⟩ := fillField_spec P m ji f
    cases e1 with
    | some err =>
      obtain ⟨v, cause, hr, he⟩ := hs1
      refine ⟨j1, some err, by simp only [fillLoop, h1], f, List.mem_cons_self _ _, v, cause, hr, he⟩
    | none =>
      obtain ⟨j2, e2, h2, hs2⟩ := ih j1
      refine ⟨j2, e2, by simp only [fillLoop, h1, h2], ?_⟩
      cases e2 with
      | some err =>
        obtain ⟨g, hg, v, cause, hr, he⟩ := hs2
        exact ⟨g, List.mem_cons_of_mem _ hg, v, cause, hr, he⟩
      | none =>
        intro g hg v cause
        rcases List.mem_cons.1 hg with rfl | hg1
        · exact hs1 v cause
        · exact hs2 g hg1 v cause

theorem Rejected.tag_mem {P : Parsers} {m : SlurmFields} {key v : Str} {cause : Error}
    (h : Rejected P m key v cause) : ∃ f ∈ Field.all, f.tag = key := by
  rcases h.2 with ⟨h1 | h1, _⟩ | ⟨h1 | h1, _⟩
  · exact ⟨.SubmitTime, by simp [Field.all], h1.symm⟩
  · exact ⟨.StartTime, by simp [Field.all], h1.symm⟩
  · exact ⟨.RunTime, by simp [Field.all], h1.symm⟩
  · exact ⟨.TimeLimit, by simp [Field.all], h1.symm⟩

/-- The field loop never panics: `fillFromSlurmFields` returns. -/
theorem fillFromSlurmFields_returns (P : Parsers) (m : SlurmFields) (ji : JobInfo) :
    ∃ j e, fillFromSlurmFields P m ji = some (j, e) := by
  obtain ⟨j, e, h, _⟩ := fillLoop_spec P m Field.all ji
  exact ⟨j, e, h⟩

/-- An error of `fillFromSlurmFields` is the error of a rejected value. -/
theorem fillFromSlurmFields_error {P : Parsers} {m : SlurmFields} {ji j : JobInfo}
    {err : Error} (h : fillFromSlurmFields P m ji = some (j, some err)) :
    ∃ key v cause, Rejected P m key v cause ∧ err = parseError key v cause := by
  obtain ⟨j1, e1, h1, hs⟩ := fillLoop_spec P m Field.all ji
  unfold fillFromSlurmFields at h
  rw [h1] at h
  cases h
  obtain ⟨f, _, v, cause, hr, he⟩ := hs
  exact ⟨f.tag, v, cause, hr, he⟩

/-- Without an error no value of the mapping is rejected. -/
theorem fillFromSlurmFields_ok {P : Parsers} {m : SlurmFields} {ji j : JobInfo}
    (h : fillFromSlurmFields P m ji = some (j, none)) (key v : Str) (cause : Error) :
    ¬ Rejected P m key v cause := by
  obtain ⟨j1, e1, h1, hs⟩ := fillLoop_spec P m Field.all ji
  unfold fillFromSlurmFields at h
  rw [h1] at h
  cases h
  intro hr
  obtain ⟨f, hf, rfl⟩ := hr.tag_mem
  exact hs f hf v cause hr

/-- With no rejected value the field loop returns no error. -/
theorem fillFromSlurmFields_ok_of (P : Parsers) (m : SlurmFields) (ji : JobInfo)
    (h : ∀ key v cause, ¬ Rejected P m key v cause) :
    ∃ j, fillFromSlurmFields P m ji = some (j, none) := by
  obtain ⟨j, e, hj⟩ := fillFromSlurmFields_returns P m ji
  cases e with
  | none => exact ⟨j, hj⟩
  | some err =>
    obtain ⟨key, v, cause, hr, _⟩ := fillFromSlurmFields_error hj
    exact absurd hr (h key v cause)
theorem fillLoop_strings1 (P : Parsers) (m : SlurmFields) (ji : JobInfo) :
    fillLoop P m Field.strings1 ji =
      some ({ ji with
        ID := (m "JobId".toList).getD ji.ID
        UserID := (m "UserId".toList).getD ji.UserID
        ArrayJobID := (m "ArrayJobId".toList).getD ji.ArrayJobID
        Name := (m "JobName".toList).getD ji.Name
        ExitCode := (m "ExitCode".toList).getD ji.ExitCode
        State := (m "JobState".toList).getD ji.State }, none) := by
  simp only [Field.strings1, fillLoop, fillField_ID, fillField_UserID, fillField_ArrayJobID,
    fillField_Name, fillField_ExitCode, fillField_State]

theorem fillLoop_strings2 (P : Parsers) (m : SlurmFields) (ji : JobInfo) :
    fillLoop P m Field.strings2 ji =
      some ({ ji with
        WorkDir := (m "WorkDir".toList).getD ji.WorkDir
        StdOut := (m "StdOut".toList).getD ji.StdOut
        StdErr := (m "StdErr".toList).getD ji.StdErr
        Partition := (m "Partition".toList).getD ji.Partition
        NodeList := (m "NodeList".toList).getD ji.NodeList
        BatchHost := (m "BatchHost".toList).getD ji.BatchHost
        NumNodes := (m "NumNodes".toList).getD ji.NumNodes }, none) := by
  simp only [Field.strings2, fillLoop, fillField_WorkDir, fillField_StdOut, fillField_StdErr,
    fillField_Partition, fillField_NodeList, fillField_BatchHost, fillField_NumNodes]

theorem fillField_SubmitTime_frame {P : Parsers} {m : SlurmFields} {ji j : JobInfo}
    {e : Option Error} (h : fillField P m ji .SubmitTime = some (j, e)) :
    ∃ t, j = { ji with SubmitTime := t } := by
  rw [fillField_SubmitTime] at h
  cases hm : m submitTime with
  | none =>
    rw [hm] at h
    cases h
    exact ⟨ji.SubmitTime, rfl⟩
  | some v =>
    rw [hm] at h
    dsimp only at h
    rcases hp : P.parseTime v with ⟨t, _ | err⟩
    · rw [hp] at h
      cases h
      exact ⟨t, rfl⟩
    · rw [hp] at h
      dsimp only at h
      refine ⟨ji.SubmitTime, ?_⟩
      cases h
      rfl

theorem fillField_StartTime_frame {P : Parsers} {m : SlurmFields} {ji j : JobInfo}
    {e : Option Error} (h : fillField P m ji .StartTime = some (j, e)) :
    ∃ t, j = { ji with StartTime := t } := by
  rw [fillField_StartTime] at h
  cases hm : m startTime with
  | none =>
    rw [hm] at h
    cases h
    exact ⟨ji.StartTime, rfl⟩
  | some v =>
    rw [hm] at h
    dsimp only at h
    rcases hp : P.parseTime v with ⟨t, _ | err⟩
    · rw [hp] at h
      cases h
      exact ⟨t, rfl⟩
    · rw [hp] at h
      dsimp only at h
      refine ⟨ji.StartTime, ?_⟩
      cases h
      rfl

theorem fillField_RunTime_frame {P : Parsers} {m : SlurmFields} {ji j : JobInfo}
    {e : Option Error} (h : fillField P m ji .RunTime = some (j, e)) :
    ∃ t, j = { ji with RunTime := t } := by
  rw [fillField_RunTime] at h
  cases hm : m runTime with
  | none =>
    rw [hm] at h
    cases h
    exact ⟨ji.RunTime, rfl⟩
  | some v =>
    rw [hm] at h
    dsimp only at h
    rcases hp : P.ParseDuration v with ⟨t, _ | err⟩
    · rw [hp] at h
      cases h
      exact ⟨t, rfl⟩
    · rw [hp] at h
      dsimp only at h
      refine ⟨ji.RunTime, ?_⟩
      split at h <;> cases h <;> exact rfl

theorem fillField_TimeLimit_frame {P : Parsers} {m : SlurmFields} {ji j : JobInfo}
    {e : Option Error} (h : fillField P m ji .TimeLimit = some (j, e)) :
    ∃ t, j = { ji with TimeLimit := t } := by
  rw [fillField_TimeLimit] at h
  cases hm : m timeLimit with
  | none =>
    rw [hm] at h
    cases h
    exact ⟨ji.TimeLimit, rfl⟩
  | some v =>
    rw [hm] at h
    dsimp only at h
    rcases hp : P.ParseDuration v with ⟨t, _ | err⟩
    · rw [hp] at h
      cases h
      exact ⟨t, rfl⟩
    · rw [hp] at h
      dsimp only at h
      refine ⟨ji.TimeLimit, ?_⟩
      split at h <;> cases h <;> exact rfl

theorem fillLoop_times_frame {P : Parsers} {m : SlurmFields} {ji j : JobInfo}
    {e : Option Error} (h : fillLoop P m Field.times ji = some (j, e)) :
    ∃ t1 t2 d1 d2,
      j = { ji with SubmitTime := t1, StartTime := t2, RunTime := d1, TimeLimit := d2 } := by
  simp only [Field.times, fillLoop] at h
  rcases h1 : fillField P m ji .SubmitTime with _ | ⟨j1, _ | e1⟩
  · rw [h1] at h; cases h
  · obtain ⟨t1, rfl⟩ := fillField_SubmitTime_frame h1
    rw [h1] at h
    dsimp only at h
    rcases h2 : fillField P m _ .StartTime with _ | ⟨j2, _ | e2⟩
    · rw [h2] at h; cases h
    · obtain ⟨t2, rfl⟩ := fillField_StartTime_frame h2
      rw [h2] at h
      dsimp only at h
      rcases h3 : fillField P m _ .RunTime with _ | ⟨j3, _ | e3⟩
      · rw [h3] at h; cases h
      · obtain ⟨d1, rfl⟩ := fillField_RunTime_frame h3
        rw [h3] at h
        dsimp only at h
        rcases h4 : fillField P m _ .TimeLimit with _ | ⟨j4, _ | e4⟩
        · rw [h4] at h; cases h
        · obtain ⟨d2, rfl⟩ := fillField_TimeLimit_frame h4
          rw [h4] at h
          cases h
          exact ⟨t1, t2, d1, d2, rfl⟩
        · obtain ⟨d2, rfl⟩ := fillField_TimeLimit_frame h4
          rw [h4] at h
          cases h
          exact ⟨t1, t2, d1, d2, rfl⟩
      · obtain ⟨d1, rfl⟩ := fillField_RunTime_frame h3
        rw [h3] at h
        cases h
        exact ⟨t1, t2, d1, ji.TimeLimit, rfl⟩
    · obtain ⟨t2, rfl⟩ := fillField_StartTime_frame h2
      rw [h2] at h
      cases h
      exact ⟨t1, t2, ji.RunTime, ji.TimeLimit, rfl⟩
  · obtain ⟨t1, rfl⟩ := fillField_SubmitTime_frame h1
    rw [h1] at h
    cases h
    exact ⟨t1, ji.StartTime, ji.RunTime, ji.TimeLimit, rfl⟩
/-- What `fillFromSlurmFields` leaves in an empty descriptor: the string
fields before the time fields are always read from their keys; the string
fields after them are read from their keys when no error is returned and are
left empty otherwise. -/
theorem fillFromSlurmFields_strings {P : Parsers} {m : SlurmFields} {j : JobInfo}
    {e : Option Error} (h : fillFromSlurmFields P m {} = some (j, e)) :
    (j.ID = (m "JobId".toList).getD [] ∧ j.UserID = (m "UserId".toList).getD [] ∧
      j.ArrayJobID = (m "ArrayJobId".toList).getD [] ∧
      j.Name = (m "JobName".toList).getD [] ∧
      j.ExitCode = (m "ExitCode".toList).getD [] ∧
      j.State = (m "JobState".toList).getD []) ∧
    (e = none →
      j.WorkDir = (m "WorkDir".toList).getD [] ∧ j.StdOut = (m "StdOut".toList).getD [] ∧
      j.StdErr = (m "StdErr".toList).getD [] ∧
      j.Partition = (m "Partition".toList).getD [] ∧
      j.NodeList = (m "NodeList".toList).getD [] ∧
      j.BatchHost = (m "BatchHost".toList).getD [] ∧
      j.NumNodes = (m "NumNodes".toList).getD []) ∧
    (e ≠ none →
      j.WorkDir = [] ∧ j.StdOut = [] ∧ j.StdErr = [] ∧ j.Partition = [] ∧
      j.NodeList = [] ∧ j.BatchHost = [] ∧ j.NumNodes = []) := by
  unfold fillFromSlurmFields at h
  rw [Field.all_eq, fillLoop_append, fillLoop_strings1] at h
  dsimp only at h
  rw [fillLoop_append] at h
  rcases ht : fillLoop P m Field.times _ with _ | ⟨j1, _ | e1⟩
  · rw [ht] at h; cases h
  · obtain ⟨t1, t2, d1, d2, rfl⟩ := fillLoop_times_frame ht
    rw [ht] at h
    dsimp only at h
    rw [fillLoop_strings2] at h
    cases h
    simp
  · obtain ⟨t1, t2, d1, d2, rfl⟩ := fillLoop_times_frame ht
    rw [ht] at h
    cases h
    simp
/-! ## Properties of the block loop -/

theorem fillFromSlurmFields_congr (P : Parsers) (m m1 : SlurmFields) (ji : JobInfo)
    (h : ∀ f : Field, m f.tag = m1 f.tag) :
    fillFromSlurmFields P m ji = fillFromSlurmFields P m1 ji :=
  fillLoop_congr P m m1 Field.all (fun f _ => h f) ji

theorem jobInfoLoop_returns (P : Parsers) (blocks : List Str) :
    ∃ infos e, jobInfoLoop P blocks = some (infos, e) := by
  induction blocks with
  | nil => exact ⟨[], none, rfl⟩
  | cons raw rest ih =>
    obtain ⟨j, e, hj⟩ := fillFromSlurmFields_returns P (slurmFieldsOf raw) {}
    obtain ⟨infos, e1, hr⟩ := ih
    cases e with
    | some err => exact ⟨[], some err, by simp only [jobInfoLoop, hj]⟩
    | none =>
      cases e1 with
      | some err => exact ⟨[], some err, by simp only [jobInfoLoop, hj, hr]⟩
      | none => exact ⟨j :: infos, none, by simp only [jobInfoLoop, hj, hr]⟩

theorem jobInfoLoop_ok_iff (P : Parsers) (blocks : List Str) (infos : List JobInfo) :
    jobInfoLoop P blocks = some (infos, none) ↔
      List.Forall₂ (fun raw ji => fillFromSlurmFields P (slurmFieldsOf raw) {} = some (ji, none))
        blocks infos := by
  induction blocks generalizing infos with
  | nil =>
    constructor
    · intro h
      simp only [jobInfoLoop, Option.some.injEq, Prod.mk.injEq] at h
      rw [← h.1]
      exact List.Forall₂.nil
    · intro h
      cases h
      rfl
  | cons raw rest ih =>
    obtain ⟨j, e, hj⟩ := fillFromSlurmFields_returns P (slurmFieldsOf raw) {}
    obtain ⟨infos1, e1, hr⟩ := jobInfoLoop_returns P rest
    constructor
    · intro h
      simp only [jobInfoLoop, hj] at h
      cases e with
      | some err => simp at h
      | none =>
        dsimp only at h
        rw [hr] at h
        cases e1 with
        | some err => simp at h
        | none =>
          simp only [Option.some.injEq, Prod.mk.injEq, and_true] at h
          rw [← h]
          exact List.Forall₂.cons hj ((ih infos1).1 hr)
    · intro h
      cases h with
      | cons h1 h2 =>
        simp only [jobInfoLoop, h1, (ih _).2 h2]

theorem jobInfoLoop_error {P : Parsers} {blocks : List Str} {infos : List JobInfo}
    {err : Error} (h : jobInfoLoop P blocks = some (infos, some err)) :
    infos = [] ∧ ∃ raw ∈ blocks, ∃ j,
      fillFromSlurmFields P (slurmFieldsOf raw) {} = some (j, some err) := by
  induction blocks generalizing infos with
  | nil => simp [jobInfoLoop] at h
  | cons raw rest ih =>
    obtain ⟨j, e, hj⟩ := fillFromSlurmFields_returns P (slurmFieldsOf raw) {}
    obtain ⟨infos1, e1, hr⟩ := jobInfoLoop_returns P rest
    simp only [jobInfoLoop, hj] at h
    cases e with
    | some err1 =>
      simp only [Option.some.injEq, Prod.mk.injEq] at h
      obtain ⟨h1, h2⟩ := h
      subst h2
      exact ⟨h1.symm, raw, List.mem_cons_self _ _, j, hj⟩
    | none =>
      dsimp only at h
      rw [hr] at h
      cases e1 with
      | none => simp at h
      | some err1 =>
        simp only [Option.some.injEq, Prod.mk.injEq] at h
        obtain ⟨h1, h2⟩ := h
        subst h2
        obtain ⟨_, raw1, hm, j1, hj1⟩ := ih hr
        exact ⟨h1.symm, raw1, List.mem_cons_of_mem _ hm, j1, hj1⟩

theorem jobInfoLoop_congr (P : Parsers) (pre post : List Str) (raw raw1 : Str)
    (h : ∀ f : Field, slurmFieldsOf raw f.tag = slurmFieldsOf raw1 f.tag) :
    jobInfoLoop P (pre ++ raw :: post) = jobInfoLoop P (pre ++ raw1 :: post) := by
  induction pre with
  | nil =>
    simp only [List.nil_append, jobInfoLoop,
      fillFromSlurmFields_congr P (slurmFieldsOf raw) (slurmFieldsOf raw1) {} h]
  | cons b pre ih => simp only [List.cons_append, jobInfoLoop, List.append_eq, ih]

/-! ## Properties of the token loop -/

theorem slurmFieldsStep_skip (m : SlurmFields) (t : Str)
    (h : (Split t "=".toList).length ≠ 2) : slurmFieldsStep m t = m := by
  unfold slurmFieldsStep
  split
  · rename_i k v hs
    rw [hs] at h
    simp at h
  · rfl

theorem slurmFieldsStep_agree (m m1 : SlurmFields) (t k : Str) (h : m k = m1 k) :
    slurmFieldsStep m t k = slurmFieldsStep m1 t k := by
  unfold slurmFieldsStep
  rcases Split t "=".toList with _ | ⟨a, _ | ⟨b, _ | ⟨c, rest⟩⟩⟩ <;>
    simp [SlurmFields.insert, h]

theorem slurmFields_foldl_agree (ts : List Str) (m m1 : SlurmFields) (k : Str)
    (h : m k = m1 k) : ts.foldl slurmFieldsStep m k = ts.foldl slurmFieldsStep m1 k := by
  induction ts generalizing m m1 with
  | nil => exact h
  | cons t ts ih => exact ih _ _ (slurmFieldsStep_agree m m1 t k h)

theorem slurmFieldsStep_other (m : SlurmFields) (t K V k : Str)
    (ht : Split t "=".toList = [K, V]) (hk : k ≠ K) : slurmFieldsStep m t k = m k := by
  unfold slurmFieldsStep
  rw [ht]
  simp [SlurmFields.insert, hk]
theorem valuesParse_iff (P : Parsers) (m : SlurmFields) :
    valuesParse P m = true ↔ ∀ key v cause, ¬ Rejected P m key v cause := by
  constructor
  · intro h key v cause hr
    simp only [valuesParse, Bool.and_eq_true] at h
    obtain ⟨⟨⟨h1, h2⟩, h3⟩, h4⟩ := h
    obtain ⟨hm, hk⟩ := hr
    rcases hk with ⟨hk | hk, hp⟩ | ⟨hk | hk, hp, hne⟩
    · subst hk
      simp [parsesTime, hm, hp] at h1
    · subst hk
      simp [parsesTime, hm, hp] at h2
    · subst hk
      simp [parsesDuration, hm, hp, hne] at h3
    · subst hk
      simp [parsesDuration, hm, hp, hne] at h4
  · intro h
    simp only [valuesParse, Bool.and_eq_true]
    refine ⟨⟨⟨?_, ?_⟩, ?_⟩, ?_⟩
    · unfold parsesTime
      cases hm : m submitTime with
      | none => rfl
      | some v =>
        cases hp : (P.parseTime v).2 with
        | none => simp [hp]
        | some cause => exact absurd ⟨hm, Or.inl ⟨Or.inl rfl, hp⟩⟩ (h _ v cause)
    · unfold parsesTime
      cases hm : m startTime with
      | none => rfl
      | some v =>
        cases hp : (P.parseTime v).2 with
        | none => simp [hp]
        | some cause => exact absurd ⟨hm, Or.inl ⟨Or.inr rfl, hp⟩⟩ (h _ v cause)
    · unfold parsesDuration
      cases hm : m runTime with
      | none => rfl
      | some v =>
        cases hp : (P.ParseDuration v).2 with
        | none => simp [hp]
        | some cause =>
          by_cases hc : cause = Error.ErrDurationIsUnlimited
          · simp [hp, hc]
          · exact absurd ⟨hm, Or.inr ⟨Or.inl rfl, hp, hc⟩⟩ (h _ v cause)
    · unfold parsesDuration
      cases hm : m timeLimit with
      | none => rfl
      | some v =>
        cases hp : (P.ParseDuration v).2 with
        | none => simp [hp]
        | some cause =>
          by_cases hc : cause = Error.ErrDurationIsUnlimited
          · simp [hp, hc]
          · exact absurd ⟨hm, Or.inr ⟨Or.inr rfl, hp, hc⟩⟩ (h _ v cause)

theorem fillField_absent (P : Parsers) (m : SlurmFields) (ji : JobInfo) (f : Field)
    (h : m f.tag = none) : fillField P m ji f = some (ji, none) := by
  unfold fillField
  simp only [h]

theorem fillField_frame {P : Parsers} {m : SlurmFields} {ji j : JobInfo} {e : Option Error}
    {f : Field} (h : fillField P m ji f = some (j, e)) (g : Field) (hg : g ≠ f) :
    j.get g = ji.get g := by
  cases f
  case SubmitTime => obtain ⟨t, rfl⟩ := fillField_SubmitTime_frame h; cases g <;> first | rfl | exact absurd rfl hg
  case StartTime => obtain ⟨t, rfl⟩ := fillField_StartTime_frame h; cases g <;> first | rfl | exact absurd rfl hg
  case RunTime => obtain ⟨t, rfl⟩ := fillField_RunTime_frame h; cases g <;> first | rfl | exact absurd rfl hg
  case TimeLimit => obtain ⟨t, rfl⟩ := fillField_TimeLimit_frame h; cases g <;> first | rfl | exact absurd rfl hg
  all_goals
    first
    | (rw [fillField_ID] at h) | (rw [fillField_UserID] at h) | (rw [fillField_ArrayJobID] at h)
    | (rw [fillField_Name] at h) | (rw [fillField_ExitCode] at h) | (rw [fillField_State] at h)
    | (rw [fillField_WorkDir] at h) | (rw [fillField_StdOut] at h) | (rw [fillField_StdErr] at h)
    | (rw [fillField_Partition] at h) | (rw [fillField_NodeList] at h)
    | (rw [fillField_BatchHost] at h) | (rw [fillField_NumNodes] at h)
  all_goals
    cases h
    cases g <;> first | rfl | exact absurd rfl hg

theorem fillLoop_frame {P : Parsers} {m : SlurmFields} (fs : List Field) {ji j : JobInfo}
    {e : Option Error} (h : fillLoop P m fs ji = some (j, e)) (g : Field)
    (hg : ∀ f ∈ fs, f ≠ g ∨ m f.tag = none) : j.get g = ji.get g := by
  induction fs generalizing ji with
  | nil =>
    simp only [fillLoop, Option.some.injEq, Prod.mk.injEq] at h
    rw [h.1]
  | cons f fs ih =>
    obtain ⟨j1, e1, h1, _⟩ := fillField_spec P m ji f
    have hj1 : j1.get g = ji.get g := by
      rcases hg f (List.mem_cons_self _ _) with hne | hnone
      · exact fillField_frame h1 g (Ne.symm hne)
      · rw [fillField_absent P m ji f hnone] at h1
        cases h1
        rfl
    simp only [fillLoop, h1] at h
    cases e1 with
    | some err =>
      simp only [Option.some.injEq, Prod.mk.injEq] at h
      rw [← h.1]
      exact hj1
    | none =>
      dsimp only at h
      rw [ih h (fun f1 hf1 => hg f1 (List.mem_cons_of_mem _ hf1)), hj1]
theorem fillLoop_congr_steps (P : Parsers) (m m1 : SlurmFields) (fs : List Field)
    (h : ∀ f ∈ fs, ∀ ji, fillField P m ji f = fillField P m1 ji f) (ji : JobInfo) :
    fillLoop P m fs ji = fillLoop P m1 fs ji := by
  induction fs generalizing ji with
  | nil => rfl
  | cons f fs ih =>
    have hf := h f (List.mem_cons_self _ _) ji
    have ih1 := fun j => ih (fun g hg => h g (List.mem_cons_of_mem _ hg)) j
    simp only [fillLoop, hf]
    cases fillField P m1 ji f with
    | none => rfl
    | some r =>
      obtain ⟨j, e⟩ := r
      cases e with
      | none => exact ih1 j
      | some e => rfl

theorem fillField_erase_unlimited (P : Parsers) (m : SlurmFields) (key v : Str)
    (hk : key = runTime ∨ key = timeLimit) (hm : m key = some v)
    (hu : (P.ParseDuration v).2 = some Error.ErrDurationIsUnlimited) (f : Field)
    (ji : JobInfo) : fillField P m ji f = fillField P (m.erase key) ji f := by
  by_cases hf : f.tag = key
  · have he : (m.erase key) f.tag = none := by simp [SlurmFields.erase, hf]
    rw [fillField_absent P _ ji f he]
    have hm1 : m f.tag = some v := by rw [hf]; exact hm
    unfold fillField
    simp only [hm1]
    have hnt : ¬ (f.tag = submitTime ∨ f.tag = startTime) := by
      rw [hf]
      rcases hk with rfl | rfl <;> simp [runTime, timeLimit, submitTime, startTime]
    have hd : f.tag = runTime ∨ f.tag = timeLimit := by rw [hf]; exact hk
    rw [if_neg hnt, if_pos hd]
    rcases hp : P.ParseDuration v with ⟨d, e⟩
    rw [hp] at hu
    simp only at hu
    subst hu
    simp
  · exact fillField_congr P m _ ji f (by simp [SlurmFields.erase, hf])

theorem fillFromSlurmFields_erase_unlimited (P : Parsers) (m : SlurmFields) (key v : Str)
    (hk : key = runTime ∨ key = timeLimit) (hm : m key = some v)
    (hu : (P.ParseDuration v).2 = some Error.ErrDurationIsUnlimited) (ji : JobInfo) :
    fillFromSlurmFields P m ji = fillFromSlurmFields P (m.erase key) ji :=
  fillLoop_congr_steps P m _ Field.all
    (fun f _ j => fillField_erase_unlimited P m key v hk hm hu f j) ji

theorem fillFromSlurmFields_absent_field {P : Parsers} {m : SlurmFields} {ji j : JobInfo}
    {e : Option Error} (h : fillFromSlurmFields P m ji = some (j, e)) (g : Field)
    (hg : m g.tag = none) : j.get g = ji.get g := by
  refine fillLoop_frame Field.all h g (fun f _ => ?_)
  by_cases hf : f = g
  · right; rw [hf]; exact hg
  · left; exact hf

theorem Rejected.erase_of_ne {P : Parsers} {m : SlurmFields} {key key1 v1 : Str}
    {cause : Error} (h : Rejected P (m.erase key) key1 v1 cause) :
    key1 ≠ key ∧ Rejected P m key1 v1 cause := by
  obtain ⟨h1, h2⟩ := h
  by_cases hk : key1 = key
  · simp [SlurmFields.erase, hk] at h1
  · simp only [SlurmFields.erase, hk, if_false] at h1
    exact ⟨hk, h1, h2⟩
theorem forall₂_exists_of_mem {α β : Type} {R : α → β → Prop} {l1 : List α} {l2 : List β}
    (h : List.Forall₂ R l1 l2) {a : α} (ha : a ∈ l1) : ∃ b ∈ l2, R a b := by
  induction h with
  | nil => cases ha
  | cons hab _ ih =>
    rcases List.mem_cons.1 ha with rfl | ha1
    · exact ⟨_, List.mem_cons_self _ _, hab⟩
    · obtain ⟨b, hb, hr⟩ := ih ha1
      exact ⟨b, List.mem_cons_of_mem _ hb, hr⟩

theorem parseError_message (key v : Str) (cause : Error) (quote : Str → Str) :
    v <:+: (parseError key v cause).Error quote := by
  simp only [parseError, Error.Error]
  exact ⟨if key = submitTime ∨ key = startTime then "could not parse time: ".toList
      else "could not parse duration: ".toList, ": ".toList ++ cause.Error quote,
    by simp only [List.append_assoc]⟩
/-! ## Splitting on a single character -/

theorem splitGo_single_not_mem (c : Char) (s : Str) (h : c ∉ s) :
    splitGo [c] 0 s = [s] := by
  induction s with
  | nil => rfl
  | cons x xs ih =>
    have hx : c ≠ x := fun e => h (by simp [e])
    have hxs : c ∉ xs := fun e => h (List.mem_cons_of_mem _ e)
    simp [splitGo, List.isPrefixOf, hx, ih hxs]

theorem splitGo_single_append (c : Char) (a b : Str) (h : c ∉ a) :
    splitGo [c] 0 (a ++ c :: b) = a :: splitGo [c] 0 b := by
  induction a with
  | nil => simp [splitGo, List.isPrefixOf]
  | cons x xs ih =>
    have hx : c ≠ x := fun e => h (by simp [e])
    have hxs : c ∉ xs := fun e => h (List.mem_cons_of_mem _ e)
    simp [splitGo, List.isPrefixOf, hx, ih hxs]

theorem Split_single_two (c : Char) (a b : Str) (ha : c ∉ a) (hb : c ∉ b) :
    Split (a ++ c :: b) [c] = [a, b] := by
  simp [Split, splitGo_single_append c a b ha, splitGo_single_not_mem c b hb]

/-! ## The version query -/

theorem Version_not_two (x : Exec) (out : Str) (hx : x.Output versionCmd = (out, none))
    (h : (Split out " ".toList).length ≠ 2) : Version x = ([], none) := by
  unfold Version
  rw [hx]
  dsimp only
  rw [if_neg (by simp), if_pos h]
  rfl
/-! ## `strconv.Atoi` -/

theorem digitVal_of_isDigit {c : Char} (h : isDigit c = true) :
    digitVal c = some (c.toNat - 48) := by
  simp [digitVal, h]

theorem digitVal_eq_some {c : Char} {d : Nat} (h : digitVal c = some d) :
    isDigit c = true ∧ d = c.toNat - 48 := by
  unfold digitVal at h
  split at h
  · rename_i hc
    simp only [Option.some.injEq] at h
    exact ⟨hc, h.symm⟩
  · cases h

theorem digitVal_eq_none {c : Char} (h : digitVal c = none) : isDigit c = false := by
  unfold digitVal at h
  split at h
  · cases h
  · rename_i hc
    simpa using hc

/-- The number read after `n`. -/
theorem foldl_digits_ge (cs : Str) (n : Nat) :
    n ≤ cs.foldl (fun a c => a * 10 + (c.toNat - 48)) n := by
  induction cs generalizing n with
  | nil => exact Nat.le_refl _
  | cons c cs ih =>
    simp only [List.foldl_cons]
    exact Nat.le_trans (by omega) (ih _)

theorem parseUintGo_ok_iff (cs : Str) (n v : Nat) (hn : n ≤ maxUint64) :
    parseUintGo n cs = (v, none) ↔
      (∀ c ∈ cs, isDigit c = true) ∧ v = cs.foldl (fun a c => a * 10 + (c.toNat - 48)) n ∧
        v ≤ maxUint64 := by
  induction cs generalizing n with
  | nil =>
    simp only [parseUintGo, Prod.mk.injEq, and_true, List.not_mem_nil, false_imp_iff,
      implies_true, true_and, List.foldl_nil]
    constructor
    · intro h; exact ⟨h.symm, h ▸ hn⟩
    · intro h; exact h.1.symm
  | cons c cs ih =>
    simp only [parseUintGo, List.foldl_cons, List.mem_cons, forall_eq_or_imp]
    cases hd : digitVal c with
    | none =>
      have := digitVal_eq_none hd
      simp [this]
    | some d =>
      obtain ⟨hc, rfl⟩ := digitVal_eq_some hd
      have hge := foldl_digits_ge cs (n * 10 + (c.toNat - 48))
      simp only [hc, true_and]
      by_cases h1 : n ≥ maxUint64 / 10 + 1
      · simp only [h1, if_true, Prod.mk.injEq, reduceCtorEq, and_false, false_iff]
        rintro ⟨_, rfl, hv⟩
        simp only [maxUint64] at h1 hv hge
        omega
      · simp only [h1, if_false]
        by_cases h2 : n * 10 + (c.toNat - 48) > maxUint64
        · simp only [h2, if_true, Prod.mk.injEq, reduceCtorEq, and_false, false_iff]
          rintro ⟨_, rfl, hv⟩
          omega
        · simp only [h2, if_false]
          exact ih _ (by omega)

theorem parseUintGo_range (cs : Str) (n : Nat) (h : (parseUintGo n cs).2 = some .ErrRange) :
    (parseUintGo n cs).1 = maxUint64 := by
  induction cs generalizing n with
  | nil => simp [parseUintGo] at h
  | cons c cs ih =>
    simp only [parseUintGo] at h ⊢
    cases hd : digitVal c with
    | none => simp [hd] at h
    | some d =>
      simp only [hd] at h ⊢
      split
      · rfl
      · split
        · rfl
        · rename_i h1 h2
          simp only [h1, h2, if_false] at h
          exact ih _ h
theorem ParseUint_ok_iff (s : Str) (v : Nat) :
    ParseUint s = (v, none) ↔
      s ≠ [] ∧ (∀ c ∈ s, isDigit c = true) ∧ v = digitsValue s ∧ v ≤ maxUint64 := by
  unfold ParseUint
  by_cases hs : s = []
  · simp [hs]
  · simp only [hs, if_false, ne_eq, not_false_eq_true, true_and]
    exact parseUintGo_ok_iff s 0 v (Nat.zero_le _)

theorem ParseUint_range (s : Str) (v : Nat) (h : ParseUint s = (v, some .ErrRange)) :
    v = maxUint64 := by
  unfold ParseUint at h
  by_cases hs : s = []
  · simp [hs] at h
  · simp only [hs, if_false] at h
    have := parseUintGo_range s 0 (by rw [h])
    rw [h] at this
    exact this

/-- What `ParseInt` does after the sign, given what `ParseUint` returned. -/
theorem ParseInt_cons (c : Char) (cs : Str) :
    ParseInt (c :: cs) =
      match ParseUint (if c == '+' || c == '-' then cs else c :: cs) with
      | (_, some .ErrSyntax) => (0, some .ErrSyntax)
      | (un, _) =>
        if !(c == '-') && decide (un ≥ 2 ^ 63) then (2 ^ 63 - 1, some .ErrRange)
        else if (c == '-') && decide (un > 2 ^ 63) then (-(2 ^ 63), some .ErrRange)
        else (if (c == '-') then -(un : Int) else (un : Int), none) := rfl

theorem ParseInt_ok_iff_uint (c : Char) (cs : Str) (n : Int) :
    ParseInt (c :: cs) = (n, none) ↔
      ∃ un, ParseUint (if c == '+' || c == '-' then cs else c :: cs) = (un, none) ∧
        ((c ≠ '-' ∧ un < 2 ^ 63 ∧ n = (un : Int)) ∨
         (c = '-' ∧ un ≤ 2 ^ 63 ∧ n = -(un : Int))) := by
  rw [ParseInt_cons]
  rcases hp : ParseUint (if c == '+' || c == '-' then cs else c :: cs) with ⟨un, _ | k⟩
  · dsimp only
    by_cases hc : c = '-'
    · subst hc
      simp only [beq_self_eq_true, Bool.not_true, Bool.false_and, Bool.false_eq_true, if_false,
        Bool.true_and, decide_eq_true_eq, if_true, Prod.mk.injEq, Option.some.injEq,
        ne_eq, not_true_eq_false, false_and, false_or, true_and, and_true, exists_eq_left']
      by_cases h2 : un > 2 ^ 63
      · simp only [h2, if_true, Prod.mk.injEq, reduceCtorEq, and_false, false_iff]
        rintro ⟨h3, _⟩
        omega
      · simp only [h2, if_false, Prod.mk.injEq, and_true]
        constructor
        · intro h; exact ⟨by omega, h.symm⟩
        · intro h; exact h.2.symm
    · have hb : (c == '-') = false := by simpa using hc
      simp only [hb, Bool.not_false, Bool.true_and, decide_eq_true_eq, Bool.false_and,
        Bool.false_eq_true, if_false, Prod.mk.injEq, Option.some.injEq, ne_eq, hc,
        not_false_eq_true, true_and, false_and, or_false, and_true, exists_eq_left']
      by_cases h2 : un ≥ 2 ^ 63
      · simp only [h2, if_true, Prod.mk.injEq, reduceCtorEq, and_false, false_iff]
        rintro ⟨h3, _⟩
        omega
      · simp only [h2, if_false, Prod.mk.injEq, and_true]
        constructor
        · intro h; exact ⟨by omega, h.symm⟩
        · intro h; exact h.2.symm
  · have hno : ¬ ∃ un1, (un, some k) = (un1, (none : Option NumErr)) ∧
        ((c ≠ '-' ∧ un1 < 2 ^ 63 ∧ n = (un1 : Int)) ∨
         (c = '-' ∧ un1 ≤ 2 ^ 63 ∧ n = -(un1 : Int))) := by
      rintro ⟨un1, h, _⟩
      cases h
    cases k with
    | ErrSyntax => simp
    | ErrRange =>
      have hmax := ParseUint_range _ un hp
      subst hmax
      simp only [iff_false_intro hno, iff_false]
      by_cases hc : c = '-'
      · subst hc
        simp [maxUint64]
      · have hb : (c == '-') = false := by simpa using hc
        simp [hb, maxUint64]
theorem isDigit_ne_sign {c : Char} (h : isDigit c = true) : c ≠ '+' ∧ c ≠ '-' := by
  constructor <;> (rintro rfl; revert h; decide)

theorem ParseInt_ok_iff (s : Str) (n : Int) :
    ParseInt s = (n, none) ↔ IsDecimalNumeral s n ∧ -(2 ^ 63) ≤ n ∧ n < 2 ^ 63 := by
  cases s with
  | nil =>
    constructor
    · intro h
      simp [ParseInt] at h
    · rintro ⟨⟨ds, hne, _, (⟨h | h, _⟩ | ⟨h, _⟩)⟩, _⟩
      · exact absurd h.symm hne
      · cases h
      · cases h
  | cons c cs =>
    rw [ParseInt_ok_iff_uint]
    constructor
    · rintro ⟨un, hu, hcase⟩
      obtain ⟨hne, hdig, hval, _⟩ := (ParseUint_ok_iff _ un).1 hu
      rcases hcase with ⟨hc, hlt, hn⟩ | ⟨hc, hle, hn⟩
      · by_cases hp : c = '+'
        · subst hp
          simp only [beq_self_eq_true, Bool.true_or, if_true] at hne hdig hval
          refine ⟨⟨cs, hne, hdig, Or.inl ⟨Or.inr rfl, by rw [hn, hval]⟩⟩, ?_, ?_⟩ <;> omega
        · have hb : (c == '+' || c == '-') = false := by simp [hp, hc]
          simp only [hb, Bool.false_eq_true, if_false] at hne hdig hval
          refine ⟨⟨c :: cs, hne, hdig, Or.inl ⟨Or.inl rfl, by rw [hn, hval]⟩⟩, ?_, ?_⟩ <;> omega
      · subst hc
        simp only [beq_self_eq_true, Bool.or_true, if_true] at hne hdig hval
        refine ⟨⟨cs, hne, hdig, Or.inr ⟨rfl, by rw [hn, hval]⟩⟩, ?_, ?_⟩ <;> omega
    · rintro ⟨⟨ds, hne, hdig, hcase⟩, hlo, hhi⟩
      rcases hcase with ⟨h | h, hn⟩ | ⟨h, hn⟩
      · have hc := isDigit_ne_sign (hdig c (by rw [← h]; exact List.mem_cons_self _ _))
        have hb : (c == '+' || c == '-') = false := by simp [hc.1, hc.2]
        refine ⟨digitsValue ds, ?_, Or.inl ⟨hc.2, by omega, hn⟩⟩
        simp only [hb, Bool.false_eq_true, if_false, h]
        exact (ParseUint_ok_iff _ _).2 ⟨hne, hdig, rfl, by simp only [maxUint64]; omega⟩
      · simp only [List.cons.injEq] at h
        obtain ⟨rfl, rfl⟩ := h
        refine ⟨digitsValue cs, ?_, Or.inl ⟨by decide, by omega, hn⟩⟩
        simp only [beq_self_eq_true, Bool.true_or, if_true]
        exact (ParseUint_ok_iff _ _).2 ⟨hne, hdig, rfl, by simp only [maxUint64]; omega⟩
      · simp only [List.cons.injEq] at h
        obtain ⟨rfl, rfl⟩ := h
        refine ⟨digitsValue cs, ?_, Or.inr ⟨rfl, by omega, hn⟩⟩
        simp only [beq_self_eq_true, Bool.or_true, if_true]
        exact (ParseUint_ok_iff _ _).2 ⟨hne, hdig, rfl, by simp only [maxUint64]; omega⟩

theorem Atoi_ok_iff (s : Str) (n : Int) :
    Atoi s = (n, none) ↔ IsDecimalNumeral s n ∧ -(2 ^ 63) ≤ n ∧ n < 2 ^ 63 := by
  rw [← ParseInt_ok_iff]
  unfold Atoi
  rcases ParseInt s with ⟨m, _ | k⟩ <;> simp

theorem Atoi_error (s : Str) (n : Int) (e : Error) (h : Atoi s = (n, some e)) :
    ∃ k, e = .NumError "Atoi".toList s k := by
  unfold Atoi at h
  rcases hp : ParseInt s with ⟨m, _ | k⟩
  · rw [hp] at h
    simp at h
  · rw [hp] at h
    simp only [Prod.mk.injEq, Option.some.injEq] at h
    exact ⟨k, h.2.symm⟩
/-! ## The decimal representation -/

theorem digitChar_isDigit (k : Nat) (h : k < 10) :
    isDigit (Nat.digitChar k) = true ∧ (Nat.digitChar k).toNat - 48 = k := by
  interval_cases k <;> decide

theorem toDigitsCore_spec (fuel n : Nat) (ds : Str) (h : n < fuel) :
    ∃ pre : Str, Nat.toDigitsCore 10 fuel n ds = pre ++ ds ∧ pre ≠ [] ∧
      (∀ c ∈ pre, isDigit c = true) ∧ digitsValue pre = n := by
  induction fuel generalizing n ds with
  | zero => omega
  | succ fuel ih =>
    have hd := digitChar_isDigit (n % 10) (Nat.mod_lt _ (by norm_num))
    simp only [Nat.toDigitsCore]
    by_cases h0 : n / 10 = 0
    · simp only [h0, if_true]
      refine ⟨[Nat.digitChar (n % 10)], rfl, by simp, by simpa using hd.1, ?_⟩
      simp only [digitsValue, List.foldl_cons, List.foldl_nil, hd.2]
      omega
    · simp only [h0, if_false]
      obtain ⟨pre, hpre, _, hdig, hval⟩ := ih (n / 10) (Nat.digitChar (n % 10) :: ds) (by omega)
      refine ⟨pre ++ [Nat.digitChar (n % 10)], by rw [hpre]; simp, by simp, ?_, ?_⟩
      · intro c hc
        rcases List.mem_append.1 hc with hc1 | hc1
        · exact hdig c hc1
        · simp only [List.mem_singleton] at hc1
          rw [hc1]
          exact hd.1
      · simp only [digitsValue] at hval ⊢
        simp only [List.foldl_append, List.foldl_cons, List.foldl_nil, hval, hd.2]
        omega

theorem toDigits_spec (n : Nat) :
    Nat.toDigits 10 n ≠ [] ∧ (∀ c ∈ Nat.toDigits 10 n, isDigit c = true) ∧
      digitsValue (Nat.toDigits 10 n) = n := by
  obtain ⟨pre, hpre, hne, hdig, hval⟩ := toDigitsCore_spec (n + 1) n [] (Nat.lt_succ_self n)
  unfold Nat.toDigits
  rw [hpre, List.append_nil]
  exact ⟨hne, hdig, hval⟩

theorem decimalRepr_numeral (n : Int) : IsDecimalNumeral (decimalRepr n) n := by
  cases n with
  | ofNat k =>
    obtain ⟨hne, hdig, hval⟩ := toDigits_spec k
    exact ⟨_, hne, hdig, Or.inl ⟨Or.inl rfl, by rw [hval]; rfl⟩⟩
  | negSucc k =>
    obtain ⟨hne, hdig, hval⟩ := toDigits_spec (k + 1)
    exact ⟨_, hne, hdig, Or.inr ⟨rfl, by rw [hval]; rfl⟩⟩

theorem isDigit_not_space {c : Char} (h : isDigit c = true) : IsSpace c = false := by
  simp only [isDigit, Bool.and_eq_true, decide_eq_true_eq] at h
  simp only [IsSpace]
  have h1 : c.toNat ≤ 0xFF := by omega
  simp only [h1, if_true]
  simp only [Bool.or_eq_false_iff, beq_eq_false_iff_ne, ne_eq]
  omega

theorem IsDecimalNumeral.no_space {s : Str} {n : Int} (h : IsDecimalNumeral s n) :
    ∀ c ∈ s, IsSpace c = false := by
  obtain ⟨ds, _, hdig, (⟨rfl | rfl, _⟩ | ⟨rfl, _⟩)⟩ := h
  · exact fun c hc => isDigit_not_space (hdig c hc)
  · intro c hc
    rcases List.mem_cons.1 hc with rfl | hc1
    · decide
    · exact isDigit_not_space (hdig c hc1)
  · intro c hc
    rcases List.mem_cons.1 hc with rfl | hc1
    · decide
    · exact isDigit_not_space (hdig c hc1)

theorem TrimSpace_no_space (s : Str) (h : ∀ c ∈ s, IsSpace c = false) : TrimSpace s = s := by
  unfold TrimSpace
  have h1 : s.dropWhile IsSpace = s := by
    cases s with
    | nil => rfl
    | cons c cs => simp [List.dropWhile, h c (List.mem_cons_self _ _)]
  rw [h1, List.rdropWhile_eq_self_iff]
  intro hl
  simp [h _ (List.getLast_mem hl)]

theorem TrimSpace_newline (s : Str) (h : ∀ c ∈ s, IsSpace c = false) :
    TrimSpace (s ++ ['\n']) = s := by
  have h0 := TrimSpace_no_space s h
  unfold TrimSpace at h0 ⊢
  cases s with
  | nil => decide
  | cons c cs =>
    have hc := h c (List.mem_cons_self _ _)
    simp only [List.cons_append, List.dropWhile, hc] at h0 ⊢
    have hcat : c :: cs.append ['\n'] = (c :: cs) ++ ['\n'] := rfl
    rw [hcat, List.rdropWhile_concat_pos _ _ _ (by decide)]
    exact h0
/-! ## Submission -/

theorem SBatch_exec_error (x : Exec) (script partition out : Str) (e : Error)
    (hx : x.CombinedOutput (sbatchCmd script partition) = (out, some e)) :
    SBatch x script partition = (0, some (.Wrapped e "failed to execute sbatch".toList)) := by
  unfold SBatch
  rw [hx]
  rfl

theorem SBatch_exec_ok (x : Exec) (script partition out : Str)
    (hx : x.CombinedOutput (sbatchCmd script partition) = (out, none)) :
    SBatch x script partition =
      match Atoi (TrimSpace out) with
      | (id, none) => (id, none)
      | (_, some e) => (0, some (.Wrapped e "could not parse job id".toList)) := by
  unfold SBatch
  rw [hx]
  dsimp only
  rw [if_neg (by simp)]
  rcases Atoi (TrimSpace out) with ⟨id, _ | e⟩
  · rfl
  · rfl
/-! ## Paths -/

theorem Split_single (s : Str) (c : Char) : Split s [c] = splitGo [c] 0 s := by
  simp [Split]

theorem splitGo_ne_nil (sep : Str) (k : Nat) (s : Str) : splitGo sep k s ≠ [] := by
  induction s generalizing k with
  | nil => simp [splitGo]
  | cons x xs ih =>
    cases k with
    | succ k => simpa [splitGo] using ih k
    | zero =>
      simp only [splitGo]
      split
      · simp
      · split <;> simp

theorem splitGo_single_cons_sep (c : Char) (b : Str) :
    splitGo [c] 0 (c :: b) = [] :: splitGo [c] 0 b := by
  simp [splitGo, List.isPrefixOf]

theorem splitGo_single_append_split (c : Char) (a b : Str) :
    splitGo [c] 0 (a ++ c :: b) = splitGo [c] 0 a ++ splitGo [c] 0 b := by
  induction a with
  | nil => simp [splitGo, List.isPrefixOf]
  | cons x xs ih =>
    by_cases hx : c = x
    · subst hx
      rw [List.cons_append, splitGo_single_cons_sep, splitGo_single_cons_sep, ih]
      rfl
    · have hne := splitGo_ne_nil [c] 0 xs
      rcases hs : splitGo [c] 0 xs with _ | ⟨p, ps⟩
      · exact absurd hs hne
      · rw [hs] at ih
        simp [splitGo, List.isPrefixOf, hx, hs, ih]

theorem splitGo_single_no_sep (c : Char) (s : Str) : ∀ p ∈ splitGo [c] 0 s, c ∉ p := by
  induction s with
  | nil => simp [splitGo]
  | cons x xs ih =>
    by_cases hx : c = x
    · subst hx
      rw [splitGo_single_cons_sep]
      intro p hp
      rcases List.mem_cons.1 hp with rfl | hp1
      · simp
      · exact ih p hp1
    · have hne := splitGo_ne_nil [c] 0 xs
      rcases hs : splitGo [c] 0 xs with _ | ⟨q, qs⟩
      · exact absurd hs hne
      · rw [hs] at ih
        simp only [splitGo, List.isPrefixOf, hs]
        simp only [show (c == x) = false by simpa using hx, Bool.false_and, Bool.false_eq_true,
          if_false]
        intro p hp
        rcases List.mem_cons.1 hp with rfl | hp1
        · intro hmem
          rcases List.mem_cons.1 hmem with h1 | h1
          · exact hx h1
          · exact ih q (List.mem_cons_self _ _) h1
        · exact ih p (List.mem_cons_of_mem _ hp1)

theorem splitGo_Join (comps : List Str) (h : ∀ e ∈ comps, Separator ∉ e) (hne : comps ≠ []) :
    splitGo [Separator] 0 (Join comps [Separator]) = comps := by
  induction comps with
  | nil => exact absurd rfl hne
  | cons a rest ih =>
    cases rest with
    | nil =>
      simp only [Join]
      exact splitGo_single_not_mem _ a (h a (List.mem_cons_self _ _))
    | cons b rest =>
      simp only [Join, List.append_assoc, List.singleton_append]
      rw [splitGo_single_append _ a _ (h a (List.mem_cons_self _ _)),
        ih (fun e he => h e (List.mem_cons_of_mem _ he)) (by simp)]

theorem cleanStep_elem (rooted : Bool) (st : List Str) (e : Str) (he : IsElem e) :
    cleanStep rooted st e = e :: st := by
  obtain ⟨h1, h2, h3, _⟩ := he
  simp [cleanStep, h1, h2, h3]

theorem foldl_cleanStep_elems (rooted : Bool) (comps st : List Str)
    (h : ∀ e ∈ comps, IsElem e) :
    comps.foldl (cleanStep rooted) st = comps.reverse ++ st := by
  induction comps generalizing st with
  | nil => rfl
  | cons e es ih =>
    rw [List.foldl_cons, cleanStep_elem rooted st e (h e (List.mem_cons_self _ _)),
      ih _ (fun x hx => h x (List.mem_cons_of_mem _ hx))]
    simp

theorem cleanStep_rooted_elems (st : List Str) (p : Str) (hst : ∀ e ∈ st, IsElem e)
    (hp : Separator ∉ p) : ∀ e ∈ cleanStep true st p, IsElem e := by
  unfold cleanStep
  by_cases h1 : p = [] ∨ p = dot
  · rw [if_pos h1]; exact hst
  · rw [if_neg h1]
    by_cases h2 : p = dotdot
    · rw [if_pos h2]
      cases st with
      | nil => simp
      | cons top rest =>
        have ht := (hst top (List.mem_cons_self _ _)).2.2.1
        simp only [ht, if_false]
        exact fun e he => hst e (List.mem_cons_of_mem _ he)
    · rw [if_neg h2]
      intro e he
      rcases List.mem_cons.1 he with rfl | he1
      · exact ⟨fun h => h1 (Or.inl h), fun h => h1 (Or.inr h), h2, hp⟩
      · exact hst e he1

theorem foldl_cleanStep_rooted_elems (ps st : List Str) (hst : ∀ e ∈ st, IsElem e)
    (hps : ∀ p ∈ ps, Separator ∉ p) : ∀ e ∈ ps.foldl (cleanStep true) st, IsElem e := by
  induction ps generalizing st with
  | nil => exact hst
  | cons p ps ih =>
    rw [List.foldl_cons]
    exact ih _ (cleanStep_rooted_elems st p hst (hps p (List.mem_cons_self _ _)))
      (fun q hq => hps q (List.mem_cons_of_mem _ hq))
theorem Clean_rooted (p : Str) :
    Clean (Separator :: p) = Separator :: Join (rootedElems (Separator :: p)) [Separator] := by
  simp [Clean, rootedElems]

theorem rootedElems_elems (path : Str) : ∀ e ∈ rootedElems path, IsElem e := by
  intro e he
  unfold rootedElems at he
  rw [List.mem_reverse, Split_single] at he
  exact foldl_cleanStep_rooted_elems _ [] (by simp) (splitGo_single_no_sep _ _) e he

theorem foldl_cleanStep_Join (comps : List Str) (h : ∀ e ∈ comps, IsElem e) :
    (Split (Separator :: Join comps [Separator]) [Separator]).foldl (cleanStep true) [] =
      comps.reverse := by
  rw [Split_single, splitGo_single_cons_sep, List.foldl_cons]
  have h0 : cleanStep true [] [] = [] := by simp [cleanStep]
  rw [h0]
  cases comps with
  | nil => simp [Join, splitGo, cleanStep]
  | cons a rest =>
    rw [splitGo_Join _ (fun e he => (h e he).2.2.2) (by simp), foldl_cleanStep_elems _ _ _ h]
    simp

theorem rootedElems_Clean (p : Str) :
    (Split (Clean (Separator :: p)) [Separator]).foldl (cleanStep true) [] =
      (Split (Separator :: p) [Separator]).foldl (cleanStep true) [] := by
  rw [Clean_rooted, foldl_cleanStep_Join _ (rootedElems_elems _)]
  simp [rootedElems]

/-- Cleaning a rooted path twice is cleaning it once. -/
theorem Clean_Clean_rooted (p : Str) : Clean (Clean (Separator :: p)) = Clean (Separator :: p) := by
  have h := rootedElems_Clean p
  rw [Clean_rooted p] at h ⊢
  rw [Clean_rooted, rootedElems, h]
  rfl

theorem foldl_cleanStep_append (X n : Str) :
    (Split (X ++ Separator :: n) [Separator]).foldl (cleanStep true) [] =
      (Split n [Separator]).foldl (cleanStep true)
        ((Split X [Separator]).foldl (cleanStep true) []) := by
  simp only [Split_single, splitGo_single_append_split, List.foldl_append]

theorem Clean_rooted_head (p : Str) : ∃ q, Clean (Separator :: p) = Separator :: q :=
  ⟨_, Clean_rooted p⟩

/-- Joining an element to a rooted path, or to the cleaned path, is the same. -/
theorem Clean_append_rooted (p n : Str) :
    Clean (Clean (Separator :: p) ++ Separator :: n) =
      Clean ((Separator :: p) ++ Separator :: n) := by
  have h := rootedElems_Clean p
  obtain ⟨q, hq⟩ := Clean_rooted_head p
  rw [hq] at h ⊢
  rw [List.cons_append, Clean_rooted, List.cons_append, Clean_rooted]
  unfold rootedElems
  rw [← List.cons_append, ← List.cons_append, foldl_cleanStep_append, foldl_cleanStep_append, h]

theorem filepathJoin_rooted (p n : Str) :
    filepathJoin [Separator :: p, n] = Clean ((Separator :: p) ++ Separator :: n) := by
  simp [filepathJoin, Join]

theorem filepathJoin_Clean (p n : Str) :
    filepathJoin [Clean (Separator :: p), n] = filepathJoin [Separator :: p, n] := by
  obtain ⟨q, hq⟩ := Clean_rooted_head p
  rw [filepathJoin_rooted, ← Clean_append_rooted, hq, filepathJoin_rooted, ← hq]
/-! ## Extraction -/

theorem IsAbs_iff (d : Str) : IsAbs d = true ↔ ∃ p, d = Separator :: p := by
  cases d with
  | nil =>
    constructor
    · intro h
      exact absurd h (by decide)
    · rintro ⟨p, hp⟩
      cases hp
  | cons c cs =>
    constructor
    · intro h
      have hc : Separator = c := by
        by_contra hne
        have hb : (Separator == c) = false := by simpa using hne
        simp [IsAbs, HasPrefix, List.isPrefixOf, hb] at h
      exact ⟨cs, by rw [hc]⟩
    · rintro ⟨p, hp⟩
      simp only [List.cons.injEq] at hp
      rw [hp.1]
      simp [IsAbs, HasPrefix, List.isPrefixOf]

theorem unzipFile_Clean {σ : Type} (os : OS σ) (f : ZipFile) (p : Str) (s : σ) :
    unzipFile os f (Clean (Separator :: p)) s = unzipFile os f (Separator :: p) s := by
  unfold unzipFile
  rw [filepathJoin_Clean, Clean_Clean_rooted]

theorem unzipLoop_Clean {σ : Type} (os : OS σ) (p : Str) (files : List ZipFile) (s : σ) :
    unzipLoop os (Clean (Separator :: p)) files s = unzipLoop os (Separator :: p) files s := by
  induction files generalizing s with
  | nil => rfl
  | cons f fs ih =>
    simp only [unzipLoop, unzipFile_Clean]
    rcases unzipFile os f (Separator :: p) s with ⟨s1, _ | e⟩
    · exact ih s1
    · rfl

theorem unzip_abs {σ : Type} (os : OS σ) (source d : Str) (s : σ) (files : List ZipFile)
    (hd : IsAbs d = true) (hr : os.OpenReader source s = (files, none)) :
    unzip os source d s = unzipLoop os d files s := by
  obtain ⟨p, rfl⟩ := (IsAbs_iff d).1 hd
  unfold unzip
  rw [hr]
  simp only [Abs, hd, if_true]
  exact unzipLoop_Clean os p files s

theorem unzipFile_invalid {σ : Type} (os : OS σ) (f : ZipFile) (d : Str) (s : σ)
    (h : HasPrefix (filepathJoin [d, f.Name]) (Clean d ++ [Separator]) = false) :
    unzipFile os f d s =
      (s, some (.New ("invalid file path: ".toList ++ filepathJoin [d, f.Name]))) := by
  unfold unzipFile
  simp only [h, Bool.not_false, if_true]

theorem unzipLoop_append {σ : Type} (os : OS σ) (d : Str) (pre rest : List ZipFile)
    (s s1 : σ) (h : unzipLoop os d pre s = (s1, none)) :
    unzipLoop os d (pre ++ rest) s = unzipLoop os d rest s1 := by
  induction pre generalizing s with
  | nil =>
    simp only [unzipLoop, Prod.mk.injEq, and_true] at h
    rw [List.nil_append, h]
  | cons f fs ih =>
    simp only [List.cons_append, unzipLoop] at h ⊢
    rcases hf : unzipFile os f d s with ⟨s2, _ | e⟩
    · rw [hf] at h
      exact ih s2 h
    · rw [hf] at h
      simp at h

theorem unzipLoop_fails {σ : Type} (os : OS σ) (d : Str) (f : ZipFile)
    (hf : ∀ s, (unzipFile os f d s).2 ≠ none) (files : List ZipFile) (hmem : f ∈ files)
    (s : σ) : (unzipLoop os d files s).2 ≠ none := by
  induction files generalizing s with
  | nil => cases hmem
  | cons g gs ih =>
    simp only [unzipLoop]
    rcases hg : unzipFile os g d s with ⟨s2, _ | e⟩
    · rcases List.mem_cons.1 hmem with rfl | h1
      · exact absurd (by rw [hg]) (hf s)
      · exact ih h1 s2
    · simp

/-- The cases of Go's own table for `Clean` that bear on rooted paths, on `.`
and on `..`. -/
theorem Clean_examples :
    Clean "".toList = ".".toList ∧ Clean "/".toList = "/".toList ∧
    Clean "abc/".toList = "abc".toList ∧ Clean "//abc//".toList = "/abc".toList ∧
    Clean "abc//def//ghi".toList = "abc/def/ghi".toList ∧
    Clean "/./abc/def".toList = "/abc/def".toList ∧
    Clean "abc/def/../ghi/../jkl".toList = "abc/jkl".toList ∧
    Clean "abc/def/../..".toList = ".".toList ∧
    Clean "/abc/def/../../..".toList = "/".toList ∧
    Clean "abc/def/../../../ghi/jkl/../../../mno".toList = "../../mno".toList ∧
    Clean "/../abc".toList = "/abc".toList ∧
    Clean "abc/../../././../def".toList = "../../def".toList ∧
    filepathJoin ["/tmp/out".toList, "../../etc/passwd".toList] = "/etc/passwd".toList ∧
    Dir "/tmp/out/a/b.txt".toList = "/tmp/out/a".toList := by
  decide
/-! ## Construction of the client, and the submission command -/

theorem NewClient_missing (LookPath : Str → Str × Option Error) :
    requiredBinaries.foldl
        (fun missing bin => if (LookPath bin).2 ≠ none then missing ++ [bin] else missing) []
      = requiredBinaries.filter (fun bin => decide ((LookPath bin).2 ≠ none)) := by
  simp only [requiredBinaries, List.foldl_cons, List.foldl_nil, List.filter]
  by_cases h1 : (LookPath sacctBinaryName).2 = none <;>
  by_cases h2 : (LookPath sbatchBinaryName).2 = none <;>
  by_cases h3 : (LookPath scancelBinaryName).2 = none <;>
  by_cases h4 : (LookPath scontrolBinaryName).2 = none <;>
  by_cases h5 : (LookPath sinfoBinaryName).2 = none <;>
  simp [h1, h2, h3, h4, h5]

theorem sbatchCmd_args (script partition : Str) (h : partition ≠ []) :
    (sbatchCmd script partition).args =
      ["--parsable".toList, "--partition=".toList ++ partition] := by
  simp [sbatchCmd, h]

theorem sbatchCmd_args_empty (script : Str) :
    (sbatchCmd script []).args = ["--parsable".toList, []] := by
  simp [sbatchCmd]

/-! ## Blank responses -/

theorem TrimSpace_blank (s : Str) (h : ∀ c ∈ s, IsSpace c = true) : TrimSpace s = [] := by
  unfold TrimSpace
  have h1 : s.dropWhile IsSpace = [] := by
    rw [List.dropWhile_eq_nil_iff]
    exact h
  rw [h1]
  rfl

theorem fillLoop_absent (P : Parsers) (m : SlurmFields) (fs : List Field) (ji : JobInfo)
    (h : ∀ f ∈ fs, m f.tag = none) : fillLoop P m fs ji = some (ji, none) := by
  induction fs with
  | nil => rfl
  | cons f fs ih =>
    simp only [fillLoop, fillField_absent P m ji f (h f (List.mem_cons_self _ _))]
    exact ih (fun g hg => h g (List.mem_cons_of_mem _ hg))

theorem jobInfoLoop_ne_nil {P : Parsers} {blocks : List Str} {infos : List JobInfo}
    (h : jobInfoLoop P blocks = some (infos, none)) (hb : blocks ≠ []) : infos ≠ [] := by
  have hf := (jobInfoLoop_ok_iff P blocks infos).1 h
  intro hi
  subst hi
  cases hf
  exact hb rfl
/-! ## The upload loop -/

theorem uploadLoop_chunks (Send : List CreateFileRequest → CreateFileRequest → Option Error)
    (hsend : ∀ sent m, Send sent m = none) (pre : List (Bytes × Option Error)) (last : Bytes)
    (hpre : ∀ r ∈ pre, r.2 = none) (sent : List CreateFileRequest) :
    uploadLoop Send (pre ++ [(last, some Error.EOF)]) sent =
      some ⟨sent ++ List.map (fun c => ({ Content := c } : CreateFileRequest))
        (((pre.map (fun r => r.1)) ++ [last]).filter (fun c => decide (0 < c.length))),
        none⟩ := by
  induction pre generalizing sent with
  | nil =>
    by_cases hn : 0 < last.length
    · simp [uploadLoop, hsend, hn]
    · simp [uploadLoop, hn]
  | cons r rest ih =>
    obtain ⟨data, err⟩ := r
    have herr : err = none := hpre (data, err) (List.mem_cons_self _ _)
    subst herr
    have ih1 := fun s => ih (fun r hr => hpre r (List.mem_cons_of_mem _ hr)) s
    by_cases hn : 0 < data.length
    · simp [uploadLoop, hsend, hn, ih1]
    · simp [uploadLoop, hn, ih1]

theorem join_filter_nonempty (cs : List Bytes) :
    (cs.filter (fun c => decide (0 < c.length))).flatten = cs.flatten := by
  induction cs with
  | nil => rfl
  | cons c cs ih =>
    by_cases hn : 0 < c.length
    · simp [List.filter, hn, ih]
    · have hc : c = [] := by
        cases c with
        | nil => rfl
        | cons x xs => simp at hn
      simp [List.filter, hc, ih]
/-! ## Cleaning in general -/

theorem Clean_eq (p : Str) (h : p ≠ []) : Clean p = renderStack (isRooted p) (pathStack p) := by
  simp only [Clean, h, if_false, renderStack, isRooted, pathStack]

theorem ValidStack.nil (rooted : Bool) : ValidStack rooted [] :=
  ⟨0, [], rfl, fun _ => rfl, by simp⟩

theorem IsElem.ne_sep {e : Str} (h : IsElem e) : Separator ∉ e := h.2.2.2

theorem dotdot_no_sep : Separator ∉ dotdot := by decide

theorem cleanStep_valid (rooted : Bool) (st : List Str) (p : Str) (hst : ValidStack rooted st)
    (hp : Separator ∉ p) : ValidStack rooted (cleanStep rooted st p) := by
  obtain ⟨k, names, hrev, hk, hnames⟩ := hst
  unfold cleanStep
  by_cases h1 : p = [] ∨ p = dot
  · rw [if_pos h1]; exact ⟨k, names, hrev, hk, hnames⟩
  · rw [if_neg h1]
    by_cases h2 : p = dotdot
    · rw [if_pos h2]
      cases st with
      | nil =>
        cases rooted with
        | true => exact ValidStack.nil true
        | false => exact ⟨1, [], rfl, by simp, by simp⟩
      | cons top rest =>
        -- the top of the stack is the last element of `replicate k dotdot ++ names`
        rcases List.eq_nil_or_concat names with hn | ⟨names1, last, hn⟩
        · subst hn
          simp only [List.append_nil, List.reverse_cons] at hrev
          have htop : top = dotdot := by
            have : top ∈ List.replicate k dotdot := by rw [← hrev]; simp
            exact (List.mem_replicate.1 this).2
          subst htop
          simp only [if_true]
          cases rooted with
          | true =>
            have := hk rfl
            subst this
            simp at hrev
          | false =>
            refine ⟨k + 1, [], ?_, by simp, by simp⟩
            simp only [Bool.false_eq_true, if_false, List.reverse_cons, List.append_nil]
            rw [hrev, List.replicate_succ']
        · subst hn
          simp only [List.reverse_cons, List.concat_eq_append, ← List.append_assoc] at hrev
          have h3 := List.append_inj' hrev rfl
          obtain ⟨h4, h5⟩ := h3
          simp only [List.cons.injEq, and_true] at h5
          subst h5
          have hlast : IsElem top := hnames top (by simp)
          simp only [hlast.2.2.1, if_false]
          exact ⟨k, names1, h4, hk, fun e he => hnames e (by simp [he])⟩
    · rw [if_neg h2]
      refine ⟨k, names ++ [p], ?_, hk, ?_⟩
      · simp only [List.reverse_cons, hrev, List.append_assoc]
      · intro e he
        rcases List.mem_append.1 he with h | h
        · exact hnames e h
        · simp only [List.mem_singleton] at h
          subst h
          exact ⟨fun h => h1 (Or.inl h), fun h => h1 (Or.inr h), h2, hp⟩

theorem foldl_cleanStep_valid (rooted : Bool) (ps st : List Str) (hst : ValidStack rooted st)
    (hps : ∀ p ∈ ps, Separator ∉ p) : ValidStack rooted (ps.foldl (cleanStep rooted) st) := by
  induction ps generalizing st with
  | nil => exact hst
  | cons p ps ih =>
    rw [List.foldl_cons]
    exact ih _ (cleanStep_valid rooted st p hst (hps p (List.mem_cons_self _ _)))
      (fun q hq => hps q (List.mem_cons_of_mem _ hq))

theorem pathStack_valid (p : Str) : ValidStack (isRooted p) (pathStack p) := by
  unfold pathStack
  rw [Split_single]
  exact foldl_cleanStep_valid _ _ [] (ValidStack.nil _) (splitGo_single_no_sep _ _)
theorem Join_cons_eq (a : Str) (rest : List Str) (sep : Str) :
    ∃ tail, Join (a :: rest) sep = a ++ tail := by
  cases rest with
  | nil => exact ⟨[], by simp [Join]⟩
  | cons b rest => exact ⟨sep ++ Join (b :: rest) sep, by simp [Join]⟩

theorem foldl_cleanStep_dotdots (k : Nat) (j : Nat) :
    (List.replicate k dotdot).foldl (cleanStep false) (List.replicate j dotdot) =
      List.replicate (j + k) dotdot := by
  induction k generalizing j with
  | zero => rfl
  | succ k ih =>
    have hstep : cleanStep false (List.replicate j dotdot) dotdot =
        List.replicate (j + 1) dotdot := by
      cases j with
      | zero => decide
      | succ j =>
        simp only [List.replicate_succ, cleanStep]
        simp [dotdot, dot]
    rw [List.replicate_succ, List.foldl_cons, hstep, ih]
    congr 1
    omega

theorem renderStack_resplit (rooted : Bool) (st : List Str) (h : ValidStack rooted st) :
    renderStack rooted st ≠ [] ∧ isRooted (renderStack rooted st) = rooted ∧
      pathStack (renderStack rooted st) = st := by
  obtain ⟨k, names, hrev, hk, hnames⟩ := h
  cases rooted with
  | true =>
    have hk0 := hk rfl
    subst hk0
    simp only [List.replicate_zero, List.nil_append] at hrev
    have hr : renderStack true st = Separator :: Join names [Separator] := by
      simp [renderStack, hrev]
    rw [hr]
    refine ⟨by simp, by simp [isRooted], ?_⟩
    have hroot : isRooted (Separator :: Join names [Separator]) = true := by simp [isRooted]
    unfold pathStack
    rw [hroot, foldl_cleanStep_Join names hnames, ← hrev, List.reverse_reverse]
  | false =>
    by_cases hL : st.reverse = []
    · have hst : st = [] := by simpa using hL
      subst hst
      refine ⟨by decide, by decide, by decide⟩
    · obtain ⟨a, rest, hcons⟩ := List.exists_cons_of_ne_nil hL
      have hseg : ∀ e ∈ st.reverse, e ≠ [] ∧ Separator ∉ e := by
        intro e he
        rw [hrev] at he
        rcases List.mem_append.1 he with h1 | h1
        · rw [(List.mem_replicate.1 h1).2]
          exact ⟨by decide, dotdot_no_sep⟩
        · exact ⟨(hnames e h1).1, (hnames e h1).2.2.2⟩
      have ha := hseg a (by rw [hcons]; exact List.mem_cons_self _ _)
      obtain ⟨tail, htail⟩ := Join_cons_eq a rest [Separator]
      have hne : Join st.reverse [Separator] ≠ [] := by
        rw [hcons, htail]
        intro h0
        exact ha.1 (List.append_eq_nil.1 h0).1
      have hr : renderStack false st = Join st.reverse [Separator] := by
        simp [renderStack, hne]
      rw [hr]
      have hroot : isRooted (Join st.reverse [Separator]) = false := by
        rw [hcons, htail]
        cases a with
        | nil => exact absurd rfl ha.1
        | cons c cs =>
          have hc : c ≠ Separator := fun h0 => ha.2 (by rw [h0]; exact List.mem_cons_self _ _)
          simp only [isRooted, List.cons_append, List.head?_cons, beq_eq_false_iff_ne, ne_eq,
            Option.some.injEq]
          exact hc
      refine ⟨hne, hroot, ?_⟩
      unfold pathStack
      rw [hroot, Split_single, splitGo_Join _ (fun e he => (hseg e he).2) hL, hrev,
        List.foldl_append]
      have hd := foldl_cleanStep_dotdots k 0
      simp only [List.replicate_zero, Nat.zero_add] at hd
      rw [hd, foldl_cleanStep_elems false names _ hnames]
      have : st = (st.reverse).reverse := (List.reverse_reverse st).symm
      rw [this, hrev, List.reverse_append, List.reverse_replicate]

/-- Cleaning twice is cleaning once. -/
theorem Clean_Clean (p : Str) : Clean (Clean p) = Clean p := by
  by_cases hp : p = []
  · subst hp
    decide
  · rw [Clean_eq p hp]
    obtain ⟨h1, h2, h3⟩ := renderStack_resplit _ _ (pathStack_valid p)
    rw [Clean_eq _ h1, h2, h3]

theorem pathStack_append (p n : Str) (hp : p ≠ []) (hn : Separator ∉ n) :
    isRooted (p ++ Separator :: n) = isRooted p ∧
      pathStack (p ++ Separator :: n) = cleanStep (isRooted p) (pathStack p) n := by
  have hroot : isRooted (p ++ Separator :: n) = isRooted p := by
    cases p with
    | nil => exact absurd rfl hp
    | cons c cs => rfl
  refine ⟨hroot, ?_⟩
  unfold pathStack
  rw [hroot, Split_single, splitGo_single_append_split, List.foldl_append, ← Split_single,
    splitGo_single_not_mem _ n hn]
  rfl

theorem filepathJoin_two (p n : Str) (hp : p ≠ []) :
    filepathJoin [p, n] = Clean (p ++ Separator :: n) := by
  simp [filepathJoin, hp, Join]
/-! ## Relative paths -/

theorem Clean_eq_all (p : Str) : Clean p = renderStack (isRooted p) (pathStack p) := by
  by_cases h : p = []
  · subst h
    decide
  · exact Clean_eq p h

theorem Join_append (L M : List Str) (hL : L ≠ []) (hM : M ≠ []) :
    Join (L ++ M) [Separator] = Join L [Separator] ++ Separator :: Join M [Separator] := by
  induction L with
  | nil => exact absurd rfl hL
  | cons a rest ih =>
    cases rest with
    | nil =>
      cases M with
      | nil => exact absurd rfl hM
      | cons m ms => simp [Join]
    | cons b rest =>
      have h := ih (by simp)
      simp only [List.cons_append] at h ⊢
      simp only [Join]
      rw [h]
      simp

theorem length_le_Join (L : List Str) (h : ∀ e ∈ L, e ≠ []) :
    L.length ≤ (Join L [Separator]).length := by
  induction L with
  | nil => simp
  | cons a rest ih =>
    have ha : 0 < a.length := List.length_pos.2 (h a (List.mem_cons_self _ _))
    cases rest with
    | nil => simpa [Join] using ha
    | cons b rest =>
      have h2 := ih (fun e he => h e (List.mem_cons_of_mem _ he))
      simp only [Join, List.length_append, List.length_cons, List.length_nil] at h2 ⊢
      omega

theorem relLoop_nil (fuel : Nat) (t : Str) : relLoop fuel [] t = ([], t, none) := by
  cases fuel with
  | zero => rfl
  | succ n => simp [relLoop]

theorem takeWhile_sep (a Z : Str) (h : Separator ∉ a) :
    (a ++ Separator :: Z).takeWhile (fun c => c != Separator) = a ∧
      (a ++ Separator :: Z).dropWhile (fun c => c != Separator) = Separator :: Z := by
  induction a with
  | nil => simp
  | cons x xs ih =>
    have hx : x ≠ Separator := fun e => h (by simp [e])
    have hxs : Separator ∉ xs := fun e => h (List.mem_cons_of_mem _ e)
    obtain ⟨h1, h2⟩ := ih hxs
    have hb : (x != Separator) = true := by simpa using hx
    rw [List.cons_append, List.takeWhile_cons, List.dropWhile_cons]
    simp only [hb, if_true, h1, h2, and_self]

theorem takeWhile_no_sep (a : Str) (h : Separator ∉ a) :
    a.takeWhile (fun c => c != Separator) = a ∧
      a.dropWhile (fun c => c != Separator) = [] := by
  induction a with
  | nil => simp
  | cons x xs ih =>
    have hx : x ≠ Separator := fun e => h (by simp [e])
    have hxs : Separator ∉ xs := fun e => h (List.mem_cons_of_mem _ e)
    obtain ⟨h1, h2⟩ := ih hxs
    have hb : (x != Separator) = true := by simpa using hx
    rw [List.takeWhile_cons, List.dropWhile_cons]
    simp only [hb, if_true, h1, h2, and_self]

/-- The loop of `Rel` on a base that is a list of elements and a target that
continues it: the base is used up and the continuation is left. -/
theorem relLoop_Join (L : List Str) (hL : ∀ e ∈ L, e ≠ [] ∧ Separator ∉ e) (hne : L ≠ [])
    (Z : Str) (fuel : Nat) (hf : L.length ≤ fuel) :
    relLoop fuel (Join L [Separator]) (Join L [Separator] ++ Separator :: Z) = ([], Z, none) := by
  induction L generalizing fuel with
  | nil => exact absurd rfl hne
  | cons a rest ih =>
    have ha := hL a (List.mem_cons_self _ _)
    cases fuel with
    | zero => simp at hf
    | succ fuel =>
      cases rest with
      | nil =>
        have h1 := takeWhile_sep a Z ha.2
        have h2 := takeWhile_no_sep a ha.2
        simp only [Join]
        unfold relLoop
        rw [if_neg (by simp [ha.1])]
        simp only [h1.1, h1.2, h2.1, h2.2, ne_eq, not_true_eq_false, if_false, List.drop_nil,
          List.drop_succ_cons, List.drop_zero]
        exact relLoop_nil _ _
      | cons b rest =>
        have hrec := ih (fun e he => hL e (List.mem_cons_of_mem _ he)) (by simp) fuel
          (by simpa using hf)
        have hj : Join (a :: b :: rest) [Separator] =
            a ++ Separator :: Join (b :: rest) [Separator] := by simp [Join]
        rw [hj]
        have h1 := takeWhile_sep a (Join (b :: rest) [Separator]) ha.2
        have h3 := takeWhile_sep a (Join (b :: rest) [Separator] ++ Separator :: Z) ha.2
        have hassoc : (a ++ Separator :: Join (b :: rest) [Separator]) ++ Separator :: Z =
            a ++ Separator :: (Join (b :: rest) [Separator] ++ Separator :: Z) := by simp
        rw [hassoc]
        unfold relLoop
        rw [if_neg (by simp)]
        simp only [h1.1, h1.2, h3.1, h3.2, ne_eq, not_true_eq_false, if_false,
          List.drop_succ_cons, List.drop_zero]
        exact hrec

theorem ValidStack.seg {rooted : Bool} {st : List Str} (h : ValidStack rooted st) :
    ∀ e ∈ st, e ≠ [] ∧ e ≠ dot ∧ Separator ∉ e := by
  obtain ⟨k, names, hrev, _, hnames⟩ := h
  intro e he
  have he2 : e ∈ st.reverse := List.mem_reverse.2 he
  rw [hrev] at he2
  rcases List.mem_append.1 he2 with h1 | h1
  · rw [(List.mem_replicate.1 h1).2]
    exact ⟨by decide, by decide, dotdot_no_sep⟩
  · exact ⟨(hnames e h1).1, (hnames e h1).2.1, (hnames e h1).2.2.2⟩

theorem Join_ne_dot (L : List Str) (h : ∀ e ∈ L, e ≠ [] ∧ e ≠ dot ∧ Separator ∉ e) :
    Join L [Separator] ≠ dot := by
  cases L with
  | nil => simp [Join, dot]
  | cons a rest =>
    cases rest with
    | nil => simpa [Join] using (h a (List.mem_cons_self _ _)).2.1
    | cons b rest =>
      intro h0
      have hmem : Separator ∈ Join (a :: b :: rest) [Separator] := by simp [Join]
      rw [h0] at hmem
      exact absurd hmem (by decide)

theorem Join_ne_nil (L : List Str) (hne : L ≠ []) (h : ∀ e ∈ L, e ≠ []) :
    Join L [Separator] ≠ [] := by
  obtain ⟨a, rest, rfl⟩ := List.exists_cons_of_ne_nil hne
  obtain ⟨tail, htail⟩ := Join_cons_eq a rest [Separator]
  rw [htail]
  intro h0
  exact h a (List.mem_cons_self _ _) (List.append_eq_nil.1 h0).1

theorem Join_head (L : List Str) (h : ∀ e ∈ L, e ≠ [] ∧ Separator ∉ e) :
    ((Join L [Separator]).head? == some Separator) = false := by
  cases L with
  | nil => rfl
  | cons a rest =>
    obtain ⟨tail, htail⟩ := Join_cons_eq a rest [Separator]
    have ha := h a (List.mem_cons_self _ _)
    rw [htail]
    cases a with
    | nil => exact absurd rfl ha.1
    | cons c cs =>
      have hc : c ≠ Separator := fun h0 => ha.2 (by rw [h0]; exact List.mem_cons_self _ _)
      simpa using hc
theorem relLoop_rooted (L : List Str) (hL : ∀ e ∈ L, e ≠ [] ∧ Separator ∉ e) (Z : Str)
    (fuel : Nat) (hf : L.length + 1 ≤ fuel) :
    relLoop fuel (Separator :: Join L [Separator])
      (Separator :: (if L = [] then Z else Join L [Separator] ++ Separator :: Z)) =
      ([], Z, none) := by
  cases fuel with
  | zero => simp at hf
  | succ fuel =>
    unfold relLoop
    rw [if_neg (by simp)]
    have hs : ((Separator != Separator) = false) := by decide
    simp only [List.takeWhile_cons, List.dropWhile_cons, hs, Bool.false_eq_true, if_false,
      ne_eq, not_true_eq_false, List.drop_succ_cons, List.drop_zero]
    by_cases hn : L = []
    · subst hn
      simp only [Join, if_true]
      exact relLoop_nil _ _
    · rw [if_neg hn]
      exact relLoop_Join L hL hn Z fuel (by omega)

/-- The computation of `Rel` when the cleaned target continues the cleaned
base by the elements `M`: the result is these elements, joined. -/
theorem Rel_core (bp tp : Str) (rooted : Bool) (L M : List Str)
    (hL : ∀ e ∈ L, e ≠ [] ∧ e ≠ dot ∧ Separator ∉ e)
    (hM : ∀ e ∈ M, e ≠ [] ∧ e ≠ dot ∧ Separator ∉ e) (hMne : M ≠ [])
    (hb : Clean bp = renderStack rooted L.reverse)
    (ht : Clean tp = renderStack rooted (L ++ M).reverse) :
    Rel bp tp = (Join M [Separator], none) := by
  have hLM : ∀ e ∈ L ++ M, e ≠ [] ∧ e ≠ dot ∧ Separator ∉ e := by
    intro e he
    rcases List.mem_append.1 he with h | h
    · exact hL e h
    · exact hM e h
  have hJM : Join M [Separator] ≠ [] := Join_ne_nil M hMne (fun e he => (hM e he).1)
  have hJLM : Join (L ++ M) [Separator] ≠ [] :=
    Join_ne_nil _ (by simp [hMne]) (fun e he => (hLM e he).1)
  have hcat : Join (L ++ M) [Separator] =
      if L = [] then Join M [Separator]
      else Join L [Separator] ++ Separator :: Join M [Separator] := by
    by_cases hn : L = []
    · subst hn
      simp
    · rw [if_neg hn, Join_append L M hn hMne]
  have hdiff : Join (L ++ M) [Separator] ≠ Join L [Separator] := by
    rw [hcat]
    by_cases hn : L = []
    · subst hn
      simpa [Join] using hJM
    · rw [if_neg hn]
      intro h0
      have := congrArg List.length h0
      simp at this
  have hL2 : ∀ e ∈ L, e ≠ [] ∧ Separator ∉ e := fun e he => ⟨(hL e he).1, (hL e he).2.2⟩
  have hlen := length_le_Join L (fun e he => (hL e he).1)
  unfold Rel
  dsimp only
  rw [hb, ht]
  cases rooted with
  | true =>
    simp only [renderStack, if_true, List.reverse_reverse]
    rw [if_neg (by simpa using hdiff)]
    rw [if_neg (by simp [dot, Separator])]
    have hloop := relLoop_rooted L hL2 (Join M [Separator])
      ((Separator :: Join L [Separator]).length + 1) (by simp; omega)
    rw [← hcat] at hloop
    have hd : (if Separator :: Join L [Separator] = dot then []
        else Separator :: Join L [Separator]) = Separator :: Join L [Separator] :=
      if_neg (by simp [dot, Separator])
    rw [hd, hloop]
    simp
  | false =>
    simp only [renderStack, Bool.false_eq_true, if_false, List.reverse_reverse]
    rw [if_neg hJLM]
    have hbase : (if (if Join L [Separator] = [] then dot else Join L [Separator]) = dot then []
        else (if Join L [Separator] = [] then dot else Join L [Separator])) =
        Join L [Separator] := by
      by_cases h0 : Join L [Separator] = []
      · rw [if_pos h0, if_pos rfl, h0]
      · rw [if_neg h0, if_neg (Join_ne_dot L hL)]
    have hne : ¬ Join (L ++ M) [Separator] =
        (if Join L [Separator] = [] then dot else Join L [Separator]) := by
      by_cases h0 : Join L [Separator] = []
      · rw [if_pos h0]
        exact Join_ne_dot _ hLM
      · rw [if_neg h0]
        exact hdiff
    rw [if_neg hne, hbase]
    have hh1 := Join_head L hL2
    have hh2 := Join_head (L ++ M) (fun e he => ⟨(hLM e he).1, (hLM e he).2.2⟩)
    rw [hh1, hh2]
    simp only [bne_self_eq_false, Bool.false_eq_true, if_false]
    have hloop : relLoop ((Join L [Separator]).length + 1) (Join L [Separator])
        (Join (L ++ M) [Separator]) = ([], Join M [Separator], none) := by
      rw [hcat]
      by_cases hn : L = []
      · subst hn
        simp only [Join, if_true]
        exact relLoop_nil _ _
      · rw [if_neg hn]
        exact relLoop_Join L hL2 hn _ _ (by omega)
    rw [hloop]
    simp

/-- The path of an entry relative to the cleaned directory `d`, when the
elements of the path are those of `d` followed by the names `rel`. -/
theorem Rel_descend (d P : Str) (rel : List Str) (hrel : rel ≠ [])
    (helem : ∀ e ∈ rel, IsElem e) (hP : P ≠ []) (hroot : isRooted P = isRooted d)
    (hst : pathStack P = rel.reverse ++ pathStack d) :
    Rel (Clean d) P = (Join rel [Separator], none) := by
  have hv := (pathStack_valid d).seg
  apply Rel_core (Clean d) P (isRooted d) (pathStack d).reverse rel
  · intro e he
    exact hv e (List.mem_reverse.1 he)
  · intro e he
    exact ⟨(helem e he).1, (helem e he).2.1, (helem e he).2.2.2⟩
  · exact hrel
  · rw [Clean_Clean, Clean_eq_all, List.reverse_reverse]
  · rw [Clean_eq P hP, hroot, hst, List.reverse_append, List.reverse_reverse]
/-! ## The names of the headers -/

theorem getLast_sep (pre : Str) (h : pre.getLast? = some Separator) :
    ∃ q, pre = q ++ [Separator] := by
  rcases List.eq_nil_or_concat pre with h0 | ⟨q, c, h0⟩
  · subst h0
    simp at h
  · rw [List.concat_eq_append] at h0
    subst h0
    simp at h
    exact ⟨q, by rw [h]⟩

theorem rdropWhile_last (pre b : Str) (hpre : pre = [] ∨ pre.getLast? = some Separator)
    (hb : Separator ∉ b) :
    (pre ++ b).rdropWhile (fun c => c != Separator) = pre := by
  induction b using List.reverseRecOn with
  | nil =>
    rw [List.append_nil]
    rcases hpre with h | h
    · subst h
      rfl
    · obtain ⟨q, rfl⟩ := getLast_sep pre h
      exact List.rdropWhile_concat_neg _ _ _ (by simp)
  | append_singleton b x ih =>
    have hx : x ≠ Separator := fun e => hb (by simp [e])
    have hb2 : Separator ∉ b := fun e => hb (by simp [e])
    rw [← List.append_assoc, List.rdropWhile_concat_pos _ _ _ (by simpa using hx)]
    exact ih hb2

theorem Dir_append (pre b : Str) (hpre : pre = [] ∨ pre.getLast? = some Separator)
    (hb : Separator ∉ b) : Dir (pre ++ b) = Clean pre := by
  unfold Dir
  rw [rdropWhile_last pre b hpre hb]

theorem pathStack_single (b : Str) (hb : IsElem b) :
    isRooted b = false ∧ pathStack b = [b] := by
  have hroot : isRooted b = false := by
    obtain ⟨h1, _, _, h4⟩ := hb
    cases b with
    | nil => exact absurd rfl h1
    | cons c cs =>
      have hc : c ≠ Separator := fun h0 => h4 (by rw [h0]; exact List.mem_cons_self _ _)
      simpa [isRooted] using hc
  refine ⟨hroot, ?_⟩
  unfold pathStack
  rw [Split_single, splitGo_single_not_mem _ b hb.2.2.2, List.foldl_cons, List.foldl_nil,
    cleanStep_elem _ _ b hb]

theorem pathStack_snoc (q n : Str) (hn : Separator ∉ n) :
    isRooted (q ++ Separator :: n) = isRooted (q ++ [Separator]) ∧
      pathStack (q ++ Separator :: n) =
        cleanStep (isRooted (q ++ [Separator])) (pathStack (q ++ [Separator])) n := by
  have hroot : isRooted (q ++ Separator :: n) = isRooted (q ++ [Separator]) := by
    cases q with
    | nil => rfl
    | cons c cs => rfl
  refine ⟨hroot, ?_⟩
  unfold pathStack
  rw [hroot, Split_single, Split_single, splitGo_single_append_split,
    splitGo_single_append_split, List.foldl_append, List.foldl_append,
    splitGo_single_not_mem _ n hn]
  have h0 : splitGo [Separator] 0 [] = [[]] := rfl
  rw [h0]
  simp only [List.foldl_cons, List.foldl_nil]
  have h1 : ∀ st, cleanStep (isRooted (q ++ [Separator])) st [] = st := by
    intro st
    simp [cleanStep]
  rw [h1]

theorem pathStack_last (pre b : Str) (hpre : pre = [] ∨ pre.getLast? = some Separator)
    (hb : IsElem b) :
    pre ++ b ≠ [] ∧ isRooted (pre ++ b) = isRooted pre ∧
      pathStack (pre ++ b) = b :: pathStack pre := by
  have hne : pre ++ b ≠ [] := by
    intro h0
    exact hb.1 (List.append_eq_nil.1 h0).2
  refine ⟨hne, ?_⟩
  rcases hpre with h | h
  · subst h
    have := pathStack_single b hb
    rw [List.nil_append]
    exact ⟨this.1, this.2⟩
  · obtain ⟨q, rfl⟩ := getLast_sep pre h
    have hs := pathStack_snoc q b hb.2.2.2
    have hcat : q ++ [Separator] ++ b = q ++ Separator :: b := by simp
    rw [hcat, hs.1, hs.2, cleanStep_elem _ _ b hb]
    exact ⟨rfl, rfl⟩

theorem pathStack_child (P name : Str) (hP : P ≠ []) (hn : IsElem name) :
    filepathJoin [P, name] ≠ [] ∧ isRooted (filepathJoin [P, name]) = isRooted P ∧
      pathStack (filepathJoin [P, name]) = name :: pathStack P := by
  have ha := pathStack_append P name hP hn.2.2.2
  have hv := pathStack_valid (P ++ Separator :: name)
  have hne : P ++ Separator :: name ≠ [] := by simp
  rw [filepathJoin_two P name hP, Clean_eq _ hne]
  obtain ⟨h1, h2, h3⟩ := renderStack_resplit _ _ hv
  refine ⟨h1, ?_, ?_⟩
  · rw [h2, ha.1]
  · rw [h3, ha.2, cleanStep_elem _ _ name hn]

theorem Base_append (pre b : Str) (hpre : pre = [] ∨ pre.getLast? = some Separator)
    (hb : IsElem b) : Base (pre ++ b) = b := by
  have hne : pre ++ b ≠ [] := by
    intro h0
    exact hb.1 (List.append_eq_nil.1 h0).2
  obtain ⟨b0, x, rfl⟩ : ∃ b0 x, b = b0 ++ [x] := by
    rcases List.eq_nil_or_concat b with h0 | ⟨q, c, h0⟩
    · exact absurd h0 hb.1
    · exact ⟨q, c, by rw [h0, List.concat_eq_append]⟩
  have hx : x ≠ Separator := fun e => hb.2.2.2 (by simp [e])
  have hdrop : (pre ++ (b0 ++ [x])).rdropWhile (fun c => c == Separator) =
      pre ++ (b0 ++ [x]) := by
    rw [← List.append_assoc]
    exact List.rdropWhile_concat_neg _ _ _ (by simpa using hx)
  have htake : (pre ++ (b0 ++ [x])).rtakeWhile (fun c => c != Separator) = b0 ++ [x] := by
    unfold List.rtakeWhile
    rw [List.reverse_append]
    have hr : Separator ∉ (b0 ++ [x]).reverse := by
      rw [List.mem_reverse]
      exact hb.2.2.2
    rcases hpre with h | h
    · subst h
      rw [List.reverse_nil, List.append_nil, (takeWhile_no_sep _ hr).1, List.reverse_reverse]
    · obtain ⟨q, rfl⟩ := getLast_sep pre h
      have hq : (q ++ [Separator]).reverse = Separator :: q.reverse := by simp
      rw [hq, (takeWhile_sep _ _ hr).1, List.reverse_reverse]
  unfold Base
  rw [if_neg hne]
  dsimp only
  rw [hdrop, htake, if_neg (by simp)]
theorem entriesWellNamed_cons (name : Str) (node : Node) (rest : List (Str × Node)) :
    entriesWellNamed ((name, node) :: rest) = true ↔
      IsElem name ∧ node.wellNamed = true ∧ entriesWellNamed rest = true := by
  simp [entriesWellNamed]

theorem zipLoop_step (source : Str) (v : Visit) (vs : List Visit) (w : List ZipFile)
    (name : Str) (h : Rel (Dir source) v.path = (name, none)) :
    zipLoop source (v :: vs) w =
      zipLoop source vs
        (w ++ [⟨if v.isDir then name ++ [Separator] else name, v.isDir, v.perm, none, v.data,
          none⟩]) := by
  simp only [zipLoop, h]

mutual
theorem zipLoop_walkNode (source d : Str) (hd : Dir source = Clean d) :
    ∀ (node : Node) (P : Str) (rel : List Str), rel ≠ [] → (∀ e ∈ rel, IsElem e) → P ≠ [] →
      isRooted P = isRooted d → pathStack P = rel.reverse ++ pathStack d →
      node.wellNamed = true → ∀ (vs : List Visit) (w : List ZipFile),
        zipLoop source (walkNode P node ++ vs) w = zipLoop source vs (w ++ archiveOf rel node)
  | .file perm data, P, rel, hrel, helem, hP, hroot, hst, _, vs, w => by
    have hr := Rel_descend d P rel hrel helem hP hroot hst
    rw [← hd] at hr
    simp only [walkNode, List.cons_append, List.nil_append, archiveOf]
    rw [zipLoop_step source _ vs w _ hr]
    rfl
  | .dir perm entries, P, rel, hrel, helem, hP, hroot, hst, hwn, vs, w => by
    have hr := Rel_descend d P rel hrel helem hP hroot hst
    rw [← hd] at hr
    have hwn2 : entriesWellNamed entries = true := by simpa [Node.wellNamed] using hwn
    simp only [walkNode, List.cons_append, archiveOf]
    rw [zipLoop_step source _ _ w _ hr,
      zipLoop_walkEntries source d hd entries P rel hrel helem hP hroot hst hwn2]
    simp
theorem zipLoop_walkEntries (source d : Str) (hd : Dir source = Clean d) :
    ∀ (entries : List (Str × Node)) (P : Str) (rel : List Str), rel ≠ [] →
      (∀ e ∈ rel, IsElem e) → P ≠ [] →
      isRooted P = isRooted d → pathStack P = rel.reverse ++ pathStack d →
      entriesWellNamed entries = true → ∀ (vs : List Visit) (w : List ZipFile),
        zipLoop source (walkEntries P entries ++ vs) w =
          zipLoop source vs (w ++ archiveOfEntries rel entries)
  | [], P, rel, _, _, _, _, _, _, vs, w => by
    simp [walkEntries, archiveOfEntries]
  | (name, node) :: rest, P, rel, hrel, helem, hP, hroot, hst, hwn, vs, w => by
    obtain ⟨hn, hnode, hrest⟩ := (entriesWellNamed_cons name node rest).1 hwn
    obtain ⟨c1, c2, c3⟩ := pathStack_child P name hP hn
    have helem2 : ∀ e ∈ rel ++ [name], IsElem e := by
      intro e he
      rcases List.mem_append.1 he with h | h
      · exact helem e h
      · rw [List.mem_singleton.1 h]
        exact hn
    simp only [walkEntries, archiveOfEntries, List.append_assoc]
    rw [zipLoop_walkNode source d hd node (filepathJoin [P, name]) (rel ++ [name]) (by simp)
        helem2 c1 (c2.trans hroot) (by rw [c3, hst]; simp) hnode,
      zipLoop_walkEntries source d hd rest P rel hrel helem hP hroot hst hrest]
    simp
end

/-- The archive `zipFile` writes for a source whose last element is a name. -/
theorem zipFile_archiveOf (pre b : Str) (tree : Node)
    (hpre : pre = [] ∨ pre.getLast? = some Separator) (hb : IsElem b)
    (ht : tree.wellNamed = true) :
    zipFile (pre ++ b) tree = (archiveOf [b] tree, none) := by
  obtain ⟨h1, h2, h3⟩ := pathStack_last pre b hpre hb
  have h := zipLoop_walkNode (pre ++ b) pre (Dir_append pre b hpre hb.2.2.2) tree (pre ++ b) [b]
    (by simp) (by simpa using hb) h1 h2 (by simpa using h3) ht [] []
  unfold zipFile Walk
  rw [List.append_nil] at h
  rw [h]
  simp [zipLoop]
theorem Join_getLast (L : List Str) (hne : L ≠ []) (h : ∀ e ∈ L, e ≠ [] ∧ Separator ∉ e) :
    (Join L [Separator]).getLast? ≠ some Separator := by
  induction L with
  | nil => exact absurd rfl hne
  | cons a rest ih =>
    cases rest with
    | nil =>
      intro h0
      exact (h a (List.mem_cons_self _ _)).2 (List.mem_of_getLast?_eq_some h0)
    | cons b rest =>
      have h2 := ih (by simp) (fun e he => h e (List.mem_cons_of_mem _ he))
      have hn : Join (b :: rest) [Separator] ≠ [] :=
        Join_ne_nil _ (by simp) (fun e he => (h e (List.mem_cons_of_mem _ he)).1)
      simp only [Join]
      rw [List.getLast?_append_of_ne_nil _ hn]
      exact h2

theorem Join_base (b : Str) (r : List Str) :
    Join (b :: r) [Separator] = b ∨ ∃ t, Join (b :: r) [Separator] = b ++ Separator :: t := by
  cases r with
  | nil => exact Or.inl rfl
  | cons c r => exact Or.inr ⟨Join (c :: r) [Separator], by simp [Join]⟩

mutual
theorem archiveOf_names :
    ∀ (node : Node) (rel : List Str), node.wellNamed = true → ∀ f ∈ archiveOf rel node,
      ∃ r : List Str, (∀ e ∈ r, IsElem e) ∧
        f.Name = Join (rel ++ r) [Separator] ++ (if f.dirMode then [Separator] else [])
  | .file perm data, rel, _, f, hf => by
    simp only [archiveOf, List.mem_singleton] at hf
    subst hf
    exact ⟨[], by simp, by simp⟩
  | .dir perm entries, rel, hwn, f, hf => by
    have hwn2 : entriesWellNamed entries = true := by simpa [Node.wellNamed] using hwn
    simp only [archiveOf, List.mem_cons] at hf
    rcases hf with hf | hf
    · subst hf
      exact ⟨[], by simp, by simp⟩
    · exact archiveOfEntries_names entries rel hwn2 f hf
theorem archiveOfEntries_names :
    ∀ (entries : List (Str × Node)) (rel : List Str), entriesWellNamed entries = true →
      ∀ f ∈ archiveOfEntries rel entries,
      ∃ r : List Str, (∀ e ∈ r, IsElem e) ∧
        f.Name = Join (rel ++ r) [Separator] ++ (if f.dirMode then [Separator] else [])
  | [], rel, _, f, hf => by
    simp [archiveOfEntries] at hf
  | (name, node) :: rest, rel, hwn, f, hf => by
    obtain ⟨hn, hnode, hrest⟩ := (entriesWellNamed_cons name node rest).1 hwn
    simp only [archiveOfEntries, List.mem_append] at hf
    rcases hf with hf | hf
    · obtain ⟨r, hr, hname⟩ := archiveOf_names node (rel ++ [name]) hnode f hf
      refine ⟨name :: r, ?_, by simpa using hname⟩
      intro e he
      rcases List.mem_cons.1 he with h | h
      · rw [h]
        exact hn
      · exact hr e h
    · exact archiveOfEntries_names rest rel hrest f hf
end

theorem archiveOf_header (b : Str) (tree : Node) (hb : IsElem b) (ht : tree.wellNamed = true) :
    ∀ f ∈ archiveOf [b] tree,
      (f.Name = b ∨ HasPrefix f.Name (b ++ [Separator]) = true) ∧
        (f.Name.getLast? = some Separator ↔ f.dirMode = true) := by
  intro f hf
  obtain ⟨r, hr, hname⟩ := archiveOf_names tree [b] ht f hf
  have helem : ∀ e ∈ b :: r, e ≠ [] ∧ Separator ∉ e := by
    intro e he
    rcases List.mem_cons.1 he with h | h
    · rw [h]
      exact ⟨hb.1, hb.2.2.2⟩
    · exact ⟨(hr e h).1, (hr e h).2.2.2⟩
  have hlast := Join_getLast (b :: r) (by simp) helem
  rw [List.singleton_append] at hname
  constructor
  · rcases Join_base b r with h | ⟨t, h⟩
    · rw [h] at hname
      by_cases hd : f.dirMode = true
      · right
        rw [hname, if_pos hd]
        simp [HasPrefix]
      · left
        rw [hname, if_neg hd, List.append_nil]
    · right
      rw [hname, h]
      simp [HasPrefix]
  · by_cases hd : f.dirMode = true
    · rw [hname, if_pos hd]
      simp [hd]
    · rw [hname, if_neg hd, List.append_nil]
      constructor
      · intro h0
        exact absurd h0 hlast
      · intro h0
        exact absurd h0 hd
/-! ## Extraction of an archive that `zipFile` wrote -/

theorem Clean_Join (X : List Str) (hX : ∀ e ∈ X, IsElem e) :
    Clean (Separator :: Join X [Separator]) = Separator :: Join X [Separator] := by
  rw [Clean_rooted]
  unfold rootedElems
  rw [foldl_cleanStep_Join X hX, List.reverse_reverse]

theorem rootedElems_Join (X : List Str) (hX : ∀ e ∈ X, IsElem e) :
    rootedElems (Separator :: Join X [Separator]) = X := by
  unfold rootedElems
  rw [foldl_cleanStep_Join X hX, List.reverse_reverse]

theorem Clean_trailing (P : Str) (hP : P ≠ []) : Clean (P ++ [Separator]) = Clean P := by
  have h := pathStack_append P [] hP (by simp)
  have h0 : cleanStep (isRooted P) (pathStack P) [] = pathStack P := by simp [cleanStep]
  rw [Clean_eq _ (by simp), h.1, h.2, h0, ← Clean_eq P hP]

theorem mem_append_elems {E rel : List Str} (hE : ∀ e ∈ E, IsElem e)
    (hrel : ∀ e ∈ rel, IsElem e) : ∀ e ∈ E ++ rel, IsElem e := by
  intro e he
  rcases List.mem_append.1 he with h | h
  · exact hE e h
  · exact hrel e h

theorem filepathJoin_entry (E rel : List Str) (hE : ∀ e ∈ E, IsElem e) (hEne : E ≠ [])
    (hrel : ∀ e ∈ rel, IsElem e) (hne : rel ≠ []) :
    filepathJoin [Separator :: Join E [Separator], Join rel [Separator]] =
        Separator :: Join (E ++ rel) [Separator] ∧
      filepathJoin [Separator :: Join E [Separator], Join rel [Separator] ++ [Separator]] =
        Separator :: Join (E ++ rel) [Separator] := by
  have hcat : (Separator :: Join E [Separator]) ++ Separator :: Join rel [Separator] =
      Separator :: Join (E ++ rel) [Separator] := by
    rw [Join_append E rel hEne hne]
    rfl
  have hc := Clean_Join (E ++ rel) (mem_append_elems hE hrel)
  constructor
  · rw [filepathJoin_rooted, hcat, hc]
  · rw [filepathJoin_rooted]
    have h2 : (Separator :: Join E [Separator]) ++ Separator :: (Join rel [Separator] ++
        [Separator]) = (Separator :: Join (E ++ rel) [Separator]) ++ [Separator] := by
      rw [← hcat]
      simp
    rw [h2, Clean_trailing _ (by simp), hc]

theorem HasPrefix_entry (E rel : List Str) (hEne : E ≠ []) (hne : rel ≠ []) :
    HasPrefix (Separator :: Join (E ++ rel) [Separator])
      ((Separator :: Join E [Separator]) ++ [Separator]) = true := by
  rw [Join_append E rel hEne hne]
  simp [HasPrefix]

theorem resolve_Join (s : FS) (X : List Str) (hX : ∀ e ∈ X, IsElem e) :
    s.resolve (Separator :: Join X [Separator]) = X := by
  have habs : IsAbs (Separator :: Join X [Separator]) = true := by simp [IsAbs, HasPrefix]
  unfold FS.resolve
  rw [if_pos habs]
  exact rootedElems_Join X hX

theorem Dir_Join (X : List Str) (n : Str) (hX : ∀ e ∈ X, IsElem e) (hn : IsElem n) :
    Dir (Separator :: Join (X ++ [n]) [Separator]) = Separator :: Join X [Separator] := by
  by_cases h0 : X = []
  · subst h0
    have h1 : Separator :: Join ([] ++ [n]) [Separator] = [Separator] ++ n := by simp [Join]
    rw [h1, Dir_append [Separator] n (Or.inr rfl) hn.2.2.2]
    decide
  · have h1 : Separator :: Join (X ++ [n]) [Separator] =
        ((Separator :: Join X [Separator]) ++ [Separator]) ++ n := by
      rw [Join_append X [n] h0 (by simp)]
      simp [Join]
    rw [h1, Dir_append _ n (Or.inr (List.getLast?_concat _)) hn.2.2.2,
      Clean_trailing _ (by simp),
      Clean_Join X hX]

/-- Extracting the header of a directory makes the directory. -/
theorem unzipFile_dir_entry (s : FS) (E rel : List Str) (perm : Nat)
    (hE : ∀ e ∈ E, IsElem e) (hEne : E ≠ []) (hrel : ∀ e ∈ rel, IsElem e) (hne : rel ≠ []) :
    unzipFile FS.os ⟨Join rel [Separator] ++ [Separator], true, perm, none, [], none⟩
      (Separator :: Join E [Separator]) s = s.mkdir (E ++ rel) := by
  unfold unzipFile
  dsimp only
  rw [(filepathJoin_entry E rel hE hEne hrel hne).2, Clean_Join E hE,
    HasPrefix_entry E rel hEne hne]
  simp only [Bool.not_true, Bool.false_eq_true, if_false, ZipFile.IsDir, Bool.true_or, if_true]
  show s.mkdir (s.resolve _) = _
  rw [resolve_Join s _ (mem_append_elems hE hrel)]

/-- Extracting the header of a regular file makes the directory above it,
creates the file and writes the content. -/
theorem unzipFile_file_entry (s : FS) (E rel X : List Str) (n : Str) (perm : Nat) (data : Str)
    (hE : ∀ e ∈ E, IsElem e) (hEne : E ≠ []) (hrel : ∀ e ∈ rel, IsElem e) (hne : rel ≠ [])
    (hX : E ++ rel = X ++ [n]) :
    unzipFile FS.os ⟨Join rel [Separator], false, perm, none, data, none⟩
      (Separator :: Join E [Separator]) s =
      match s.mkdir X with
      | (s1, some err) => (s1, some err)
      | (s1, none) =>
        match s1.create (X ++ [n]) with
        | (s2, some err) => (s2, some err)
        | (s2, none) =>
          match s2.write (X ++ [n]) data with
          | (s3, some err) => (s3, some err)
          | (s3, none) => (s3, none) := by
  have hall := mem_append_elems hE hrel
  have hXn : ∀ e ∈ X ++ [n], IsElem e := by
    rw [← hX]
    exact hall
  have hXe : ∀ e ∈ X, IsElem e := fun e he => hXn e (List.mem_append_left _ he)
  have hn : IsElem n := hXn n (by simp)
  have hlast : (Join rel [Separator]).getLast? ≠ some Separator :=
    Join_getLast rel hne (fun e he => ⟨(hrel e he).1, (hrel e he).2.2.2⟩)
  have hdir : ZipFile.IsDir ⟨Join rel [Separator], false, perm, none, data, none⟩ = false := by
    simp only [ZipFile.IsDir, Bool.false_or, beq_eq_false_iff_ne, ne_eq]
    exact hlast
  unfold unzipFile
  dsimp only
  rw [(filepathJoin_entry E rel hE hEne hrel hne).1, Clean_Join E hE,
    HasPrefix_entry E rel hEne hne, hdir, hX, Dir_Join X n hXe hn]
  simp only [Bool.not_true, Bool.false_eq_true, if_false]
  simp only [FS.os, resolve_Join _ _ hXe, resolve_Join _ _ hXn]
  rcases s.mkdir X with ⟨s1, _ | e1⟩
  · dsimp only
    rcases s1.create (X ++ [n]) with ⟨s2, _ | e2⟩
    · dsimp only
      rcases s2.write (X ++ [n]) data with ⟨s3, _ | e3⟩ <;> rfl
    · rfl
  · rfl
theorem mkdir_ok (s : FS) (X : List Str)
    (h : ∀ p, p <+: X → Entry.isFile (s.entries p) = false) :
    s.mkdir X =
      (⟨fun q => if q.isPrefixOf X then some .dir else s.entries q, s.cwd, s.archives⟩, none) := by
  unfold FS.mkdir
  rw [if_neg]
  intro hany
  obtain ⟨p, hp, hfile⟩ := List.any_eq_true.1 hany
  rw [h p ((List.mem_inits p X).1 hp)] at hfile
  exact absurd hfile (by decide)

theorem create_ok (s : FS) (X : List Str) (n : Str) (h1 : s.entries X = some .dir)
    (h2 : s.entries (X ++ [n]) = none) :
    s.create (X ++ [n]) =
      (⟨fun q => if q = X ++ [n] then some (.file []) else s.entries q, s.cwd, s.archives⟩,
        none) := by
  unfold FS.create
  rw [if_neg (by simp [h2]), List.dropLast_concat, if_neg (by simp [h1])]

theorem write_ok (s : FS) (P : List Str) (data old : Str)
    (h : s.entries P = some (.file old)) :
    s.write P data =
      (⟨fun q => if q = P then some (.file (old ++ data)) else s.entries q, s.cwd, s.archives⟩,
        none) := by
  unfold FS.write
  rw [h]

theorem not_prefix_concat (X : List Str) (n : Str) (q : List Str) :
    ¬ (X ++ n :: q) <+: X := by
  intro h
  have := h.length_le
  simp at this

theorem isFile_dir {e : Option Entry} (h : e = some .dir) : Entry.isFile e = false := by
  rw [h]
  rfl

/-- What extracting the header of a regular file leaves, where no regular file
is in the way and nothing is at the path. -/
theorem unzipFile_file_ok (s : FS) (E rel X : List Str) (n : Str) (perm : Nat) (data : Str)
    (hE : ∀ e ∈ E, IsElem e) (hEne : E ≠ []) (hrel : ∀ e ∈ rel, IsElem e) (hne : rel ≠ [])
    (hX : E ++ rel = X ++ [n])
    (hpre1 : ∀ p, p <+: X → Entry.isFile (s.entries p) = false)
    (hpre2 : s.entries (X ++ [n]) = none) :
    ∃ s', unzipFile FS.os ⟨Join rel [Separator], false, perm, none, data, none⟩
        (Separator :: Join E [Separator]) s = (s', none) ∧
      ∀ x, s'.entries x =
        if x = X ++ [n] then some (.file data)
        else if x <+: X then some .dir else s.entries x := by
  rw [unzipFile_file_entry s E rel X n perm data hE hEne hrel hne hX, mkdir_ok s X hpre1]
  dsimp only
  have hnp : (X ++ [n]).isPrefixOf X = false := by
    rw [Bool.eq_false_iff]
    intro h0
    exact not_prefix_concat X n [] (List.isPrefixOf_iff_prefix.1 h0)
  have hself : X.isPrefixOf X = true := List.isPrefixOf_iff_prefix.2 (List.prefix_refl X)
  rw [create_ok _ X n (by simp only [hself, if_true])
    (by simp only [hnp, Bool.false_eq_true, if_false]; exact hpre2)]
  dsimp only
  rw [write_ok _ (X ++ [n]) data [] (by simp only [if_true])]
  refine ⟨_, rfl, ?_⟩
  intro x
  dsimp only
  by_cases hx : x = X ++ [n]
  · simp only [hx, if_true, List.nil_append]
  · simp only [hx, if_false, List.isPrefixOf_iff_prefix]

/-- What extracting the header of a directory leaves, where no regular file is
in the way. -/
theorem unzipFile_dir_ok (s : FS) (E rel : List Str) (perm : Nat)
    (hE : ∀ e ∈ E, IsElem e) (hEne : E ≠ []) (hrel : ∀ e ∈ rel, IsElem e) (hne : rel ≠ [])
    (hpre1 : ∀ p, p <+: E ++ rel → Entry.isFile (s.entries p) = false) :
    ∃ s', unzipFile FS.os ⟨Join rel [Separator] ++ [Separator], true, perm, none, [], none⟩
        (Separator :: Join E [Separator]) s = (s', none) ∧
      ∀ x, s'.entries x = if x <+: E ++ rel then some .dir else s.entries x := by
  rw [unzipFile_dir_entry s E rel perm hE hEne hrel hne, mkdir_ok s _ hpre1]
  refine ⟨_, rfl, ?_⟩
  intro x
  dsimp only
  simp only [List.isPrefixOf_iff_prefix]

theorem lookupEntries_not_mem (entries : List (Str × Node)) (m : Str) (q : List Str)
    (h : m ∉ entries.map Prod.fst) : lookupEntries entries m q = none := by
  induction entries with
  | nil => rfl
  | cons e rest ih =>
    obtain ⟨n, node⟩ := e
    rw [List.map_cons, List.mem_cons, not_or] at h
    have h1 : n ≠ m := fun e => h.1 e.symm
    simp only [lookupEntries, if_neg h1]
    exact ih h.2
theorem entriesDistinct_cons (name : Str) (node : Node) (rest : List (Str × Node)) :
    entriesDistinct ((name, node) :: rest) = true ↔
      name ∉ rest.map Prod.fst ∧ node.distinctNames = true ∧ entriesDistinct rest = true := by
  have hc : ((rest.map Prod.fst).contains name = false) ↔ name ∉ rest.map Prod.fst := by
    rw [← Bool.not_eq_true]
    exact not_congr List.elem_iff
  simp only [entriesDistinct, Bool.and_eq_true, Bool.not_eq_true', hc]

theorem prefix_concat_cases (X x : List Str) (n : Str) (h : ¬ (X ++ [n]) <+: x) :
    x <+: X ++ [n] ↔ x <+: X := by
  rw [List.prefix_concat_iff]
  constructor
  · rintro (h1 | h1)
    · exact absurd (h1 ▸ List.prefix_refl _) h
    · exact h1
  · exact Or.inr

theorem append_cons_name {X q q2 : List Str} {m m2 : Str} (h : X ++ m :: q = X ++ m2 :: q2) :
    m = m2 := by
  have := List.append_cancel_left h
  exact (List.cons.inj this).1

mutual
theorem extract_node (E : List Str) (hE : ∀ e ∈ E, IsElem e) (hEne : E ≠ []) :
    ∀ (node : Node) (rel X : List Str) (n : Str) (s : FS),
      (∀ e ∈ rel, IsElem e) → rel ≠ [] → E ++ rel = X ++ [n] →
      node.wellNamed = true → node.distinctNames = true →
      (∀ p, p <+: X → Entry.isFile (s.entries p) = false) →
      (∀ q, s.entries (X ++ n :: q) = none) →
      ∃ s', unzipLoop FS.os (Separator :: Join E [Separator]) (archiveOf rel node) s =
          (s', none) ∧
        (∀ q, s'.entries (X ++ n :: q) = node.lookup q) ∧
        (∀ x, ¬ (X ++ [n]) <+: x →
          s'.entries x = if x <+: X then some .dir else s.entries x)
  | .file perm data, rel, X, n, s, hrel, hne, hX, _, _, hpre1, hpre2 => by
    obtain ⟨s', hs', hent⟩ := unzipFile_file_ok s E rel X n perm data hE hEne hrel hne hX hpre1
      (hpre2 [])
    refine ⟨s', ?_, ?_, ?_⟩
    · simp only [archiveOf, unzipLoop, hs']
    · intro q
      rw [hent]
      cases q with
      | nil =>
        rw [if_pos rfl]
        simp only [Node.lookup]
      | cons m q =>
        have h1 : X ++ n :: m :: q ≠ X ++ [n] := by simp
        have h2 : ¬ (X ++ n :: m :: q) <+: X := not_prefix_concat X n (m :: q)
        rw [if_neg h1, if_neg h2, hpre2]
        simp only [Node.lookup]
    · intro x hx
      rw [hent]
      have h1 : x ≠ X ++ [n] := fun e => hx (e ▸ List.prefix_refl _)
      rw [if_neg h1]
  | .dir perm entries, rel, X, n, s, hrel, hne, hX, hwn, hdn, hpre1, hpre2 => by
    have hwn2 : entriesWellNamed entries = true := by simpa only [Node.wellNamed] using hwn
    have hdn2 : entriesDistinct entries = true := by simpa only [Node.distinctNames] using hdn
    have hfiles : ∀ p, p <+: E ++ rel → Entry.isFile (s.entries p) = false := by
      intro p hp
      rw [hX, List.prefix_concat_iff] at hp
      rcases hp with h | h
      · rw [h, hpre2 []]
        rfl
      · exact hpre1 p h
    obtain ⟨s1, hs1, hent1⟩ := unzipFile_dir_ok s E rel perm hE hEne hrel hne hfiles
    obtain ⟨s', hs', h1', h2'⟩ := extract_entries E hE hEne entries rel (X ++ [n]) s1 hrel hne hX
      hwn2 hdn2
      (by
        intro p hp
        rw [hent1, hX, if_pos hp])
      (by
        intro m _ q
        rw [hent1, hX, if_neg (not_prefix_concat _ m q), List.append_assoc]
        exact hpre2 (m :: q))
    refine ⟨s', ?_, ?_, ?_⟩
    · simp only [archiveOf, unzipLoop, hs1]
      exact hs'
    · intro q
      cases q with
      | nil =>
        have h0 := h2' (X ++ [n]) (by
          intro m _ q h
          have := congrArg List.length h
          simp at this)
        rw [h0, hent1, hX, if_pos (List.prefix_refl _)]
        simp only [Node.lookup]
      | cons m q =>
        have hcat : X ++ n :: m :: q = (X ++ [n]) ++ m :: q := by simp
        by_cases hm : m ∈ entries.map Prod.fst
        · rw [hcat, h1' m hm q]
          simp only [Node.lookup]
        · have h0 := h2' (X ++ n :: m :: q) (by
            intro m2 hm2 q2 h
            rw [hcat] at h
            exact hm (append_cons_name h ▸ hm2))
          rw [h0, hent1, hX, hcat, if_neg (not_prefix_concat _ m q), ← hcat, hpre2]
          simp only [Node.lookup]
          exact (lookupEntries_not_mem entries m q hm).symm
    · intro x hx
      have h0 := h2' x (by
        intro m _ q h
        exact hx (h ▸ List.prefix_append _ _))
      rw [h0, hent1, hX]
      by_cases hp : x <+: X
      · rw [if_pos hp, if_pos (hp.trans (List.prefix_append _ _))]
      · rw [if_neg hp, if_neg ((prefix_concat_cases X x n hx).not.2 hp)]
theorem extract_entries (E : List Str) (hE : ∀ e ∈ E, IsElem e) (hEne : E ≠ []) :
    ∀ (entries : List (Str × Node)) (rel X : List Str) (s : FS),
      (∀ e ∈ rel, IsElem e) → rel ≠ [] → E ++ rel = X →
      entriesWellNamed entries = true → entriesDistinct entries = true →
      (∀ p, p <+: X → s.entries p = some .dir) →
      (∀ m ∈ entries.map Prod.fst, ∀ q, s.entries (X ++ m :: q) = none) →
      ∃ s', unzipLoop FS.os (Separator :: Join E [Separator]) (archiveOfEntries rel entries) s =
          (s', none) ∧
        (∀ m ∈ entries.map Prod.fst, ∀ q,
          s'.entries (X ++ m :: q) = lookupEntries entries m q) ∧
        (∀ x, (∀ m ∈ entries.map Prod.fst, ∀ q, x ≠ X ++ m :: q) →
          s'.entries x = s.entries x)
  | [], rel, X, s, _, _, _, _, _, _, _ => by
    refine ⟨s, by simp only [archiveOfEntries, unzipLoop], ?_, fun x _ => rfl⟩
    intro m hm
    exact absurd hm (List.not_mem_nil m)
  | (m0, node) :: rest, rel, X, s, hrel, hne, hX, hwn, hdn, hpre1, hpre2 => by
    obtain ⟨hn0, hnode, hrest⟩ := (entriesWellNamed_cons m0 node rest).1 hwn
    obtain ⟨hm0, hdnode, hdrest⟩ := (entriesDistinct_cons m0 node rest).1 hdn
    have hrel2 : ∀ e ∈ rel ++ [m0], IsElem e := by
      intro e he
      rcases List.mem_append.1 he with h | h
      · exact hrel e h
      · rw [List.mem_singleton.1 h]
        exact hn0
    have hmem0 : m0 ∈ ((m0, node) :: rest).map Prod.fst := by
      rw [List.map_cons]
      exact List.mem_cons_self _ _
    have hmemr : ∀ m, m ∈ rest.map Prod.fst → m ∈ ((m0, node) :: rest).map Prod.fst := by
      intro m hm
      rw [List.map_cons]
      exact List.mem_cons_of_mem _ hm
    obtain ⟨s1, hs1, ha, hc⟩ := extract_node E hE hEne node (rel ++ [m0]) X m0 s hrel2
      (by simp) (by rw [← List.append_assoc, hX]) hnode hdnode
      (fun p hp => isFile_dir (hpre1 p hp)) (hpre2 m0 hmem0)
    obtain ⟨s', hs', h1', h2'⟩ := extract_entries E hE hEne rest rel X s1 hrel hne hX hrest
      hdrest
      (by
        intro p hp
        have hnp : ¬ (X ++ [m0]) <+: p := by
          intro h
          have := h.length_le.trans hp.length_le
          simp at this
        rw [hc p hnp, if_pos hp])
      (by
        intro m hm q
        have hnp : ¬ (X ++ [m0]) <+: (X ++ m :: q) := by
          rintro ⟨t, ht⟩
          rw [List.append_assoc] at ht
          have := append_cons_name ht
          exact hm0 (this ▸ hm)
        rw [hc _ hnp, if_neg (not_prefix_concat X m q)]
        exact hpre2 m (hmemr m hm) q)
    refine ⟨s', ?_, ?_, ?_⟩
    · simp only [archiveOfEntries]
      rw [unzipLoop_append _ _ _ _ _ _ hs1]
      exact hs'
    · intro m hm q
      by_cases hmm : m = m0
      · subst hmm
        have h0 := h2' (X ++ m :: q) (by
          intro m2 hm2 q2 h
          exact hm0 (append_cons_name h ▸ hm2))
        rw [h0, ha]
        simp only [lookupEntries, if_true]
      · have hm2 : m ∈ rest.map Prod.fst := by
          rw [List.map_cons, List.mem_cons] at hm
          rcases hm with h | h
          · exact absurd h hmm
          · exact h
        rw [h1' m hm2 q]
        simp only [lookupEntries, if_neg (Ne.symm hmm)]
    · intro x hx
      rw [h2' x (fun m hm q => hx m (hmemr m hm) q)]
      have hnx : ¬ (X ++ [m0]) <+: x := by
        rintro ⟨q, rfl⟩
        exact hx m0 hmem0 q (by simp)
      rw [hc x hnx]
      by_cases hp : x <+: X
      · rw [if_pos hp, hpre1 x hp]
      · rw [if_neg hp]
end
theorem Abs_resolve (s : FS) (D : Str) (hwd : IsAbs s.cwd = true) :
    Abs FS.os D s = (Separator :: Join (s.resolve D) [Separator], none) := by
  by_cases hD : IsAbs D = true
  · obtain ⟨p, rfl⟩ := (IsAbs_iff D).1 hD
    unfold Abs FS.resolve
    rw [if_pos hD, if_pos hD, Clean_rooted]
  · obtain ⟨c, hc⟩ := (IsAbs_iff s.cwd).1 hwd
    unfold Abs FS.resolve
    rw [if_neg hD, if_neg hD]
    simp only [FS.os]
    rw [hc, filepathJoin_rooted, List.cons_append, Clean_rooted]

theorem unzip_archive (s : FS) (archive D : Str) (files : List ZipFile)
    (hwd : IsAbs s.cwd = true) (harch : s.archives archive = some files) :
    unzip FS.os archive D s =
      unzipLoop FS.os (Separator :: Join (s.resolve D) [Separator]) files s := by
  unfold unzip
  rw [Abs_resolve s D hwd]
  simp only [FS.os, harch]


/-! ## The claim about extraction -/

/-- C1. Let `d` be an absolute destination and `f` an archive entry whose
joined path `filepath.Join(d, f.Name)` does not start with `Clean(d)` followed
by the separator. Then `unzipFile` returns the error "invalid file path: ..."
and leaves the file system as it found it (no directory is made and no file is
opened or written for the entry); `unzip`, reaching the entry after the
entries before it were extracted without error, returns that same error and
leaves the file system as those entries left it; and whatever the other
entries do, `unzip` of an archive that holds the entry returns an error. -/
theorem unzip_invalid_file_path {σ : Type} (os : OS σ) (d : Str) (f : ZipFile)
    (hd : IsAbs d = true)
    (hbad : HasPrefix (filepathJoin [d, f.Name]) (Clean d ++ [Separator]) = false) :
    (∀ s, unzipFile os f d s =
      (s, some (.New ("invalid file path: ".toList ++ filepathJoin [d, f.Name])))) ∧
    (∀ (source : Str) (s s1 : σ) (pre post : List ZipFile),
      os.OpenReader source s = (pre ++ f :: post, none) →
      unzipLoop os d pre s = (s1, none) →
      unzip os source d s =
        (s1, some (.New ("invalid file path: ".toList ++ filepathJoin [d, f.Name])))) ∧
    (∀ (source : Str) (s : σ) (files : List ZipFile),
      os.OpenReader source s = (files, none) → f ∈ files →
      (unzip os source d s).2 ≠ none) := by
  have h1 := fun s => unzipFile_invalid os f d s hbad
  refine ⟨h1, ?_, ?_⟩
  · intro source s s1 pre post hr hpre
    rw [unzip_abs os source d s _ hd hr, unzipLoop_append os d pre _ s s1 hpre]
    simp only [unzipLoop, h1]
  · intro source s files hr hmem
    rw [unzip_abs os source d s _ hd hr]
    exact unzipLoop_fails os d f (fun s => by rw [h1]; simp) files hmem s

set_option maxRecDepth 100000 in
/-- C1, at the destination `/tmp/out/` and an archive whose third entry is
named `../../etc/passwd`: the two entries before it are extracted, nothing is
done for the third entry or for the one after it. -/
theorem unzip_invalid_file_path_witness :
    unzip (OS.recording [{ Name := "t/".toList }, { Name := "t/a.txt".toList, data := "hi".toList },
        { Name := "../../etc/passwd".toList, data := "root".toList }, { Name := "t/b".toList }])
      "a.zip".toList "/tmp/out/".toList []
      = (["write /tmp/out/t/a.txt hi".toList, "create /tmp/out/t/a.txt".toList,
          "mkdir /tmp/out/t".toList, "mkdir /tmp/out/t".toList],
        some (.New "invalid file path: /etc/passwd".toList)) :=
  (unzip_invalid_file_path
    (OS.recording [{ Name := "t/".toList }, { Name := "t/a.txt".toList, data := "hi".toList },
        { Name := "../../etc/passwd".toList, data := "root".toList }, { Name := "t/b".toList }])
    "/tmp/out/".toList { Name := "../../etc/passwd".toList, data := "root".toList }
    (by decide) (by decide)).2.1 "a.zip".toList [] _
    [{ Name := "t/".toList }, { Name := "t/a.txt".toList, data := "hi".toList }]
    [{ Name := "t/b".toList }] rfl (by decide)

/-! ## The claims about the `scontrol` response parser -/
/-- C2. A response whose trimmed text splits on the blank line into exactly two
blocks, each holding the value `X` for `ArrayJobId` (what the parser reads for
that key from the block's tokens) and both with time and duration values that
parse, yields exactly two descriptors, in block order, each built from its own
block and each with `ArrayJobID = X`. In general, on success the descriptors
correspond one to one, in order, to the blocks of the trimmed response, the
i-th descriptor being what `fillFromSlurmFields` makes of the i-th block. -/
theorem jobInfoFromScontrolResponse_blocks (P : Parsers) :
    (∀ resp b0 b1 X : Str,
      Split (TrimSpace resp) "\n\n".toList = [b0, b1] →
      slurmFieldsOf b0 "ArrayJobId".toList = some X →
      slurmFieldsOf b1 "ArrayJobId".toList = some X →
      valuesParse P (slurmFieldsOf b0) = true →
      valuesParse P (slurmFieldsOf b1) = true →
      ∃ j0 j1, jobInfoFromScontrolResponse P resp = some ([j0, j1], none) ∧
        fillFromSlurmFields P (slurmFieldsOf b0) {} = some (j0, none) ∧
        fillFromSlurmFields P (slurmFieldsOf b1) {} = some (j1, none) ∧
        j0.ArrayJobID = X ∧ j1.ArrayJobID = X) ∧
    (∀ (resp : Str) (infos : List JobInfo),
      jobInfoFromScontrolResponse P resp = some (infos, none) →
      infos.length = (Split (TrimSpace resp) "\n\n".toList).length ∧
      List.Forall₂
        (fun raw ji => fillFromSlurmFields P (slurmFieldsOf raw) {} = some (ji, none))
        (Split (TrimSpace resp) "\n\n".toList) infos) := by
  constructor
  · intro resp b0 b1 X hs h0 h1 hp0 hp1
    obtain ⟨j0, hj0⟩ :=
      fillFromSlurmFields_ok_of P (slurmFieldsOf b0) {} ((valuesParse_iff P _).1 hp0)
    obtain ⟨j1, hj1⟩ :=
      fillFromSlurmFields_ok_of P (slurmFieldsOf b1) {} ((valuesParse_iff P _).1 hp1)
    refine ⟨j0, j1, ?_, hj0, hj1, ?_, ?_⟩
    · unfold jobInfoFromScontrolResponse
      rw [hs]
      simp only [jobInfoLoop, hj0, hj1]
    · rw [(fillFromSlurmFields_strings hj0).1.2.2.1, h0]
      rfl
    · rw [(fillFromSlurmFields_strings hj1).1.2.2.1, h1]
      rfl
  · intro resp infos h
    have hf := (jobInfoLoop_ok_iff P _ infos).1 h
    exact ⟨hf.length_eq.symm, hf⟩

set_option maxRecDepth 100000 in
/-- C2, at a response of two blocks of the array job 10. -/
theorem jobInfoFromScontrolResponse_blocks_witness :
    ∃ j0 j1,
      jobInfoFromScontrolResponse sampleParsers
        ("JobId=11 ArrayJobId=10 ArrayTaskId=1 SubmitTime=2019-03-04T10:11:12 " ++
          "RunTime=00:01:00 TimeLimit=UNLIMITED WorkDir=/home/u\n\n" ++
          "JobId=12 ArrayJobId=10 ArrayTaskId=2 StartTime=2019-03-04T10:11:13\n").toList
        = some ([j0, j1], none) ∧
      fillFromSlurmFields sampleParsers (slurmFieldsOf
        ("JobId=11 ArrayJobId=10 ArrayTaskId=1 SubmitTime=2019-03-04T10:11:12 " ++
          "RunTime=00:01:00 TimeLimit=UNLIMITED WorkDir=/home/u").toList) {}
        = some (j0, none) ∧
      fillFromSlurmFields sampleParsers (slurmFieldsOf
        "JobId=12 ArrayJobId=10 ArrayTaskId=2 StartTime=2019-03-04T10:11:13".toList) {}
        = some (j1, none) ∧
      j0.ArrayJobID = "10".toList ∧ j1.ArrayJobID = "10".toList :=
  (jobInfoFromScontrolResponse_blocks sampleParsers).1 _ _ _ _
    (by decide) (by decide) (by decide) (by decide) (by decide)

/-- C3 as stated fails: with a `SubmitTime` value that `parseTime` rejects, the
call returns at that field, and `WorkDir`, whose key is present in the mapping,
is left empty. -/
theorem fillFromSlurmFields_string_fields_counterexample :
    slurmFieldsOf "JobId=7 SubmitTime=Unknown WorkDir=/home/u".toList "WorkDir".toList
      = some "/home/u".toList ∧
    (fillFromSlurmFields sampleParsers
      (slurmFieldsOf "JobId=7 SubmitTime=Unknown WorkDir=/home/u".toList) {}).map
        (fun r => (r.1.ID, r.1.WorkDir, r.2.isSome))
      = some ("7".toList, [], true) := by
  decide

/-- C3, amended. For every key/value mapping `m`, `fillFromSlurmFields` applied
to an empty `JobInfo` returns, and sets `ID`, `UserID`, `ArrayJobID`, `Name`,
`ExitCode` and `State` each to the value of its own table key when the key is
present, leaving it empty when the key is missing; when no error is returned
the same holds of `WorkDir`, `StdOut`, `StdErr`, `Partition`, `NodeList`,
`BatchHost` and `NumNodes`; when an error is returned these seven fields are
left empty. No string field is read from another key. -/
theorem fillFromSlurmFields_string_fields (P : Parsers) (m : SlurmFields) :
    ∃ j e, fillFromSlurmFields P m {} = some (j, e) ∧
      (j.ID = (m "JobId".toList).getD [] ∧ j.UserID = (m "UserId".toList).getD [] ∧
        j.ArrayJobID = (m "ArrayJobId".toList).getD [] ∧
        j.Name = (m "JobName".toList).getD [] ∧
        j.ExitCode = (m "ExitCode".toList).getD [] ∧
        j.State = (m "JobState".toList).getD []) ∧
      (e = none →
        j.WorkDir = (m "WorkDir".toList).getD [] ∧
        j.StdOut = (m "StdOut".toList).getD [] ∧
        j.StdErr = (m "StdErr".toList).getD [] ∧
        j.Partition = (m "Partition".toList).getD [] ∧
        j.NodeList = (m "NodeList".toList).getD [] ∧
        j.BatchHost = (m "BatchHost".toList).getD [] ∧
        j.NumNodes = (m "NumNodes".toList).getD []) ∧
      (e ≠ none →
        j.WorkDir = [] ∧ j.StdOut = [] ∧ j.StdErr = [] ∧ j.Partition = [] ∧
        j.NodeList = [] ∧ j.BatchHost = [] ∧ j.NumNodes = []) := by
  obtain ⟨j, e, h⟩ := fillFromSlurmFields_returns P m {}
  exact ⟨j, e, h, fillFromSlurmFields_strings h⟩

/-- C4. When the mapping holds, for `RunTime` or `TimeLimit`, a value that
`ParseDuration` reports as `ErrDurationIsUnlimited`, `fillFromSlurmFields`
does exactly what it does on the mapping without that key (the same descriptor
and the same error outcome), it leaves the duration field of that key as it
found it (`nil` in the empty descriptor), and it returns no error unless the
value of another key is rejected. -/
theorem fillFromSlurmFields_unlimited (P : Parsers) (m : SlurmFields) (ji : JobInfo)
    (key v : Str) (hk : key = runTime ∨ key = timeLimit) (hm : m key = some v)
    (hu : (P.ParseDuration v).2 = some Error.ErrDurationIsUnlimited) :
    fillFromSlurmFields P m ji = fillFromSlurmFields P (m.erase key) ji ∧
    ∃ j e, fillFromSlurmFields P m ji = some (j, e) ∧
      (key = runTime → j.RunTime = ji.RunTime) ∧
      (key = timeLimit → j.TimeLimit = ji.TimeLimit) ∧
      ((∀ key1 v1 cause, key1 ≠ key → ¬ Rejected P m key1 v1 cause) → e = none) := by
  have heq := fillFromSlurmFields_erase_unlimited P m key v hk hm hu ji
  obtain ⟨j, e, hj⟩ := fillFromSlurmFields_returns P m ji
  have hj1 := hj
  rw [heq] at hj1
  refine ⟨heq, j, e, hj, ?_, ?_, ?_⟩
  · intro h
    have := fillFromSlurmFields_absent_field hj1 .RunTime
      (by simp [Field.tag, SlurmFields.erase, h, runTime])
    simpa [JobInfo.get] using this
  · intro h
    have := fillFromSlurmFields_absent_field hj1 .TimeLimit
      (by simp [Field.tag, SlurmFields.erase, h, timeLimit])
    simpa [JobInfo.get] using this
  · intro hno
    cases e with
    | none => rfl
    | some err =>
      obtain ⟨key1, v1, cause, hr, _⟩ := fillFromSlurmFields_error hj1
      obtain ⟨hne, hr1⟩ := hr.erase_of_ne
      exact absurd hr1 (hno key1 v1 cause hne)

set_option maxRecDepth 100000 in
/-- C4, at a block with `TimeLimit=UNLIMITED`. -/
theorem fillFromSlurmFields_unlimited_witness :
    fillFromSlurmFields sampleParsers
        (slurmFieldsOf "JobId=7 RunTime=00:02:05 TimeLimit=UNLIMITED WorkDir=/w".toList) {}
      = fillFromSlurmFields sampleParsers
        ((slurmFieldsOf "JobId=7 RunTime=00:02:05 TimeLimit=UNLIMITED WorkDir=/w".toList).erase
          timeLimit) {} ∧
    ∃ j e, fillFromSlurmFields sampleParsers
        (slurmFieldsOf "JobId=7 RunTime=00:02:05 TimeLimit=UNLIMITED WorkDir=/w".toList) {}
        = some (j, e) ∧
      (timeLimit = runTime → j.RunTime = ({} : JobInfo).RunTime) ∧
      (timeLimit = timeLimit → j.TimeLimit = ({} : JobInfo).TimeLimit) ∧
      ((∀ key1 v1 cause, key1 ≠ timeLimit →
          ¬ Rejected sampleParsers
            (slurmFieldsOf "JobId=7 RunTime=00:02:05 TimeLimit=UNLIMITED WorkDir=/w".toList)
            key1 v1 cause) → e = none) :=
  fillFromSlurmFields_unlimited sampleParsers _ {} timeLimit "UNLIMITED".toList
    (Or.inr rfl) (by decide) (by decide)

/-- C5. If a block of the response holds, for `SubmitTime` or `StartTime`, a
value that `parseTime` rejects, or, for `RunTime` or `TimeLimit`, a value on
which `ParseDuration` fails with an error other than `ErrDurationIsUnlimited`,
then `jobInfoFromScontrolResponse` returns no descriptor at all and an error;
that error is the wrapped error of a rejected value of some block, and its
message contains that value. -/
theorem jobInfoFromScontrolResponse_rejected (P : Parsers) (resp raw key v : Str)
    (cause : Error) (hraw : raw ∈ Split (TrimSpace resp) "\n\n".toList)
    (hrej : Rejected P (slurmFieldsOf raw) key v cause) :
    ∃ err, jobInfoFromScontrolResponse P resp = some ([], some err) ∧
      ∃ raw1 ∈ Split (TrimSpace resp) "\n\n".toList, ∃ key1 v1 cause1,
        Rejected P (slurmFieldsOf raw1) key1 v1 cause1 ∧
        err = parseError key1 v1 cause1 ∧
        ∀ quote, v1 <:+: err.Error quote := by
  obtain ⟨infos, e, h⟩ := jobInfoLoop_returns P (Split (TrimSpace resp) "\n\n".toList)
  cases e with
  | none =>
    exfalso
    have hf := (jobInfoLoop_ok_iff P _ infos).1 h
    obtain ⟨ji, _, hji⟩ := forall₂_exists_of_mem hf hraw
    exact fillFromSlurmFields_ok hji key v cause hrej
  | some err =>
    obtain ⟨rfl, raw1, hraw1, j, hj⟩ := jobInfoLoop_error h
    obtain ⟨key1, v1, cause1, hr1, he⟩ := fillFromSlurmFields_error hj
    refine ⟨err, h, raw1, hraw1, key1, v1, cause1, hr1, he, ?_⟩
    intro quote
    rw [he]
    exact parseError_message key1 v1 cause1 quote

set_option maxRecDepth 100000 in
/-- C5, at a response whose second block has `StartTime=Unknown`. -/
theorem jobInfoFromScontrolResponse_rejected_witness :
    ∃ err, jobInfoFromScontrolResponse sampleParsers
        "JobId=11 WorkDir=/a\n\nJobId=12 StartTime=Unknown WorkDir=/b".toList
        = some ([], some err) ∧
      ∃ raw1 ∈ Split (TrimSpace "JobId=11 WorkDir=/a\n\nJobId=12 StartTime=Unknown WorkDir=/b".toList)
          "\n\n".toList,
        ∃ key1 v1 cause1,
          Rejected sampleParsers (slurmFieldsOf raw1) key1 v1 cause1 ∧
          err = parseError key1 v1 cause1 ∧
          ∀ quote, v1 <:+: err.Error quote :=
  jobInfoFromScontrolResponse_rejected sampleParsers _
    "JobId=12 StartTime=Unknown WorkDir=/b".toList startTime "Unknown".toList
    (.Wrapped (.Foreign "cannot parse as 2006-01-02T15:04:05".toList)
      "could not parse time Unknown".toList)
    (by decide) ⟨by decide, Or.inl ⟨Or.inr rfl, by decide⟩⟩

/-- C6. A token of a block that does not split on `=` into exactly two parts
is passed over: the response gives the same result (the same descriptors and
the same error outcome, so no error on account of the token) as the response
in which that block has the token removed. The block with the token removed
is a block whose tokens are the other tokens, in the same order. -/
theorem jobInfoFromScontrolResponse_skips_token (P : Parsers) (resp resp1 : Str)
    (pre post : List Str) (raw raw1 : Str) (a b : List Str) (t : Str)
    (hresp : Split (TrimSpace resp) "\n\n".toList = pre ++ raw :: post)
    (hresp1 : Split (TrimSpace resp1) "\n\n".toList = pre ++ raw1 :: post)
    (hraw : Fields raw = a ++ t :: b) (hraw1 : Fields raw1 = a ++ b)
    (ht : (Split t "=".toList).length ≠ 2) :
    slurmFieldsOf raw = slurmFieldsOf raw1 ∧
    jobInfoFromScontrolResponse P resp = jobInfoFromScontrolResponse P resp1 := by
  have hm : slurmFieldsOf raw = slurmFieldsOf raw1 := by
    unfold slurmFieldsOf
    rw [hraw, hraw1, List.foldl_append, List.foldl_append, List.foldl_cons,
      slurmFieldsStep_skip _ t ht]
  refine ⟨hm, ?_⟩
  unfold jobInfoFromScontrolResponse
  rw [hresp, hresp1]
  exact jobInfoLoop_congr P pre post raw raw1 (fun f => by rw [hm])

set_option maxRecDepth 100000 in
/-- C6, at a block with the token `TRES=cpu=1,mem=1G`. -/
theorem jobInfoFromScontrolResponse_skips_token_witness :
    slurmFieldsOf "JobId=5 TRES=cpu=1,mem=1G JobName=x".toList
      = slurmFieldsOf "JobId=5 JobName=x".toList ∧
    jobInfoFromScontrolResponse sampleParsers
        "JobId=4\n\nJobId=5 TRES=cpu=1,mem=1G JobName=x\n\nJobId=6\n".toList
      = jobInfoFromScontrolResponse sampleParsers
        "JobId=4\n\nJobId=5 JobName=x\n\nJobId=6\n".toList :=
  jobInfoFromScontrolResponse_skips_token sampleParsers _ _
    ["JobId=4".toList] ["JobId=6".toList] _ _
    ["JobId=5".toList] ["JobName=x".toList] "TRES=cpu=1,mem=1G".toList
    (by decide) (by decide) (by decide) (by decide) (by decide)

/-- C7. A well-formed token `K=V` whose key is none of the seventeen keys of
the `JobInfo` field table, added anywhere among the tokens of a block, changes
nothing: the response gives the same descriptors and the same error outcome. -/
theorem jobInfoFromScontrolResponse_unknown_key (P : Parsers) (resp resp1 : Str)
    (pre post : List Str) (raw raw1 : Str) (a b : List Str) (t K V : Str)
    (hresp : Split (TrimSpace resp) "\n\n".toList = pre ++ raw :: post)
    (hresp1 : Split (TrimSpace resp1) "\n\n".toList = pre ++ raw1 :: post)
    (hraw : Fields raw = a ++ b) (hraw1 : Fields raw1 = a ++ t :: b)
    (ht : Split t "=".toList = [K, V]) (hK : ∀ f : Field, f.tag ≠ K) :
    jobInfoFromScontrolResponse P resp = jobInfoFromScontrolResponse P resp1 := by
  unfold jobInfoFromScontrolResponse
  rw [hresp, hresp1]
  refine jobInfoLoop_congr P pre post raw raw1 (fun f => ?_)
  unfold slurmFieldsOf
  rw [hraw, hraw1, List.foldl_append, List.foldl_append, List.foldl_cons]
  exact slurmFields_foldl_agree b _ _ _ (slurmFieldsStep_other _ t K V _ ht (hK f)).symm

set_option maxRecDepth 100000 in
/-- C7, at a block to which the token `Priority=4294901730` is added. -/
theorem jobInfoFromScontrolResponse_unknown_key_witness :
    jobInfoFromScontrolResponse sampleParsers
        "JobId=4\n\nJobId=5 JobName=x\n".toList
      = jobInfoFromScontrolResponse sampleParsers
        "JobId=4\n\nJobId=5 Priority=4294901730 JobName=x\n".toList :=
  jobInfoFromScontrolResponse_unknown_key sampleParsers _ _
    ["JobId=4".toList] [] "JobId=5 JobName=x".toList
    "JobId=5 Priority=4294901730 JobName=x".toList
    ["JobId=5".toList] ["JobName=x".toList] "Priority=4294901730".toList
    "Priority".toList "4294901730".toList
    (by decide) (by decide) (by decide) (by decide) (by decide)
    (fun f => by cases f <;> decide)

/-! ## The claims about `Version` and `SBatch` -/

/-- C8 fails on the code: when `sinfo -V` runs successfully and prints the
single token `slurm`, `Version` returns the empty string and a `nil` error.
The error wrapped at that point is the `nil` error of the successful run, and
wrapping `nil` gives `nil`. -/
theorem Version_one_token_no_error :
    Version (Exec.const "slurm".toList none) = ([], none) ∧
    (Split "slurm".toList " ".toList).length = 1 ∧
    Version (Exec.const "slurm 21.08.5 extra".toList none) = ([], none) := by
  decide

/-- C9. When `sinfo -V` runs successfully and its output is two fields
separated by one space (`a`, a space, `b`, with no space in `a` or in `b`),
`Version` returns the second field `b`, unchanged, and no error. -/
theorem Version_two_fields (x : Exec) (out a b : Str)
    (hx : x.Output versionCmd = (out, none)) (hout : out = a ++ ' ' :: b)
    (ha : ' ' ∉ a) (hb : ' ' ∉ b) : Version x = (b, none) := by
  have hs : Split out " ".toList = [a, b] := by
    rw [hout]
    exact Split_single_two ' ' a b ha hb
  unfold Version
  rw [hx]
  dsimp only
  rw [if_neg (by simp), hs]
  rfl

/-- C9, at the output `slurm 21.08.5`. -/
theorem Version_two_fields_witness :
    Version (Exec.const "slurm 21.08.5".toList none) = ("21.08.5".toList, none) :=
  Version_two_fields _ "slurm 21.08.5".toList "slurm".toList "21.08.5".toList
    rfl rfl (by decide) (by decide)

/-- C10 as stated fails in the direction from the result to the output: the
outputs `+7` and `007`, each followed by a newline, give the job id 7 with no
error, and `-0` gives the job id 0, though none of the three is the decimal
representation of the id returned. -/
theorem SBatch_job_id_counterexample :
    SBatch (Exec.const "+7\n".toList none) "#!/bin/sh".toList [] = (7, none) ∧
    TrimSpace "+7\n".toList ≠ decimalRepr 7 ∧
    SBatch (Exec.const "007\n".toList none) "#!/bin/sh".toList [] = (7, none) ∧
    TrimSpace "007\n".toList ≠ decimalRepr 7 ∧
    SBatch (Exec.const "-0\n".toList none) "#!/bin/sh".toList [] = (0, none) ∧
    TrimSpace "-0\n".toList ≠ decimalRepr 0 := by
  decide

/-- C10, amended. When `sbatch` fails (it cannot be run or exits with a status
other than zero), `SBatch` returns the id 0 and the error of the run, wrapped,
whatever the output. When it succeeds, `SBatch` returns the job id `n` and no
error exactly when the output, trimmed of white space, is a decimal numeral of
`n` (an optional sign, then one or more digits) and `n` is an `int64`; this is
so in particular when the trimmed output is the decimal representation of such
an `n`, and when the output is that representation followed by a newline. For
every other output it returns the id 0 and the error of `strconv.Atoi`
wrapped as "could not parse job id". -/
theorem SBatch_job_id (x : Exec) (script partition out : Str) (err : Option Error)
    (hx : x.CombinedOutput (sbatchCmd script partition) = (out, err)) :
    (∀ e, err = some e →
      SBatch x script partition = (0, some (.Wrapped e "failed to execute sbatch".toList))) ∧
    (err = none →
      (∀ n : Int, SBatch x script partition = (n, none) ↔
        IsDecimalNumeral (TrimSpace out) n ∧ -(2 ^ 63) ≤ n ∧ n < 2 ^ 63) ∧
      (∀ n : Int, -(2 ^ 63) ≤ n → n < 2 ^ 63 →
        (TrimSpace out = decimalRepr n ∨ out = decimalRepr n ++ ['\n']) →
        SBatch x script partition = (n, none)) ∧
      ((∀ n : Int, ¬ (IsDecimalNumeral (TrimSpace out) n ∧ -(2 ^ 63) ≤ n ∧ n < 2 ^ 63)) →
        ∃ k, SBatch x script partition =
          (0, some (.Wrapped (.NumError "Atoi".toList (TrimSpace out) k)
            "could not parse job id".toList)))) := by
  constructor
  · intro e he
    subst he
    exact SBatch_exec_error x script partition out e hx
  · intro he
    subst he
    have hs := SBatch_exec_ok x script partition out hx
    have hiff : ∀ n : Int, SBatch x script partition = (n, none) ↔
        IsDecimalNumeral (TrimSpace out) n ∧ -(2 ^ 63) ≤ n ∧ n < 2 ^ 63 := by
      intro n
      rw [← Atoi_ok_iff, hs]
      rcases Atoi (TrimSpace out) with ⟨id, _ | e⟩ <;> simp
    refine ⟨hiff, ?_, ?_⟩
    · intro n hlo hhi hout
      have hnum := decimalRepr_numeral n
      have htrim : TrimSpace out = decimalRepr n := by
        rcases hout with h | h
        · exact h
        · rw [h]
          exact TrimSpace_newline _ hnum.no_space
      rw [hiff, htrim]
      exact ⟨hnum, hlo, hhi⟩
    · intro hno
      rcases ha : Atoi (TrimSpace out) with ⟨id, _ | e⟩
      · exact absurd ((Atoi_ok_iff _ _).1 ha) (hno id)
      · obtain ⟨k, rfl⟩ := Atoi_error _ _ _ ha
        exact ⟨k, by rw [hs, ha]⟩

/-- C10, at the output `12345` followed by a newline. -/
theorem SBatch_job_id_witness :
    SBatch (Exec.const "12345\n".toList none) "#!/bin/sh".toList "debug".toList
      = (12345, none) :=
  ((SBatch_job_id (Exec.const "12345\n".toList none) "#!/bin/sh".toList "debug".toList
    "12345\n".toList none rfl).2 rfl).2.1 12345 (by decide) (by decide) (Or.inr (by decide))

/-! ## The claims about the submission command and the construction of the client -/

/-- C11 fails on the code for the empty partition: the argument list `SBatch`
passes to `sbatch` is then `--parsable` followed by an empty argument, not
`--parsable` alone; a tool that answers with the number of its arguments makes
`SBatch` return 2. (With a partition `p` that is not empty the list is
`--parsable`, `--partition=p`, as the claim says.) -/
theorem SBatch_empty_partition_argument :
    (sbatchCmd "#!/bin/sh\nhostname\n".toList []).args = ["--parsable".toList, []] ∧
    (sbatchCmd "#!/bin/sh\nhostname\n".toList []).args ≠ ["--parsable".toList] ∧
    SBatch ⟨fun _ => ([], none), fun cmd => (Nat.toDigits 10 cmd.args.length, none)⟩
      "#!/bin/sh\nhostname\n".toList [] = (2, none) ∧
    (sbatchCmd "#!/bin/sh\nhostname\n".toList "debug".toList).args
      = ["--parsable".toList, "--partition=debug".toList] := by
  decide

/-- C12. Whatever `exec.LookPath` answers, `NewClient` succeeds exactly when
it finds all five of `sacct`, `sbatch`, `scancel`, `scontrol` and `sinfo`.
Otherwise it returns no client and the error whose message is
"no slurm binaries found: " followed by the missing ones of these five names,
in that fixed order, joined by ", "; each of the five names occurs in the
message exactly when it is missing. -/
theorem NewClient_missing_binaries (LookPath : Str → Str × Option Error) :
    ((NewClient LookPath).2 = none ↔
      ((LookPath "sacct".toList).2 = none ∧ (LookPath "sbatch".toList).2 = none ∧
        (LookPath "scancel".toList).2 = none ∧ (LookPath "scontrol".toList).2 = none ∧
        (LookPath "sinfo".toList).2 = none)) ∧
    (((LookPath "sacct".toList).2 = none ∧ (LookPath "sbatch".toList).2 = none ∧
        (LookPath "scancel".toList).2 = none ∧ (LookPath "scontrol".toList).2 = none ∧
        (LookPath "sinfo".toList).2 = none) →
      NewClient LookPath = (some {}, none)) ∧
    ((¬ ((LookPath "sacct".toList).2 = none ∧ (LookPath "sbatch".toList).2 = none ∧
        (LookPath "scancel".toList).2 = none ∧ (LookPath "scontrol".toList).2 = none ∧
        (LookPath "sinfo".toList).2 = none)) →
      NewClient LookPath =
        (none, some (.New ("no slurm binaries found: ".toList ++
          Join (["sacct".toList, "sbatch".toList, "scancel".toList, "scontrol".toList,
            "sinfo".toList].filter (fun bin => decide ((LookPath bin).2 ≠ none)))
            ", ".toList))) ∧
      ∀ bin ∈ ["sacct".toList, "sbatch".toList, "scancel".toList, "scontrol".toList,
          "sinfo".toList],
        (bin <:+: "no slurm binaries found: ".toList ++
          Join (["sacct".toList, "sbatch".toList, "scancel".toList, "scontrol".toList,
            "sinfo".toList].filter (fun bin => decide ((LookPath bin).2 ≠ none)))
            ", ".toList) ↔ (LookPath bin).2 ≠ none) := by
  unfold NewClient
  rw [NewClient_missing]
  simp only [requiredBinaries, sacctBinaryName, sbatchBinaryName, scancelBinaryName,
    scontrolBinaryName, sinfoBinaryName, List.mem_cons, List.mem_singleton, forall_eq_or_imp,
    forall_eq, List.not_mem_nil, false_imp_iff, implies_true, and_true, List.filter]
  by_cases h1 : (LookPath "sacct".toList).2 = none <;>
  by_cases h2 : (LookPath "sbatch".toList).2 = none <;>
  by_cases h3 : (LookPath "scancel".toList).2 = none <;>
  by_cases h4 : (LookPath "scontrol".toList).2 = none <;>
  by_cases h5 : (LookPath "sinfo".toList).2 = none <;>
  simp only [h1, h2, h3, h4, h5, ne_eq, not_true_eq_false, not_false_eq_true, decide_True,
    decide_False, List.length_cons, List.length_nil, and_self, and_true, true_and, and_false,
    false_and, not_false_eq_true, true_implies, false_implies, if_true, if_false,
    iff_true, iff_false, true_iff, false_iff] <;>
  decide

/-- C12, where only `sbatch` and `scontrol` are found: no client, and the error
"no slurm binaries found: sacct, scancel, sinfo". -/
theorem NewClient_missing_binaries_witness :
    NewClient (fun bin =>
        if bin = "sbatch".toList ∨ bin = "scontrol".toList then ("/usr/bin/".toList ++ bin, none)
        else ([], some (.Foreign "executable file not found in $PATH".toList))) =
      (none, some (.New "no slurm binaries found: sacct, scancel, sinfo".toList)) :=
  ((NewClient_missing_binaries (fun bin =>
      if bin = "sbatch".toList ∨ bin = "scontrol".toList then ("/usr/bin/".toList ++ bin, none)
      else ([], some (.Foreign "executable file not found in $PATH".toList)))).2.2
    (by decide)).1.trans (by decide)

/-! ## The claim about blank responses -/

/-- C16. For an empty response, and for a response of white space only,
`jobInfoFromScontrolResponse` returns no error and a list of exactly one
descriptor, all of whose fields are empty or `nil`; and whenever it returns no
error, the list it returns is not empty. -/
theorem jobInfoFromScontrolResponse_blank (P : Parsers) :
    (∀ resp : Str, (∀ c ∈ resp, IsSpace c = true) →
      jobInfoFromScontrolResponse P resp = some ([{}], none)) ∧
    (∀ (resp : Str) (infos : List JobInfo),
      jobInfoFromScontrolResponse P resp = some (infos, none) → infos ≠ []) := by
  constructor
  · intro resp h
    unfold jobInfoFromScontrolResponse
    rw [TrimSpace_blank resp h]
    have hs : Split [] "\n\n".toList = [[]] := by decide
    have hf : fillFromSlurmFields P (slurmFieldsOf []) {} = some ({}, none) :=
      fillLoop_absent P _ Field.all {} (fun _ _ => rfl)
    rw [hs]
    simp only [jobInfoLoop, hf]
  · intro resp infos h
    refine jobInfoLoop_ne_nil h ?_
    have hsep : ("\n\n".toList = []) = False := by decide
    simp only [Split, hsep, if_false]
    exact splitGo_ne_nil _ _ _

/-- C16, at a response of a blank, a newline, a tab and a blank. -/
theorem jobInfoFromScontrolResponse_blank_witness :
    jobInfoFromScontrolResponse sampleParsers " \n\t ".toList = some ([{}], none) :=
  (jobInfoFromScontrolResponse_blank sampleParsers).1 " \n\t ".toList (by decide)

/-! ## The claim about the upload stream -/

/-- C15. In upload mode, when every `Send` succeeds and the reads of the
archive file return at most 128 bytes each, with `nil` errors before a last
read that returns `io.EOF` (with or without bytes), the messages sent on the
`CreateFile` stream are one creation message that carries only the destination
path, and then content messages whose chunks are each non-empty and at most
128 bytes long and, concatenated in sending order, are exactly the bytes the
reads returned, those returned together with `io.EOF` included. -/
theorem uploadStream_chunks
    (Send : List CreateFileRequest → CreateFileRequest → Option Error)
    (fromPath toPath : Str) (pre : List (Bytes × Option Error)) (last : Bytes)
    (hsend : ∀ sent m, Send sent m = none) (hpre : ∀ r ∈ pre, r.2 = none)
    (hlen : ∀ r ∈ pre, r.1.length ≤ 128) (hlast : last.length ≤ 128) :
    ∃ chunks : List Bytes,
      uploadStream Send fromPath toPath (pre ++ [(last, some Error.EOF)]) =
        some ⟨{ Path := pathJoin [toPath, Base fromPath ++ ".zip".toList] } ::
          chunks.map (fun c => ({ Content := c } : CreateFileRequest)), none⟩ ∧
      (∀ c ∈ chunks, 0 < c.length ∧ c.length ≤ 128) ∧
      chunks.flatten = (pre.map (fun r => r.1)).flatten ++ last := by
  refine ⟨((pre.map (fun r => r.1)) ++ [last]).filter (fun c => decide (0 < c.length)),
    ?_, ?_, ?_⟩
  · unfold uploadStream
    simp only [hsend]
    rw [uploadLoop_chunks Send hsend pre last hpre]
    rfl
  · intro c hc
    rw [List.mem_filter, List.mem_append] at hc
    obtain ⟨hmem, hpos⟩ := hc
    refine ⟨by simpa using hpos, ?_⟩
    rcases hmem with h | h
    · obtain ⟨r, hr, rfl⟩ := List.mem_map.1 h
      exact hlen r hr
    · rw [List.mem_singleton] at h
      rw [h]
      exact hlast
  · rw [join_filter_nonempty]
    simp

/-- C15, at reads of two bytes, none, one byte, and one byte with `io.EOF`. -/
theorem uploadStream_chunks_witness :
    ∃ chunks : List Bytes,
      uploadStream (fun _ _ => none) "/data/job-1".toList "/remote/results".toList
          ([([80, 75], none), ([], none), ([3], none)] ++ [([4], some Error.EOF)]) =
        some ⟨{ Path := pathJoin ["/remote/results".toList,
            Base "/data/job-1".toList ++ ".zip".toList] } ::
          chunks.map (fun c => ({ Content := c } : CreateFileRequest)), none⟩ ∧
      (∀ c ∈ chunks, 0 < c.length ∧ c.length ≤ 128) ∧
      chunks.flatten = ([([80, 75], none), ([], none), ([3], none)].map
        (fun r : Bytes × Option Error => r.1)).flatten ++ [4] :=
  uploadStream_chunks (fun _ _ => none) "/data/job-1".toList "/remote/results".toList
    [([80, 75], none), ([], none), ([3], none)] [4]
    (fun _ _ => rfl) (by decide) (by decide) (by decide)

/-! ## C14: the names of the headers -/

set_option maxRecDepth 100000 in
/-- C14 as stated fails for a source that ends with a separator. For the source
`/data/t/`, whose base name is `t`, on a directory that holds the file `a.txt`,
`zipFile` names the headers `./` and `a.txt`: not every header name is the
base name or begins with the base name and a separator. -/
theorem zipFile_header_names_counterexample :
    ¬ ∀ f ∈ (zipFile "/data/t/".toList (.dir 493 [("a.txt".toList, .file 420 "hi".toList)])).1,
      f.Name = Base "/data/t/".toList ∨
        HasPrefix f.Name (Base "/data/t/".toList ++ [Separator]) = true := by
  decide

/-- C14, amended. For a source whose text after the last separator is a name
`b` (not empty, not `.` or `..`), on a tree whose listings hold names, `b` is
the base name of the source, `zipFile` returns no error, and the headers it
writes are, in the order of the walk, one for every entry visited (the source
itself included), named by the names that lead to the entry from the parent
directory of the source, joined by the separator, with a separator appended
for a directory; so every header name is `b` or begins with `b` and a
separator, and it ends with a separator exactly when the entry is a
directory. -/
theorem zipFile_header_names (pre b : Str) (tree : Node)
    (hpre : pre = [] ∨ pre.getLast? = some Separator) (hb : IsElem b)
    (ht : tree.wellNamed = true) :
    Base (pre ++ b) = b ∧
      zipFile (pre ++ b) tree = (archiveOf [b] tree, none) ∧
      ∀ f ∈ (zipFile (pre ++ b) tree).1,
        (f.Name = b ∨ HasPrefix f.Name (b ++ [Separator]) = true) ∧
          (f.Name.getLast? = some Separator ↔ f.dirMode = true) := by
  refine ⟨Base_append pre b hpre hb, zipFile_archiveOf pre b tree hpre hb ht, ?_⟩
  rw [zipFile_archiveOf pre b tree hpre hb ht]
  exact archiveOf_header b tree hb ht

set_option maxRecDepth 100000 in
/-- C14, amended, at the source `/data/t` on a directory that holds the file
`a.txt` and the directory `sub` with the file `b.txt`. -/
theorem zipFile_header_names_witness :
    Base ("/data/".toList ++ "t".toList) = "t".toList ∧
      zipFile ("/data/".toList ++ "t".toList)
          (.dir 493 [("a.txt".toList, .file 420 "hi".toList),
            ("sub".toList, .dir 493 [("b.txt".toList, .file 420 [])])]) =
        (archiveOf ["t".toList]
          (.dir 493 [("a.txt".toList, .file 420 "hi".toList),
            ("sub".toList, .dir 493 [("b.txt".toList, .file 420 [])])]), none) ∧
      ∀ f ∈ (zipFile ("/data/".toList ++ "t".toList)
          (.dir 493 [("a.txt".toList, .file 420 "hi".toList),
            ("sub".toList, .dir 493 [("b.txt".toList, .file 420 [])])])).1,
        (f.Name = "t".toList ∨ HasPrefix f.Name ("t".toList ++ [Separator]) = true) ∧
          (f.Name.getLast? = some Separator ↔ f.dirMode = true) :=
  zipFile_header_names "/data/".toList "t".toList
    (.dir 493 [("a.txt".toList, .file 420 "hi".toList),
      ("sub".toList, .dir 493 [("b.txt".toList, .file 420 [])])])
    (by decide) (by decide) (by decide)

/-! ## C13: archiving and extracting -/

set_option maxRecDepth 100000 in
/-- C13 as stated fails for a source that ends with a separator. Archiving the
sample tree from the source `/data/t/` succeeds, but extracting that archive
into the directory `/out` returns the error "invalid file path: /out" (the
first header is named `./`), and nothing is found at `/out/t` afterwards. It
also fails for the root as destination: the archive of the sample tree from
the source `/data/t`, extracted into `/`, gives the error
"invalid file path: /t". -/
theorem unzip_zipFile_roundtrip_counterexample :
    (zipFile "/data/t/".toList sampleTree).2 = none ∧
    (unzip FS.os "/out/t.zip".toList ".".toList
      (sampleFS (zipFile "/data/t/".toList sampleTree).1)).2 =
        some (.New "invalid file path: /out".toList) ∧
    (unzip FS.os "/out/t.zip".toList ".".toList
      (sampleFS (zipFile "/data/t/".toList sampleTree).1)).1.entries
        ["out".toList, "t".toList] = none ∧
    (unzip FS.os "/out/t.zip".toList "/".toList
      (sampleFS (zipFile "/data/t".toList sampleTree).1)).2 =
        some (.New "invalid file path: /t".toList) := by
  decide

/-- C13, amended. Take a tree `T` as a directory listing gives it (proper,
pairwise different names in every listing), archived by `zipFile` from a
source whose text after the last separator is a proper name `b`, and a file
system without links whose working directory is absolute, where the archive
opened holds the entries `zipFile` wrote, the destination `D` does not resolve
to the root, no regular file is found at the destination or above it, and
nothing is found at or below `D/b`. Then `b` is the base name of the source,
`zipFile` returns no error, and `unzip` into `D` returns no error and leaves a
file system that holds at every path `r` below `D/b` exactly what `T` holds
at `r`: the same paths, directories where `T` has directories, and regular
files with the same content where `T` has regular files. Outside `D/b` it
only makes directories of `D` and the paths above it. -/
theorem unzip_zipFile_roundtrip (s : FS) (archive pre b D : Str) (T : Node)
    (hpre : pre = [] ∨ pre.getLast? = some Separator) (hb : IsElem b)
    (hT : T.wellNamed = true) (hTd : T.distinctNames = true)
    (hwd : IsAbs s.cwd = true)
    (harch : s.archives archive = some (zipFile (pre ++ b) T).1)
    (hD : s.resolve D ≠ [])
    (hdirs : ∀ p, p <+: s.resolve D → Entry.isFile (s.entries p) = false)
    (hfree : ∀ r, s.entries (s.resolve D ++ b :: r) = none) :
    Base (pre ++ b) = b ∧ (zipFile (pre ++ b) T).2 = none ∧
    ∃ s', unzip FS.os archive D s = (s', none) ∧
      (∀ r, s'.entries (s.resolve D ++ b :: r) = T.lookup r) ∧
      (∀ x, ¬ (s.resolve D ++ [b]) <+: x →
        s'.entries x = if x <+: s.resolve D then some .dir else s.entries x) := by
  have hz := zipFile_archiveOf pre b T hpre hb hT
  refine ⟨Base_append pre b hpre hb, by rw [hz], ?_⟩
  rw [unzip_archive s archive D _ hwd harch, hz]
  exact extract_node (s.resolve D) (rootedElems_elems _) hD T [b] (s.resolve D) b s
    (by simpa using hb) (by simp) rfl hT hTd hdirs hfree

set_option maxRecDepth 100000 in
/-- C13, amended, at the sample tree archived from `/data/t` and extracted
into the working directory `/out`. -/
theorem unzip_zipFile_roundtrip_witness :
    Base ("/data/".toList ++ "t".toList) = "t".toList ∧
    (zipFile ("/data/".toList ++ "t".toList) sampleTree).2 = none ∧
    ∃ s', unzip FS.os "/out/t.zip".toList ".".toList
        (sampleFS (zipFile ("/data/".toList ++ "t".toList) sampleTree).1) = (s', none) ∧
      (∀ r, s'.entries ((sampleFS (zipFile ("/data/".toList ++ "t".toList) sampleTree).1).resolve
          ".".toList ++ "t".toList :: r) = sampleTree.lookup r) ∧
      (∀ x, ¬ ((sampleFS (zipFile ("/data/".toList ++ "t".toList) sampleTree).1).resolve
          ".".toList ++ ["t".toList]) <+: x →
        s'.entries x =
          if x <+: (sampleFS (zipFile ("/data/".toList ++ "t".toList) sampleTree).1).resolve
            ".".toList then some .dir
          else (sampleFS (zipFile ("/data/".toList ++ "t".toList) sampleTree).1).entries x) :=
  unzip_zipFile_roundtrip (sampleFS (zipFile ("/data/".toList ++ "t".toList) sampleTree).1)
    "/out/t.zip".toList "/data/".toList "t".toList ".".toList sampleTree
    (by decide) (by decide) (by decide) (by decide) (by decide) (by simp only [sampleFS, if_true])
    (by decide)
    (by
      intro p _
      simp only [sampleFS]
      split <;> rfl)
    (by
      intro r
      have hres : (sampleFS (zipFile ("/data/".toList ++ "t".toList) sampleTree).1).resolve
          ".".toList = ["out".toList] := by decide
      rw [hres]
      simp [sampleFS])

end Wlm
